import Mathlib

/-!
# cloudtree: a compressed prefix tree (radix tree)

Shallow embedding of `tree.go` and the properties of its public operations.

Modelling decisions.

* A Go `string` is a sequence of bytes: `Str := List Byte`, a byte being a natural number
  (only equality of bytes is ever used by the code).
* `interface{}` values are `Value := Option Nat`, `none` standing for Go's `nil`.
* The tree is a strict ownership tree (every node is referenced by exactly one edge, the root by
  the tree handle), so a `*node` is embedded as the node value itself and an in-place update of a
  node below `n` as the replacement of that child in `n`'s edge list.
* The `for` loops of `Insert`, `Get`, `Delete`, ... walk down one edge per iteration; each one is
  embedded as a pair of mutually recursive functions, one for the loop body at a node and one for
  the scan of the edge slice done by `getEdge` followed by the rest of the body.
* A Go panic is the value `none` (or the constructor `panic`).
-/

namespace cloudtree

/-- One byte of a Go string. -/
abbrev Byte := Nat

/-- Go `string`: a sequence of bytes. -/
abbrev Str := List Byte

/-- Go `interface{}`; `none` is `nil`. -/
abbrev Value := Option Nat

/-- Go `walkFn`, for callbacks that do not touch the tree. -/
abbrev walkFn := Str → Value → Bool

/-- Go `leafNode`. -/
structure leafNode where
  key : Str
  value : Value
deriving DecidableEq, Repr

mutual
/-- Go `node`. -/
inductive node where
  | mk (leaf : Option leafNode) (depth : Int) (pfx : Str) (edges : List edge)
/-- Go `edge`. -/
inductive edge where
  | mk (label : Str) (n : node)
end

/-- Field `leaf` of a node. -/
def node.leaf : node → Option leafNode
  | .mk l _ _ _ => l

/-- Field `depth` of a node. -/
def node.depth : node → Int
  | .mk _ d _ _ => d

/-- Field `prefix` of a node. -/
def node.pfx : node → Str
  | .mk _ _ p _ => p

/-- Field `edges` of a node. -/
def node.edges : node → List edge
  | .mk _ _ _ es => es

/-- Field `label` of an edge. -/
def edge.label : edge → Str
  | .mk l _ => l

/-- Field `n` of an edge. -/
def edge.n : edge → node
  | .mk _ n => n

/-- Go `Tree`. -/
structure Tree where
  root : node
  value : Str
  size : Int
  resourceClass : Str

/-- The zero value `&node{}`. -/
def emptyNode : node := .mk none 0 [] []

/-- Go conversion `string(b)` of a byte: the UTF-8 encoding of the code point `b`. -/
def byteString (b : Byte) : Str :=
  if b < 128 then [b] else [192 + b / 64, 128 + b % 64]

/-- Go `strings.HasPrefix(s, p)`: `len(s) >= len(p) && s[:len(p)] == p`. -/
def hasPrefix (s p : Str) : Bool :=
  decide (p.length ≤ s.length) && (s.take p.length == p)

/-- Go `New`: `NewFromMap` with a nil map, whose loop body never runs. -/
def New (resourceClass : Str) : Tree :=
  ⟨emptyNode, [], 0, resourceClass⟩

/-- Go `isLeaf`. -/
def node.isLeaf (n : node) : Bool := n.leaf.isSome

/-- Go `addEdge`. -/
def node.addEdge : node → edge → node
  | .mk leaf depth pfx edges, e => .mk leaf depth pfx (edges ++ [e])

/-- The scan of `getEdge` over an edge slice: the node of the first edge with that label. -/
def getEdgeL : List edge → Str → Option node
  | [], _ => none
  | e :: rest, label => if e.label = label then some e.n else getEdgeL rest label

/-- Go `getEdge`; `none` is the nil pointer. -/
def node.getEdge (n : node) (label : Str) : Option node := getEdgeL n.edges label

/-- The edge slice after the first edge with that label has been removed; `none` when there is
no such edge (`index == -1`). -/
def delEdgeL : List edge → Str → Option (List edge)
  | [], _ => none
  | e :: rest, label =>
    if e.label = label then some rest
    else match delEdgeL rest label with
      | none => none
      | some rest1 => some (e :: rest1)

/-- Go `delEdge`; `none` is the panic "no edge found". -/
def node.delEdge : node → Str → Option node
  | .mk leaf depth pfx edges, label =>
    match delEdgeL edges label with
    | none => none
    | some edges1 => some (.mk leaf depth pfx edges1)

/-- The loop of `updateEdge`: the first edge with that label gets the new node. -/
def updateEdgeL : List edge → Str → node → List edge
  | [], _, _ => []
  | e :: rest, label, newNode =>
    if e.label = label then .mk e.label newNode :: rest
    else e :: updateEdgeL rest label newNode

/-- Go `updateEdge`; `none` is the panic "No edge found to update". -/
def node.updateEdge : node → Str → node → Option node
  | .mk leaf depth pfx edges, label, newNode =>
    if edges.length = 0 then none
    else some (.mk leaf depth pfx (updateEdgeL edges label newNode))

/-- The loop of `longestPrefix`, started at index `i` with `max - i` iterations left. -/
def longestPrefixLoop (k1 k2 : Str) : Nat → Nat → Nat
  | 0, i => i
  | left + 1, i => if k1.getD i 0 ≠ k2.getD i 0 then i else longestPrefixLoop k1 k2 left (i + 1)

/-- Go `longestPrefix`. -/
def longestPrefix (k1 k2 : Str) : Nat :=
  let max := if k2.length < k1.length then k2.length else k1.length
  longestPrefixLoop k1 k2 max 0

/-- Go `Len`. -/
def Tree.Len (tr : Tree) : Int := tr.size

/-- Go `mergeChild`; `none` is the index-out-of-range panic of `n.edges[0]`. -/
def node.mergeChild : node → Option node
  | .mk _ depth pfx edges =>
    match edges with
    | [] => none
    | e :: _ => some (.mk e.n.leaf depth (pfx ++ e.n.pfx) e.n.edges)

/-- What `Insert` hands back besides the updated node: the two results and the number of times
`tr.size++` ran. -/
structure InsertOut where
  old : Value
  existed : Bool
  inc : Int

mutual
/-- One iteration of the loop of `Insert` with `currNode` the given node and `nodeKey` the rest
of the key; `key` is `keyToBeInsterted`. Returns the node after the update. -/
def insertNode : node → Str → Str → Value → node × InsertOut
  | .mk leaf depth pfx edges, nodeKey, key, nodeValue =>
    match nodeKey with
    | [] =>
      match leaf with
      | some l => (.mk (some ⟨l.key, nodeValue⟩) depth pfx edges, ⟨l.value, true, 0⟩)
      | none => (.mk (some ⟨key, nodeValue⟩) depth pfx edges, ⟨none, false, 1⟩)
    | b :: _ =>
      match insertEdges edges (byteString b) nodeKey key nodeValue with
      | none =>
        ((node.mk leaf depth pfx edges).addEdge
          (.mk (byteString b) (.mk (some ⟨key, nodeValue⟩) 0 nodeKey [])), ⟨none, false, 1⟩)
      | some (edges1, out) => (.mk leaf depth pfx edges1, out)
/-- The call `currNode.getEdge(string(nodeKey[0]))` on the edge slice of the parent and, for the
edge found, the rest of the iteration; `none` when `getEdge` returns nil. The edge found gets its
new node in place, as `updateEdge` does. -/
def insertEdges : List edge → Str → Str → Str → Value → Option (List edge × InsertOut)
  | [], _, _, _, _ => none
  | (.mk l currNode) :: rest, label, nodeKey, key, nodeValue =>
    if l = label then
      let commonPrefix := longestPrefix nodeKey currNode.pfx
      if commonPrefix = currNode.pfx.length then
        let r := insertNode currNode (nodeKey.drop commonPrefix) key nodeValue
        some (.mk l r.1 :: rest, r.2)
      else
        let child : node := (node.mk none 0 (nodeKey.take commonPrefix) []).addEdge
          (.mk (byteString (currNode.pfx.getD commonPrefix 0))
            (.mk currNode.leaf currNode.depth (currNode.pfx.drop commonPrefix) currNode.edges))
        let leaf : leafNode := ⟨key, nodeValue⟩
        match nodeKey.drop commonPrefix with
        | [] => some (.mk l (.mk (some leaf) child.depth child.pfx child.edges) :: rest,
                      ⟨none, false, 1⟩)
        | c :: tl =>
          some (.mk l (child.addEdge (.mk (byteString c) (.mk (some leaf) 0 (c :: tl) []))) :: rest,
                ⟨none, false, 1⟩)
    else
      match insertEdges rest label nodeKey key nodeValue with
      | none => none
      | some (rest1, out) => some (.mk l currNode :: rest1, out)
end

/-- Go `Insert`: the tree afterwards and the two results. -/
def Tree.Insert (tr : Tree) (nodeKey : Str) (nodeValue : Value) : Tree × Value × Bool :=
  if nodeKey = [] then (tr, none, false)
  else
    let r := insertNode tr.root nodeKey nodeKey nodeValue
    (⟨r.1, tr.value, tr.size + r.2.inc, tr.resourceClass⟩, r.2.old, r.2.existed)

mutual
/-- One iteration of the loop of `Get` at node `n` with the rest of the pattern. -/
def getNode : node → Str → Value × Bool
  | .mk leaf _ _ edges, pattern =>
    match pattern with
    | [] =>
      match leaf with
      | some l => (l.value, true)
      | none => (none, false)
    | b :: _ => getEdges edges (byteString b) pattern
/-- The call `n.getEdge(string(pattern[0]))` and, for the edge found, the rest of the iteration. -/
def getEdges : List edge → Str → Str → Value × Bool
  | [], _, _ => (none, false)
  | (.mk l n) :: rest, label, pattern =>
    if l = label then
      if hasPrefix pattern n.pfx then getNode n (pattern.drop n.pfx.length)
      else (none, false)
    else getEdges rest label pattern
end

/-- Go `Get`. -/
def Tree.Get (tr : Tree) (pattern : Str) : Value × Bool := getNode tr.root pattern

/-- The node `n` reached through `parent.getEdge(label)` has been updated in place: what the
parent looks like afterwards. -/
def node.setChild : node → Str → node → node
  | .mk leaf depth pfx edges, label, n => .mk leaf depth pfx (updateEdgeL edges label n)

/-- The block after the label `DELETE` of `Delete`, for `n` reached from `parent` (a different
node) through the edge `label`. Returns the parent afterwards and `leaf.value`; `none` is a
panic. `parentIsRoot` is `parent == tr.root`. -/
def deleteBlock (parentIsRoot : Bool) (parent : node) (label : Str) (n : node) :
    Option (node × Value) :=
  match n.leaf with
  | none => none
  | some leaf =>
    let n1 : node := .mk none n.depth n.pfx n.edges
    (if n1.edges.length = 0 then parent.delEdge label
      else some (parent.setChild label n1)).bind fun parent1 =>
    (if n1.edges.length = 1 then n1.mergeChild.map (fun n2 => parent1.setChild label n2)
      else some parent1).bind fun parent2 =>
    (if parent2.edges.length = 1 && !parentIsRoot && !parent2.isLeaf then parent2.mergeChild
      else some parent2).bind fun parent3 =>
    some (parent3, leaf.value)

/-- The block after the label `DELETE` when the loop of `Delete` stopped at once, so that `n` and
`parent` both are the root and `label` is still the empty string. -/
def deleteBlockRoot (root : node) : Option (node × Value) :=
  match root.leaf with
  | none => none
  | some leaf =>
    let n1 : node := .mk none root.depth root.pfx root.edges
    (if n1.edges.length = 0 then n1.delEdge [] else some n1).bind fun n2 =>
    (if n2.edges.length = 1 then n2.mergeChild else some n2).bind fun n3 =>
    some (n3, leaf.value)

/-- How the descent of `Delete` from a node ended. -/
inductive DelRes where
  /-- The loop was left by `break`: `return nil, false`. -/
  | notFound
  /-- The pattern is used up at this very node and it has a leaf: `goto DELETE` with `n` this
  node; the block is run by whoever knows the parent. -/
  | atLeaf
  /-- The block `DELETE` ran further down; the node afterwards and `leaf.value`. -/
  | deleted (n : node) (v : Value)
  /-- A panic. -/
  | panic

/-- How the descent of `Delete` through an edge slice ended. -/
inductive DelScan where
  /-- The loop was left by `break`. -/
  | notFound
  /-- The node `n` found by `getEdge` is where the pattern is used up, and it has a leaf. -/
  | atLeaf (n : node)
  /-- The block `DELETE` ran further down; the slice afterwards and `leaf.value`. -/
  | deleted (edges : List edge) (v : Value)
  /-- A panic. -/
  | panic

mutual
/-- One iteration of the loop of `Delete` at node `n` with the rest of the pattern; `isRoot`
tells whether `n` is `tr.root`. -/
def deleteNode : node → Bool → Str → DelRes
  | .mk leaf depth pfx edges, isRoot, pattern =>
    match pattern with
    | [] => if (node.mk leaf depth pfx edges).isLeaf then .atLeaf else .notFound
    | b :: _ =>
      match deleteEdges edges (byteString b) pattern with
      | .notFound => .notFound
      | .panic => .panic
      | .atLeaf n =>
        match deleteBlock isRoot (.mk leaf depth pfx edges) (byteString b) n with
        | none => .panic
        | some (parent1, v) => .deleted parent1 v
      | .deleted edges1 v => .deleted (.mk leaf depth pfx edges1) v
/-- The call `n.getEdge(string(pattern[0]))` and, for the edge found, the rest of the iteration
and the iterations below it. -/
def deleteEdges : List edge → Str → Str → DelScan
  | [], _, _ => .notFound
  | (.mk l n) :: rest, label, pattern =>
    if l = label then
      if hasPrefix pattern n.pfx then
        match deleteNode n false (pattern.drop n.pfx.length) with
        | .notFound => .notFound
        | .panic => .panic
        | .atLeaf => .atLeaf n
        | .deleted n1 v => .deleted (.mk l n1 :: rest) v
      else .notFound
    else
      match deleteEdges rest label pattern with
      | .deleted rest1 v => .deleted (.mk l n :: rest1) v
      | r => r
end

/-- Go `Delete`: the tree afterwards and the two results; `none` is a panic. -/
def Tree.Delete (tr : Tree) (pattern : Str) : Option (Tree × Value × Bool) :=
  match deleteNode tr.root true pattern with
  | .notFound => some (tr, none, false)
  | .panic => none
  | .atLeaf =>
    match deleteBlockRoot tr.root with
    | none => none
    | some (root1, v) => some (⟨root1, tr.value, tr.size - 1, tr.resourceClass⟩, v, true)
  | .deleted root1 v => some (⟨root1, tr.value, tr.size - 1, tr.resourceClass⟩, v, true)

mutual
/-- Go `recursiveWalk` for a callback that does not touch the tree (so that `len(n.edges)` stays
`k` and the loop is a plain iteration over the edges): the calls of `fn` in order, and the
result. -/
def recursiveWalk : node → walkFn → List (Str × Value) × Bool
  | .mk leaf _ _ edges, fn =>
    match leaf with
    | some l =>
      if fn l.key l.value then ([(l.key, l.value)], true)
      else ((l.key, l.value) :: (walkEdges edges fn).1, (walkEdges edges fn).2)
    | none => walkEdges edges fn
/-- The loop of `recursiveWalk` over the edges. -/
def walkEdges : List edge → walkFn → List (Str × Value) × Bool
  | [], _ => ([], false)
  | (.mk _ n) :: rest, fn =>
    if (recursiveWalk n fn).2 then ((recursiveWalk n fn).1, true)
    else ((recursiveWalk n fn).1 ++ (walkEdges rest fn).1, (walkEdges rest fn).2)
end

/-- Go `Walk`: the calls of `fn` and the result. -/
def Tree.Walk (tr : Tree) (fn : walkFn) : List (Str × Value) × Bool := recursiveWalk tr.root fn

mutual
/-- Go `deletePrefix(parent, n, pattern)` as called from `DeletePrefix`: `parent` is `tr.root`
in the first call and is handed on unchanged, so the guard `parent != tr.root` fails in every
call and `parent.mergeChild()` is never run. Returns `n` afterwards and the result. -/
def deletePrefixNode : node → Str → node × Int
  | .mk leaf depth pfx edges, pattern =>
    match pattern with
    | [] =>
      let subTreeSize : Int := (recursiveWalk (.mk leaf depth pfx edges) (fun _ _ => false)).1.length
      (.mk none depth pfx [], subTreeSize)
    | b :: _ =>
      match deletePrefixEdges edges (byteString b) pattern with
      | none => (.mk leaf depth pfx edges, 0)
      | some (edges1, cnt) => (.mk leaf depth pfx edges1, cnt)
/-- The call `n.getEdge(string(pattern[0]))` of `deletePrefix` and what follows it; `none` stands
for the two `return 0`. -/
def deletePrefixEdges : List edge → Str → Str → Option (List edge × Int)
  | [], _, _ => none
  | (.mk l child) :: rest, label, pattern =>
    if l = label then
      if !hasPrefix pattern child.pfx && !hasPrefix child.pfx pattern then none
      else
        let pattern1 :=
          if pattern.length > child.pfx.length then pattern.drop child.pfx.length
          else pattern.drop pattern.length
        let r := deletePrefixNode child pattern1
        some (.mk l r.1 :: rest, r.2)
    else
      match deletePrefixEdges rest label pattern with
      | none => none
      | some (rest1, cnt) => some (.mk l child :: rest1, cnt)
end

/-- Go `DeletePrefix`: the tree afterwards and the result. -/
def Tree.DeletePrefix (tr : Tree) (pattern : Str) : Tree × Int :=
  let r := deletePrefixNode tr.root pattern
  (⟨r.1, tr.value, tr.size - r.2, tr.resourceClass⟩, r.2)

mutual
/-- One iteration of the loop of `WalkPrefix`; returns the calls of `fn`. -/
def walkPrefixNode : node → Str → walkFn → List (Str × Value)
  | .mk leaf depth pfx edges, pattern, fn =>
    match pattern with
    | [] => (recursiveWalk (.mk leaf depth pfx edges) fn).1
    | b :: _ => walkPrefixEdges edges (byteString b) pattern fn
/-- The call `n.getEdge(string(pattern[0]))` of `WalkPrefix` and what follows it. -/
def walkPrefixEdges : List edge → Str → Str → walkFn → List (Str × Value)
  | [], _, _, _ => []
  | (.mk l n) :: rest, label, pattern, fn =>
    if l = label then
      if hasPrefix pattern n.pfx then walkPrefixNode n (pattern.drop n.pfx.length) fn
      else if hasPrefix n.pfx pattern then (recursiveWalk n fn).1
      else []
    else walkPrefixEdges rest label pattern fn
end

/-- Go `WalkPrefix`: the calls of `fn`, in order. -/
def Tree.WalkPrefix (tr : Tree) (pfx : Str) (fn : walkFn) : List (Str × Value) :=
  walkPrefixNode tr.root pfx fn

mutual
/-- One iteration of the loop of `WalkPath`; returns the calls of `fn`. -/
def walkPathNode : node → Str → walkFn → List (Str × Value)
  | .mk leaf _ _ edges, pattern, fn =>
    match leaf with
    | some l =>
      if fn l.key l.value then [(l.key, l.value)]
      else
        match pattern with
        | [] => [(l.key, l.value)]
        | b :: _ => (l.key, l.value) :: walkPathEdges edges (byteString b) pattern fn
    | none =>
      match pattern with
      | [] => []
      | b :: _ => walkPathEdges edges (byteString b) pattern fn
/-- The call `n.getEdge(string(pattern[0]))` of `WalkPath` and what follows it. -/
def walkPathEdges : List edge → Str → Str → walkFn → List (Str × Value)
  | [], _, _, _ => []
  | (.mk l n) :: rest, label, pattern, fn =>
    if l = label then
      if hasPrefix pattern n.pfx then walkPathNode n (pattern.drop n.pfx.length) fn
      else []
    else walkPathEdges rest label pattern fn
end

/-- Go `WalkPath`: the calls of `fn`, in order. -/
def Tree.WalkPath (tr : Tree) (path : Str) (fn : walkFn) : List (Str × Value) :=
  walkPathNode tr.root path fn

mutual
/-- One iteration of the loop of `LongestPrefix`; `last` is threaded through. -/
def longestPrefixNode : node → Str → Option leafNode → Option leafNode
  | .mk leaf _ _ edges, pattern, last =>
    match pattern with
    | [] => if leaf.isSome then leaf else last
    | b :: _ => longestPrefixEdges edges (byteString b) pattern (if leaf.isSome then leaf else last)
/-- The call `n.getEdge(string(pattern[0]))` of `LongestPrefix` and what follows it. -/
def longestPrefixEdges : List edge → Str → Str → Option leafNode → Option leafNode
  | [], _, _, last => last
  | (.mk l n) :: rest, label, pattern, last =>
    if l = label then
      if hasPrefix pattern n.pfx then longestPrefixNode n (pattern.drop n.pfx.length) last
      else last
    else longestPrefixEdges rest label pattern last
end

/-- Go `LongestPrefix`. -/
def Tree.LongestPrefix (tr : Tree) (pattern : Str) : Str × Value × Bool :=
  match longestPrefixNode tr.root pattern none with
  | some last => (last.key, last.value, true)
  | none => ([], none, false)

/-- Go `map[string]interface{}`: the entries, at most one for a key. -/
abbrev GoMap := List (Str × Value)

/-- Go `m[k] = v`. -/
def GoMap.set : GoMap → Str → Value → GoMap
  | [], k, v => [(k, v)]
  | (k1, v1) :: rest, k, v => if k1 = k then (k, v) :: rest else (k1, v1) :: GoMap.set rest k v

/-- Go `v, ok := m[k]`. -/
def GoMap.get : GoMap → Str → Option Value
  | [], _ => none
  | (k1, v1) :: rest, k => if k1 = k then some v1 else GoMap.get rest k

/-- Go `ToMap`: the callback stores each pair in `out` and returns false. -/
def Tree.ToMap (tr : Tree) : GoMap :=
  (tr.Walk (fun _ _ => false)).1.foldl (fun out kv => GoMap.set out kv.1 kv.2) []

/-- One call of the public mutating interface. -/
inductive Op where
  | insert (key : Str) (value : Value)
  | delete (key : Str)
  | deletePrefix (pfx : Str)

/-- The tree after one call; `none` when the call panics. -/
def Tree.apply (tr : Tree) : Op → Option Tree
  | .insert k v => some (tr.Insert k v).1
  | .delete k => (tr.Delete k).map (fun r => r.1)
  | .deletePrefix p => some (tr.DeletePrefix p).1

/-- The tree after a sequence of calls, oldest first; `none` when one of them panics. -/
def Tree.run (tr : Tree) : List Op → Option Tree
  | [] => some tr
  | op :: ops => (tr.apply op).bind (fun tr1 => Tree.run tr1 ops)

/-- Trees reachable from `New` by a finite sequence of `Insert`, `Delete` and `DeletePrefix`. -/
def Reachable (tr : Tree) : Prop :=
  ∃ (resourceClass : Str) (ops : List Op), (New resourceClass).run ops = some tr

/-! ## Specification-level notions -/

/-- Length of the longest common prefix of two strings, by recursion on the strings. -/
def commonLen : Str → Str → Nat
  | a :: k1, b :: k2 => if a = b then commonLen k1 k2 + 1 else 0
  | _, _ => 0

mutual
/-- The leaf the descent of `Get` ends at, if any: `pattern` is what is left of the key at
this node. -/
def findLeaf : node → Str → Option leafNode
  | .mk leaf _ _ edges, pattern =>
    match pattern with
    | [] => leaf
    | b :: _ => findLeafEdges edges (byteString b) pattern
/-- The descent of `findLeaf` through an edge slice. -/
def findLeafEdges : List edge → Str → Str → Option leafNode
  | [], _, _ => none
  | (.mk l n) :: rest, label, pattern =>
    if l = label then
      if hasPrefix pattern n.pfx then findLeaf n (pattern.drop n.pfx.length) else none
    else findLeafEdges rest label pattern
end

/-- The descent of `findLeaf` through a node whose own prefix still has to be matched. -/
def findVia (n : node) (pattern : Str) : Option leafNode :=
  if hasPrefix pattern n.pfx then findLeaf n (pattern.drop n.pfx.length) else none

/-- The leaf of a node as a list of at most one entry, reached by no further byte. -/
def leafPart : Option leafNode → List (Str × leafNode)
  | some l => [([], l)]
  | none => []

mutual
/-- The leaves below a node in pre-order, each with the bytes that lead to it from the node. -/
def entriesN : node → List (Str × leafNode)
  | .mk leaf _ _ edges => leafPart leaf ++ entriesL edges
/-- The leaves reached through the edges of a slice, in order. -/
def entriesL : List edge → List (Str × leafNode)
  | [] => []
  | (.mk _ n) :: rest => (entriesN n).map (fun x => (n.pfx ++ x.1, x.2)) ++ entriesL rest
end

/-- The label of the edge is the conversion of the first byte of its node's prefix, which is not
empty. -/
def edge.labelled (e : edge) : Prop :=
  match e.n.pfx with
  | [] => False
  | b :: _ => e.label = byteString b

mutual
/-- Well-formedness of the subtree of a node reached by the bytes `path`: every leaf holds the
bytes that lead to it as its key, every edge is labelled by the first byte of its node's
prefix, and the labels of the edges of a node are pairwise different. -/
def node.WF : node → Str → Prop
  | .mk leaf _ _ edges, path => (∀ l, leaf = some l → l.key = path) ∧ edge.WFL edges path
/-- Well-formedness of an edge slice of a node reached by `path`. -/
def edge.WFL : List edge → Str → Prop
  | [], _ => True
  | (.mk l n) :: rest, path =>
    (edge.mk l n).labelled ∧ getEdgeL rest l = none ∧ n.WF (path ++ n.pfx) ∧ edge.WFL rest path
end

/-- The invariant of the trees built through the public interface: the root has no leaf, the
tree is well-formed and `size` is the number of leaves. -/
def Tree.Inv (tr : Tree) : Prop :=
  tr.root.leaf = none ∧ tr.root.WF [] ∧ tr.size = (entriesN tr.root).length

/-- The two results of `Get` for the leaf the descent ends at. -/
def leafResult : Option leafNode → Value × Bool
  | some l => (l.value, true)
  | none => (none, false)

/-- The node put in the place of `currNode` when `Insert` splits it: the common prefix, below
it the old node with the rest of its prefix and the new leaf, on the node itself or on a second
edge. -/
def splitNode (currNode : node) (nodeKey key : Str) (nodeValue : Value) : node :=
  let commonPrefix := longestPrefix nodeKey currNode.pfx
  let old : edge := .mk (byteString (currNode.pfx.getD commonPrefix 0))
    (.mk currNode.leaf currNode.depth (currNode.pfx.drop commonPrefix) currNode.edges)
  match nodeKey.drop commonPrefix with
  | [] => .mk (some ⟨key, nodeValue⟩) 0 (nodeKey.take commonPrefix) [old]
  | c :: tl =>
    .mk none 0 (nodeKey.take commonPrefix)
      [old, .mk (byteString c) (.mk (some ⟨key, nodeValue⟩) 0 (c :: tl) [])]

/-- What an iteration of `Insert` does with the node found by `getEdge`. -/
def insertChild (currNode : node) (nodeKey key : Str) (nodeValue : Value) : node × InsertOut :=
  if longestPrefix nodeKey currNode.pfx = currNode.pfx.length then
    insertNode currNode (nodeKey.drop (longestPrefix nodeKey currNode.pfx)) key nodeValue
  else (splitNode currNode nodeKey key nodeValue, ⟨none, false, 1⟩)

/-- The node `c1` is what `Delete` leaves in the place of the node `c` reached by `path`: its
prefix may have grown by a merge, it is well-formed, the descent through it ends where it did
through `c` except for the key `k` (counted from the parent), which is gone, and there is one
leaf less. -/
def DelOK (c c1 : node) (path k : Str) : Prop :=
  (∃ ext, c1.pfx = c.pfx ++ ext ∧ c1.WF (path ++ ext)) ∧
  (∀ y, findVia c1 y = if y = k then none else findVia c y) ∧
  (entriesN c1).length + 1 = (entriesN c).length

/-- What `deletePrefix` is to do with a node: well-formedness is kept, the descent through the
node finds what it found except under the pattern, where it finds nothing, and the result is
the number of leaves under the pattern, which is the number of leaves that went away. -/
def PrefixOK (c c1 : node) (cnt : Int) (path q : Str) : Prop :=
  c1.pfx = c.pfx ∧ c1.WF path ∧
  (∀ y, findLeaf c1 y = if q <+: y then none else findLeaf c y) ∧
  cnt = (entriesN c).countP (fun x => hasPrefix x.1 q) ∧
  ((entriesN c1).length : Int) + cnt = (entriesN c).length

/-- The tree after inserting the pairs of a list in order. -/
def insertAll : Tree → List (Str × Value) → Tree
  | tr, [] => tr
  | tr, (k, v) :: rest => insertAll (tr.Insert k v).1 rest

/-! ## Example data -/

/-- The key "romane". -/
def romane : Str := [114, 111, 109, 97, 110, 101]

/-- The key "romanus". -/
def romanus : Str := [114, 111, 109, 97, 110, 117, 115]

/-- The key "romulus". -/
def romulus : Str := [114, 111, 109, 117, 108, 117, 115]

/-- The key "rubens". -/
def rubens : Str := [114, 117, 98, 101, 110, 115]

/-- The string "rom". -/
def rom : Str := [114, 111, 109]

/-- The four keys with the values 1 to 4. -/
def romanPairs : List (Str × Value) :=
  [(romane, some 1), (romanus, some 2), (romulus, some 3), (rubens, some 4)]

/-- The calls that insert the four keys with the values 1 to 4. -/
def romanOps : List Op :=
  [.insert romane (some 1), .insert romanus (some 2), .insert romulus (some 3),
    .insert rubens (some 4)]

/-- The tree holding the four keys. -/
def romanTree : Tree := insertAll (New []) romanPairs

/-- The key "foo". -/
def foo : Str := [102, 111, 111]

/-- The key "foobar". -/
def foobar : Str := [102, 111, 111, 98, 97, 114]

/-- The string "foobarbaz". -/
def foobarbaz : Str := [102, 111, 111, 98, 97, 114, 98, 97, 122]

/-- The string "fo". -/
def fo : Str := [102, 111]

/-- The tree holding "foo" and "foobar". -/
def fooTree : Tree := insertAll (New []) [(foo, some 1), (foobar, some 2)]

/-! ## Counting nodes and prefix compression -/

mutual
/-- Number of nodes of the subtree of a node (the node included) that carry a leaf. -/
def leafCount : node → Nat
  | .mk leaf _ _ edges => (if leaf.isSome then 1 else 0) + leafCountL edges
/-- Number of nodes with a leaf in the subtrees of the edges of a slice. -/
def leafCountL : List edge → Nat
  | [] => 0
  | (.mk _ n) :: rest => leafCount n + leafCountL rest
end

/-- A node with exactly one edge and no leaf. -/
def node.single (n : node) : Bool := n.leaf.isNone && decide (n.edges.length = 1)

mutual
/-- No node strictly below the given one has exactly one edge and no leaf. -/
def noSingleBelow : node → Bool
  | .mk _ _ _ edges => noSingleL edges
/-- No node in the subtrees of the edges of a slice has exactly one edge and no leaf. -/
def noSingleL : List edge → Bool
  | [] => true
  | (.mk _ n) :: rest => !n.single && noSingleBelow n && noSingleL rest
end

/-- Invariant 2 at one node: a leaf, or at least two edges. -/
def node.compressed (n : node) : Bool := n.leaf.isSome || decide (2 ≤ n.edges.length)

mutual
/-- Invariant 2 at every node strictly below the given one. -/
def compressedBelow : node → Bool
  | .mk _ _ _ edges => compressedL edges
/-- Invariant 2 at every node in the subtrees of the edges of a slice. -/
def compressedL : List edge → Bool
  | [] => true
  | (.mk _ n) :: rest => n.compressed && compressedBelow n && compressedL rest
end

/-- A call that is `Insert` or `Delete`. -/
def Op.isInsertOrDelete : Op → Bool
  | .insert _ _ => true
  | .delete _ => true
  | .deletePrefix _ => false

/-! ## Example data for the defects -/

/-- The key "ab". -/
def keyAb : Str := [97, 98]

/-- The key "abx". -/
def keyAbx : Str := [97, 98, 120]

/-- The string "x". -/
def keyX : Str := [120]

/-- Insert "ab", DeletePrefix "ab", Insert "abx". -/
def singleOps : List Op :=
  [.insert keyAb (some 1), .deletePrefix keyAb, .insert keyAbx (some 2)]

/-- The tree after `singleOps`. -/
def singleTree : Tree :=
  ((((New []).Insert keyAb (some 1)).1.DeletePrefix keyAb).1.Insert keyAbx (some 2)).1

/-- A node with the single edge "a". -/
def oneEdgeNode : node := .mk none 0 [] [.mk [97] emptyNode]

/-! ## Insert with the panics made explicit -/

/-- The loop of `longestPrefix` with the index expressions `k1[i]` and `k2[i]` checked; `none`
is an index out of range. -/
def longestPrefixLoopChk (k1 k2 : Str) : Nat → Nat → Option Nat
  | 0, i => some i
  | left + 1, i =>
    match k1[i]?, k2[i]? with
    | some a, some b => if a ≠ b then some i else longestPrefixLoopChk k1 k2 left (i + 1)
    | _, _ => none

/-- Go `longestPrefix` with the index expressions checked. -/
def longestPrefixChk (k1 k2 : Str) : Option Nat :=
  let max := if k2.length < k1.length then k2.length else k1.length
  longestPrefixLoopChk k1 k2 max 0

mutual
/-- One iteration of the loop of `Insert` as `insertNode`, with every step that can panic
written out: the index and slice expressions, and the call of `updateEdge` on the parent.
`none` is a panic. -/
def insertNodeChk : node → Str → Str → Value → Option (node × InsertOut)
  | .mk leaf depth pfx edges, nodeKey, key, nodeValue =>
    match nodeKey with
    | [] =>
      match leaf with
      | some l => some (.mk (some ⟨l.key, nodeValue⟩) depth pfx edges, ⟨l.value, true, 0⟩)
      | none => some (.mk (some ⟨key, nodeValue⟩) depth pfx edges, ⟨none, false, 1⟩)
    | b :: _ =>
      match insertEdgesChk (.mk leaf depth pfx edges) edges (byteString b) nodeKey key
          nodeValue with
      | none => none
      | some none =>
        some ((node.mk leaf depth pfx edges).addEdge
          (.mk (byteString b) (.mk (some ⟨key, nodeValue⟩) 0 nodeKey [])), ⟨none, false, 1⟩)
      | some (some r) => some r
/-- The call `currNode.getEdge(string(nodeKey[0]))` and the rest of the iteration, with the
panics written out; `parent` is the node the slice belongs to. `some none` is `getEdge`
returning nil, `none` is a panic. -/
def insertEdgesChk : node → List edge → Str → Str → Str → Value →
    Option (Option (node × InsertOut))
  | _, [], _, _, _, _ => some none
  | parent, (.mk l currNode) :: rest, label, nodeKey, key, nodeValue =>
    if l = label then
      match longestPrefixChk nodeKey currNode.pfx with
      | none => none
      | some commonPrefix =>
        if commonPrefix = currNode.pfx.length then
          if commonPrefix ≤ nodeKey.length then
            match insertNodeChk currNode (nodeKey.drop commonPrefix) key nodeValue with
            | none => none
            | some r => some (some (parent.setChild label r.1, r.2))
          else none
        else
          if commonPrefix ≤ nodeKey.length then
            match currNode.pfx[commonPrefix]? with
            | none => none
            | some c0 =>
              let old : edge := .mk (byteString c0)
                (.mk currNode.leaf currNode.depth (currNode.pfx.drop commonPrefix)
                  currNode.edges)
              let leaf : leafNode := ⟨key, nodeValue⟩
              let child : node :=
                match nodeKey.drop commonPrefix with
                | [] => .mk (some leaf) 0 (nodeKey.take commonPrefix) [old]
                | c :: tl =>
                  .mk none 0 (nodeKey.take commonPrefix)
                    [old, .mk (byteString c) (.mk (some leaf) 0 (c :: tl) [])]
              match parent.updateEdge label child with
              | none => none
              | some parent1 => some (some (parent1, ⟨none, false, 1⟩))
          else none
    else insertEdgesChk parent rest label nodeKey key nodeValue
end

/-- Go `Insert` with the panics made explicit; `none` is a panic. -/
def Tree.InsertChk (tr : Tree) (nodeKey : Str) (nodeValue : Value) :
    Option (Tree × Value × Bool) :=
  if nodeKey = [] then some (tr, none, false)
  else
    match insertNodeChk tr.root nodeKey nodeKey nodeValue with
    | none => none
    | some r =>
      some (⟨r.1, tr.value, tr.size + r.2.inc, tr.resourceClass⟩, r.2.old, r.2.existed)

/-! ## Walk with a callback that has a state of its own -/

/-- A callback that leaves the tree alone but may keep a state of its own (a counter, a map
it fills): from the state before the call and the arguments, the result and the state after
the call. -/
abbrev walkFnSt (σ : Type) := σ → Str → Value → Bool × σ

mutual
/-- Go `recursiveWalk` for a callback with a state of its own that leaves the tree alone:
the calls made in order, the result, and the state of the callback afterwards. -/
def recursiveWalkSt {σ : Type} : node → walkFnSt σ → σ → List (Str × Value) × Bool × σ
  | .mk leaf _ _ edges, fn, s =>
    match leaf with
    | some l =>
      if (fn s l.key l.value).1 then ([(l.key, l.value)], true, (fn s l.key l.value).2)
      else
        ((l.key, l.value) :: (walkEdgesSt edges fn (fn s l.key l.value).2).1,
          (walkEdgesSt edges fn (fn s l.key l.value).2).2)
    | none => walkEdgesSt edges fn s
/-- The loop of `recursiveWalk` over the edges, for a callback with a state of its own. -/
def walkEdgesSt {σ : Type} : List edge → walkFnSt σ → σ → List (Str × Value) × Bool × σ
  | [], _, s => ([], false, s)
  | (.mk _ n) :: rest, fn, s =>
    if (recursiveWalkSt n fn s).2.1 then recursiveWalkSt n fn s
    else
      ((recursiveWalkSt n fn s).1 ++ (walkEdgesSt rest fn (recursiveWalkSt n fn s).2.2).1,
        (walkEdgesSt rest fn (recursiveWalkSt n fn s).2.2).2)
end

/-- Go `Walk` for a callback with a state of its own. -/
def Tree.WalkSt {σ : Type} (tr : Tree) (fn : walkFnSt σ) (s : σ) :
    List (Str × Value) × Bool × σ :=
  recursiveWalkSt tr.root fn s

mutual
/-- The key and value of every node with a leaf in depth-first pre-order: the leaf of the
node first, then the subtrees of its edges in stored order. -/
def preorder : node → List (Str × Value)
  | .mk leaf _ _ edges =>
    (match leaf with
      | some l => [(l.key, l.value)]
      | none => []) ++ preorderL edges
/-- The pre-order listing of the subtrees of the edges of a slice. -/
def preorderL : List edge → List (Str × Value)
  | [] => []
  | (.mk _ n) :: rest => preorder n ++ preorderL rest
end

/-- Calling `fn` on the pairs of a list in order until it returns true: the calls made, whether
one returned true, and the state of the callback afterwards. -/
def callsUntil {σ : Type} (fn : walkFnSt σ) : σ → List (Str × Value) →
    List (Str × Value) × Bool × σ
  | s, [] => ([], false, s)
  | s, (k, v) :: rest =>
    if (fn s k v).1 then ([(k, v)], true, (fn s k v).2)
    else ((k, v) :: (callsUntil fn (fn s k v).2 rest).1, (callsUntil fn (fn s k v).2 rest).2)

/-! ## The other operations with the panics made explicit

Every index expression `s[i]` and slice expression `s[i:]` is checked, and `recursiveWalk`
reads `n.edges[i]` by its index, in a loop with fuel; `none` is a panic or the end of the
fuel. -/

/-- Go `s[i:]`; `none` is the slice-bounds panic. -/
def sliceFrom (s : Str) (i : Nat) : Option Str :=
  if i ≤ s.length then some (s.drop i) else none

mutual
/-- One iteration of the loop of `Get` with the index and slice expressions checked. -/
def getNodeChk : node → Str → Option (Value × Bool)
  | .mk leaf _ _ edges, pattern =>
    if pattern.length = 0 then
      match leaf with
      | some l => some (l.value, true)
      | none => some (none, false)
    else
      match pattern[0]? with
      | none => none
      | some b => getEdgesChk edges (byteString b) pattern
/-- The call `n.getEdge(string(pattern[0]))` of `Get` and what follows it, checked. -/
def getEdgesChk : List edge → Str → Str → Option (Value × Bool)
  | [], _, _ => some (none, false)
  | (.mk l n) :: rest, label, pattern =>
    if l = label then
      if hasPrefix pattern n.pfx then
        match sliceFrom pattern n.pfx.length with
        | none => none
        | some pattern1 => getNodeChk n pattern1
      else some (none, false)
    else getEdgesChk rest label pattern
end

/-- Go `Get` with the panics made explicit. -/
def Tree.GetChk (tr : Tree) (pattern : Str) : Option (Value × Bool) := getNodeChk tr.root pattern

mutual
/-- One iteration of the loop of `Delete` with the index and slice expressions checked. -/
def deleteNodeChk : node → Bool → Str → DelRes
  | .mk leaf depth pfx edges, isRoot, pattern =>
    if pattern.length = 0 then
      if (node.mk leaf depth pfx edges).isLeaf then .atLeaf else .notFound
    else
      match pattern[0]? with
      | none => .panic
      | some b =>
        match deleteEdgesChk edges (byteString b) pattern with
        | .notFound => .notFound
        | .panic => .panic
        | .atLeaf n =>
          match deleteBlock isRoot (.mk leaf depth pfx edges) (byteString b) n with
          | none => .panic
          | some (parent1, v) => .deleted parent1 v
        | .deleted edges1 v => .deleted (.mk leaf depth pfx edges1) v
/-- The call `n.getEdge(string(pattern[0]))` of `Delete` and what follows it, checked. -/
def deleteEdgesChk : List edge → Str → Str → DelScan
  | [], _, _ => .notFound
  | (.mk l n) :: rest, label, pattern =>
    if l = label then
      if hasPrefix pattern n.pfx then
        match sliceFrom pattern n.pfx.length with
        | none => .panic
        | some pattern1 =>
          match deleteNodeChk n false pattern1 with
          | .notFound => .notFound
          | .panic => .panic
          | .atLeaf => .atLeaf n
          | .deleted n1 v => .deleted (.mk l n1 :: rest) v
      else .notFound
    else
      match deleteEdgesChk rest label pattern with
      | .deleted rest1 v => .deleted (.mk l n :: rest1) v
      | r => r
end

/-- Go `Delete` with the panics made explicit: those of `delEdge` and `mergeChild` as in
`Delete`, and the index and slice expressions of the loop. -/
def Tree.DeleteChk (tr : Tree) (pattern : Str) : Option (Tree × Value × Bool) :=
  match deleteNodeChk tr.root true pattern with
  | .notFound => some (tr, none, false)
  | .panic => none
  | .atLeaf =>
    match deleteBlockRoot tr.root with
    | none => none
    | some (root1, v) => some (⟨root1, tr.value, tr.size - 1, tr.resourceClass⟩, v, true)
  | .deleted root1 v => some (⟨root1, tr.value, tr.size - 1, tr.resourceClass⟩, v, true)

mutual
/-- One iteration of the loop of `LongestPrefix` with the index and slice expressions
checked. -/
def longestPrefixNodeChk : node → Str → Option leafNode → Option (Option leafNode)
  | .mk leaf _ _ edges, pattern, last =>
    if pattern.length = 0 then some (if leaf.isSome then leaf else last)
    else
      match pattern[0]? with
      | none => none
      | some b =>
        longestPrefixEdgesChk edges (byteString b) pattern (if leaf.isSome then leaf else last)
/-- The call `n.getEdge(string(pattern[0]))` of `LongestPrefix` and what follows it,
checked. -/
def longestPrefixEdgesChk : List edge → Str → Str → Option leafNode → Option (Option leafNode)
  | [], _, _, last => some last
  | (.mk l n) :: rest, label, pattern, last =>
    if l = label then
      if hasPrefix pattern n.pfx then
        match sliceFrom pattern n.pfx.length with
        | none => none
        | some pattern1 => longestPrefixNodeChk n pattern1 last
      else some last
    else longestPrefixEdgesChk rest label pattern last
end

/-- Go `LongestPrefix` with the panics made explicit. -/
def Tree.LongestPrefixChk (tr : Tree) (pattern : Str) : Option (Str × Value × Bool) :=
  match longestPrefixNodeChk tr.root pattern none with
  | none => none
  | some (some last) => some (last.key, last.value, true)
  | some none => some ([], none, false)

mutual
/-- Go `recursiveWalk` for a callback that leaves the tree alone, so that every reading of
`n.edges` gives the same slice, with the loop `for i < k` run by its index and `n.edges[i]`
checked. -/
def recursiveWalkChk {σ : Type} (fn : walkFnSt σ) : Nat → node → σ →
    Option (List (Str × Value) × Bool × σ)
  | 0, _, _ => none
  | fuel + 1, n, s =>
    match n.leaf with
    | some l =>
      if (fn s l.key l.value).1 then some ([(l.key, l.value)], true, (fn s l.key l.value).2)
      else
        (walkLoopChk fn fuel n 0 n.edges.length (fn s l.key l.value).2).map
          (fun r => ((l.key, l.value) :: r.1, r.2))
    | none => walkLoopChk fn fuel n 0 n.edges.length s
/-- The loop `for i < k` of `recursiveWalk` from the index `i` on. -/
def walkLoopChk {σ : Type} (fn : walkFnSt σ) : Nat → node → Nat → Nat → σ →
    Option (List (Str × Value) × Bool × σ)
  | 0, _, _, _, _ => none
  | fuel + 1, n, i, k, s =>
    if i < k then
      match n.edges[i]? with
      | none => none
      | some e =>
        match recursiveWalkChk fn fuel e.n s with
        | none => none
        | some r =>
          if r.2.1 then some r
          else if n.edges.length = 0 then
            (recursiveWalkChk fn fuel n r.2.2).map (fun r2 => (r.1 ++ r2.1, r2.2))
          else
            (walkLoopChk fn fuel n (if k ≤ n.edges.length then i + 1 else i) n.edges.length
              r.2.2).map (fun r2 => (r.1 ++ r2.1, r2.2))
    else some ([], false, s)
end

mutual
/-- Fuel that is enough for `recursiveWalkChk` at a node. -/
def walkFuel : node → Nat
  | .mk _ _ _ edges => walkFuelL edges + 1
/-- Fuel that is enough for `walkLoopChk` over the edges that are left. -/
def walkFuelL : List edge → Nat
  | [] => 1
  | (.mk _ n) :: rest => walkFuel n + walkFuelL rest + 1
end

/-- Go `Walk` with the panics made explicit. -/
def Tree.WalkChk {σ : Type} (tr : Tree) (fn : walkFnSt σ) (fuel : Nat) (s : σ) :
    Option (List (Str × Value) × Bool × σ) :=
  recursiveWalkChk fn fuel tr.root s

/-- Go `ToMap` with the panics made explicit: the state of the callback is the map `out`
(`make` of a map with a size hint does not panic). -/
def Tree.ToMapChk (tr : Tree) (fuel : Nat) : Option GoMap :=
  (tr.WalkChk (fun (out : GoMap) k v => (false, GoMap.set out k v)) fuel []).map
    (fun r => r.2.2)

mutual
/-- Go `deletePrefix(parent, n, pattern)` with the index and slice expressions checked and
the subtree counted by the checked `recursiveWalk`, whose callback has `subTreeSize` as its
state. `parentIsRoot` is `parent == tr.root`; it is handed on as it is, as `parent` is. The
test `parent != tr.root` comes first in the guard of `parent.mergeChild()`, so with
`parentIsRoot` the call is skipped; the merge of a parent that is not the root is not followed
here and counts as a failure. -/
def deletePrefixNodeChk (fuel : Nat) (parentIsRoot : Bool) : node → Str → Option (node × Int)
  | .mk leaf depth pfx edges, pattern =>
    if pattern.length = 0 then
      match recursiveWalkChk (fun (subTreeSize : Int) _ _ => (false, subTreeSize + 1)) fuel
          (.mk leaf depth pfx edges) 0 with
      | none => none
      | some r => if parentIsRoot then some (.mk none depth pfx [], r.2.2) else none
    else
      match pattern[0]? with
      | none => none
      | some b =>
        match deletePrefixEdgesChk fuel parentIsRoot edges (byteString b) pattern with
        | none => none
        | some none => some (.mk leaf depth pfx edges, 0)
        | some (some (edges1, cnt)) => some (.mk leaf depth pfx edges1, cnt)
/-- The call `n.getEdge(string(pattern[0]))` of `deletePrefix` and what follows it, checked;
`some none` stands for the two `return 0`. -/
def deletePrefixEdgesChk (fuel : Nat) (parentIsRoot : Bool) : List edge → Str → Str →
    Option (Option (List edge × Int))
  | [], _, _ => some none
  | (.mk l child) :: rest, label, pattern =>
    if l = label then
      if !hasPrefix pattern child.pfx && !hasPrefix child.pfx pattern then some none
      else
        match (if pattern.length > child.pfx.length then sliceFrom pattern child.pfx.length
            else sliceFrom pattern pattern.length) with
        | none => none
        | some pattern1 =>
          match deletePrefixNodeChk fuel parentIsRoot child pattern1 with
          | none => none
          | some r => some (some (.mk l r.1 :: rest, r.2))
    else
      match deletePrefixEdgesChk fuel parentIsRoot rest label pattern with
      | none => none
      | some none => some none
      | some (some (rest1, cnt)) => some (some (.mk l child :: rest1, cnt))
end

/-- Go `DeletePrefix` with the panics made explicit: `deletePrefix(tr.root, tr.root, pattern)`. -/
def Tree.DeletePrefixChk (tr : Tree) (fuel : Nat) (pattern : Str) : Option (Tree × Int) :=
  (deletePrefixNodeChk fuel true tr.root pattern).map
    (fun r => (⟨r.1, tr.value, tr.size - r.2, tr.resourceClass⟩, r.2))

mutual
/-- One iteration of the loop of `WalkPrefix` for a callback with a state of its own, with
the index and slice expressions checked: the calls and the state afterwards. -/
def walkPrefixNodeChk {σ : Type} (fn : walkFnSt σ) (fuel : Nat) : node → Str → σ →
    Option (List (Str × Value) × σ)
  | .mk leaf depth pfx edges, pattern, s =>
    if pattern.length = 0 then
      (recursiveWalkChk fn fuel (.mk leaf depth pfx edges) s).map (fun r => (r.1, r.2.2))
    else
      match pattern[0]? with
      | none => none
      | some b => walkPrefixEdgesChk fn fuel edges (byteString b) pattern s
/-- The call `n.getEdge(string(pattern[0]))` of `WalkPrefix` and what follows it, checked. -/
def walkPrefixEdgesChk {σ : Type} (fn : walkFnSt σ) (fuel : Nat) : List edge → Str → Str → σ →
    Option (List (Str × Value) × σ)
  | [], _, _, s => some ([], s)
  | (.mk l n) :: rest, label, pattern, s =>
    if l = label then
      if hasPrefix pattern n.pfx then
        match sliceFrom pattern n.pfx.length with
        | none => none
        | some pattern1 => walkPrefixNodeChk fn fuel n pattern1 s
      else if hasPrefix n.pfx pattern then
        (recursiveWalkChk fn fuel n s).map (fun r => (r.1, r.2.2))
      else some ([], s)
    else walkPrefixEdgesChk fn fuel rest label pattern s
end

/-- Go `WalkPrefix` with the panics made explicit. -/
def Tree.WalkPrefixChk {σ : Type} (tr : Tree) (fn : walkFnSt σ) (fuel : Nat) (pfx : Str)
    (s : σ) : Option (List (Str × Value) × σ) :=
  walkPrefixNodeChk fn fuel tr.root pfx s

mutual
/-- One iteration of the loop of `WalkPath` for a callback with a state of its own, with the
index and slice expressions checked: the calls and the state afterwards. -/
def walkPathNodeChk {σ : Type} (fn : walkFnSt σ) : node → Str → σ →
    Option (List (Str × Value) × σ)
  | .mk leaf _ _ edges, pattern, s =>
    match leaf with
    | some l =>
      if (fn s l.key l.value).1 then some ([(l.key, l.value)], (fn s l.key l.value).2)
      else if pattern.length = 0 then some ([(l.key, l.value)], (fn s l.key l.value).2)
      else
        match pattern[0]? with
        | none => none
        | some b =>
          (walkPathEdgesChk fn edges (byteString b) pattern (fn s l.key l.value).2).map
            (fun r => ((l.key, l.value) :: r.1, r.2))
    | none =>
      if pattern.length = 0 then some ([], s)
      else
        match pattern[0]? with
        | none => none
        | some b => walkPathEdgesChk fn edges (byteString b) pattern s
/-- The call `n.getEdge(string(pattern[0]))` of `WalkPath` and what follows it, checked. -/
def walkPathEdgesChk {σ : Type} (fn : walkFnSt σ) : List edge → Str → Str → σ →
    Option (List (Str × Value) × σ)
  | [], _, _, s => some ([], s)
  | (.mk l n) :: rest, label, pattern, s =>
    if l = label then
      if hasPrefix pattern n.pfx then
        match sliceFrom pattern n.pfx.length with
        | none => none
        | some pattern1 => walkPathNodeChk fn n pattern1 s
      else some ([], s)
    else walkPathEdgesChk fn rest label pattern s
end

/-- Go `WalkPath` with the panics made explicit. -/
def Tree.WalkPathChk {σ : Type} (tr : Tree) (fn : walkFnSt σ) (path : Str) (s : σ) :
    Option (List (Str × Value) × σ) :=
  walkPathNodeChk fn tr.root path s

/-- The callback without a state of its own as one with the trivial state. -/
def walkFn.st (fn : walkFn) : walkFnSt Unit := fun _ k v => (fn k v, ())

/-! ## Node objects at addresses: Walk with a callback that calls Delete

A callback that changes the tree while `recursiveWalk` is running is seen by the loops of
`recursiveWalk` through the pointers they hold. Here the node objects live in a heap, a list
indexed by address, and an edge holds the address of its node. Edge slices are held by value:
the sharing of a backing array between a node and the child it was merged with is left out,
which makes no difference as long as no slice is written to after a merge. The field `depth`,
which the code never reads or writes, is left out. Loops have fuel, and `none` is a panic or
the end of the fuel. -/

/-- A node object: its leaf, its prefix, and its edges as pairs of a label and the address
of a node. -/
structure hnode where
  leaf : Option leafNode
  pfx : Str
  edges : List (Str × Nat)

/-- A tree object: the node objects by address, the address of the root, and `tr.size`. -/
structure HTree where
  heap : List hnode
  root : Nat
  size : Int

mutual
/-- The node objects of a subtree put into a heap behind those that are there: the heap
afterwards and the address of the node. -/
def allocNode : node → List hnode → List hnode × Nat
  | .mk leaf _ pfx edges, h =>
    ((allocEdges edges h).1 ++ [⟨leaf, pfx, (allocEdges edges h).2⟩], (allocEdges edges h).1.length)
/-- The node objects of the subtrees of an edge slice put into a heap, and the slice with the
addresses. -/
def allocEdges : List edge → List hnode → List hnode × List (Str × Nat)
  | [], h => (h, [])
  | (.mk l n) :: rest, h =>
    ((allocEdges rest (allocNode n h).1).1,
      (l, (allocNode n h).2) :: (allocEdges rest (allocNode n h).1).2)
end

/-- The tree as a tree object with its nodes in a heap. -/
def Tree.toHeap (tr : Tree) : HTree :=
  ⟨(allocNode tr.root []).1, (allocNode tr.root []).2, tr.size⟩

/-- The subtree found at an address, followed to the given depth. -/
def readNode (h : List hnode) : Nat → Nat → Option node
  | 0, _ => none
  | fuel + 1, a =>
    match h[a]? with
    | none => none
    | some x =>
      (x.edges.mapM (fun e => (readNode h fuel e.2).map (fun n => edge.mk e.1 n))).map
        (fun es => node.mk x.leaf 0 x.pfx es)

/-- The root subtree and the size of a tree object. -/
def HTree.read (t : HTree) (fuel : Nat) : Option (node × Int) :=
  (readNode t.heap fuel t.root).map (fun n => (n, t.size))

/-- Go `getEdge` on the edges of a node object: the address of the first edge with that
label. -/
def hgetEdgeL : List (Str × Nat) → Str → Option Nat
  | [], _ => none
  | e :: rest, label => if e.1 = label then some e.2 else hgetEdgeL rest label

/-- The edges of a node object after the first edge with that label has been removed; `none`
when there is no such edge. -/
def hdelEdgeL : List (Str × Nat) → Str → Option (List (Str × Nat))
  | [], _ => none
  | e :: rest, label =>
    if e.1 = label then some rest
    else match hdelEdgeL rest label with
      | none => none
      | some rest1 => some (e :: rest1)

/-- Go `delEdge` on the node object at address `a`; `none` is the panic "no edge found". -/
def hdelEdge (h : List hnode) (a : Nat) (label : Str) : Option (List hnode) :=
  match h[a]? with
  | none => none
  | some n =>
    match hdelEdgeL n.edges label with
    | none => none
    | some edges1 => some (h.set a ⟨n.leaf, n.pfx, edges1⟩)

/-- Go `mergeChild` on the node object at address `a`; `none` is the index-out-of-range panic
of `n.edges[0]`. -/
def hmergeChild (h : List hnode) (a : Nat) : Option (List hnode) :=
  match h[a]? with
  | none => none
  | some n =>
    match n.edges with
    | [] => none
    | e :: _ =>
      match h[e.2]? with
      | none => none
      | some child => some (h.set a ⟨child.leaf, n.pfx ++ child.pfx, child.edges⟩)

/-- The block after the label `DELETE` of `Delete`, with `n` and `parent` addresses. -/
def hdeleteBlock (t : HTree) (n parent : Nat) (label : Str) : Option (HTree × Value × Bool) :=
  match t.heap[n]? with
  | none => none
  | some nn =>
    match nn.leaf with
    | none => none
    | some leaf =>
      let h1 := t.heap.set n ⟨none, nn.pfx, nn.edges⟩
      (if nn.edges.length = 0 then hdelEdge h1 parent label else some h1).bind fun h2 =>
      (match h2[n]? with
        | none => none
        | some n2 => if n2.edges.length = 1 then hmergeChild h2 n else some h2).bind fun h3 =>
      (match h3[parent]? with
        | none => none
        | some p3 =>
          if p3.edges.length = 1 && parent != t.root && !p3.leaf.isSome then hmergeChild h3 parent
          else some h3).bind fun h4 =>
      some (⟨h4, t.root, t.size - 1⟩, leaf.value, true)

/-- The loop of `Delete` with `n` and `parent` addresses. -/
def hdeleteLoop (t : HTree) : Nat → Nat → Nat → Str → Str → Option (HTree × Value × Bool)
  | 0, _, _, _, _ => none
  | fuel + 1, n, parent, label, pattern =>
    match t.heap[n]? with
    | none => none
    | some nn =>
      match pattern with
      | [] => if nn.leaf.isSome then hdeleteBlock t n parent label else some (t, none, false)
      | b :: _ =>
        match hgetEdgeL nn.edges (byteString b) with
        | none => some (t, none, false)
        | some c =>
          match t.heap[c]? with
          | none => none
          | some cn =>
            if hasPrefix pattern cn.pfx then
              hdeleteLoop t fuel c n (byteString b) (pattern.drop cn.pfx.length)
            else some (t, none, false)

/-- Go `Delete` on a tree object. -/
def HTree.Delete (t : HTree) (fuel : Nat) (pattern : Str) : Option (HTree × Value × Bool) :=
  hdeleteLoop t fuel t.root t.root [] pattern

/-- A callback that may change the tree: from the tree object and the arguments, the tree
object afterwards and the result; `none` when it panics. -/
abbrev hwalkFn := HTree → Str → Value → Option (HTree × Bool)

mutual
/-- Go `recursiveWalk` on a tree object, with `n` an address: the tree object afterwards, the
calls of the callback so far, and the result. -/
def hrecursiveWalk (fn : hwalkFn) : Nat → HTree → Nat → List (Str × Value) →
    Option (HTree × List (Str × Value) × Bool)
  | 0, _, _, _ => none
  | fuel + 1, t, n, calls =>
    match t.heap[n]? with
    | none => none
    | some nn =>
      match nn.leaf with
      | some l =>
        match fn t l.key l.value with
        | none => none
        | some (t1, stop) =>
          if stop then some (t1, calls ++ [(l.key, l.value)], true)
          else
            match t1.heap[n]? with
            | none => none
            | some n1 => hwalkLoop fn fuel t1 n 0 n1.edges.length (calls ++ [(l.key, l.value)])
      | none => hwalkLoop fn fuel t n 0 nn.edges.length calls
/-- The loop `for i < k` of `recursiveWalk` on a tree object. -/
def hwalkLoop (fn : hwalkFn) : Nat → HTree → Nat → Nat → Nat → List (Str × Value) →
    Option (HTree × List (Str × Value) × Bool)
  | 0, _, _, _, _, _ => none
  | fuel + 1, t, n, i, k, calls =>
    if i < k then
      match t.heap[n]? with
      | none => none
      | some nn =>
        match nn.edges[i]? with
        | none => none
        | some e =>
          match hrecursiveWalk fn fuel t e.2 calls with
          | none => none
          | some (t1, calls1, stop) =>
            if stop then some (t1, calls1, true)
            else
              match t1.heap[n]? with
              | none => none
              | some n1 =>
                if n1.edges.length = 0 then hrecursiveWalk fn fuel t1 n calls1
                else
                  hwalkLoop fn fuel t1 n (if k ≤ n1.edges.length then i + 1 else i)
                    n1.edges.length calls1
    else some (t, calls, false)
end

/-- Go `Walk` on a tree object. -/
def HTree.Walk (t : HTree) (fn : hwalkFn) (fuel : Nat) :
    Option (HTree × List (Str × Value) × Bool) :=
  hrecursiveWalk fn fuel t t.root []

/-- The callback that calls `Delete(k)` on the key it is given and returns false. -/
def deletingFn (fuel : Nat) : hwalkFn :=
  fun t k _ => (t.Delete fuel k).map (fun r => (r.1, false))

/-- The key "a". -/
def keyA : Str := [97]

/-- The calls that make the tree holding the two keys "a" and "ab". -/
def twoKeyOps : List Op := [.insert keyA (some 1), .insert keyAb (some 2)]

/-- The tree holding the two keys "a" and "ab". -/
def twoKeyTree : Tree := (((New []).Insert keyA (some 1)).1.Insert keyAb (some 2)).1

/-! ## Bytes and strings -/

theorem byteString_inj {a b : Nat} (h : byteString a = byteString b) : a = b := by
  unfold byteString at h
  split at h <;> split at h
  · simpa using h
  · simp at h
  · simp at h
  · have h1 : 192 + a / 64 = 192 + b / 64 := by injection h
    have h2 : 128 + a % 64 = 128 + b % 64 := by
      injection h with _ h; injection h
    omega

theorem byteString_eq_iff {a b : Nat} : byteString a = byteString b ↔ a = b :=
  ⟨byteString_inj, fun h => by rw [h]⟩

theorem hasPrefix_iff {s p : Str} : hasPrefix s p = true ↔ p <+: s := by
  unfold hasPrefix
  simp only [Bool.and_eq_true, decide_eq_true_eq, beq_iff_eq]
  constructor
  · rintro ⟨_, h⟩
    exact h ▸ List.take_prefix _ _
  · intro h
    exact ⟨h.length_le, List.prefix_iff_eq_take.mp h |>.symm⟩

theorem hasPrefix_append (p q : Str) : hasPrefix (p ++ q) p = true :=
  hasPrefix_iff.mpr (List.prefix_append p q)

theorem hasPrefix_nil (s : Str) : hasPrefix s [] = true :=
  hasPrefix_iff.mpr (List.nil_prefix)

theorem hasPrefix_eq_false_iff {s p : Str} : hasPrefix s p = false ↔ ¬ p <+: s := by
  rw [← hasPrefix_iff]; simp

theorem commonLen_nil_left (k : Str) : commonLen [] k = 0 := by
  simp [commonLen]

theorem commonLen_nil_right (k : Str) : commonLen k [] = 0 := by
  cases k <;> simp [commonLen]

theorem commonLen_drop_succ (k1 k2 : Str) (i : Nat) (h1 : i < k1.length) (h2 : i < k2.length) :
    commonLen (k1.drop i) (k2.drop i) =
      if k1.getD i 0 = k2.getD i 0 then commonLen (k1.drop (i + 1)) (k2.drop (i + 1)) + 1 else 0 := by
  rw [List.drop_eq_getElem_cons h1, List.drop_eq_getElem_cons h2]
  simp [commonLen, List.getD_eq_getElem?_getD, List.getElem?_eq_getElem h1,
    List.getElem?_eq_getElem h2]

theorem longestPrefixLoop_eq (k1 k2 : Str) :
    ∀ (left i : Nat), i + left = min k1.length k2.length →
      longestPrefixLoop k1 k2 left i = i + commonLen (k1.drop i) (k2.drop i) := by
  intro left
  induction left with
  | zero =>
    intro i h
    simp only [longestPrefixLoop]
    rcases Nat.le_total k1.length k2.length with hle | hle
    · have : k1.drop i = [] := List.drop_eq_nil_of_le (by omega)
      rw [this, commonLen_nil_left]; rfl
    · have : k2.drop i = [] := List.drop_eq_nil_of_le (by omega)
      rw [this, commonLen_nil_right]; rfl
  | succ m ih =>
    intro i h
    have h1 : i < k1.length := by omega
    have h2 : i < k2.length := by omega
    rw [longestPrefixLoop, commonLen_drop_succ k1 k2 i h1 h2]
    by_cases hb : k1.getD i 0 = k2.getD i 0
    · rw [if_neg (not_not.mpr hb), if_pos hb, ih (i + 1) (by omega)]; omega
    · rw [if_pos hb, if_neg hb]; rfl

theorem longestPrefix_eq (k1 k2 : Str) : longestPrefix k1 k2 = commonLen k1 k2 := by
  unfold longestPrefix
  have := longestPrefixLoop_eq k1 k2 (min k1.length k2.length) 0 (by simp)
  simp only [List.drop_zero, Nat.zero_add] at this
  rw [← this]
  simp only [min_def]
  split <;> split <;> first | rfl | (congr 1; omega)

theorem commonLen_le_left : ∀ (k1 k2 : Str), commonLen k1 k2 ≤ k1.length
  | [], k2 => by simp [commonLen]
  | _ :: _, [] => by simp [commonLen]
  | a :: k1, b :: k2 => by
    simp only [commonLen]
    split
    · simpa using commonLen_le_left k1 k2
    · simp

theorem commonLen_le_right : ∀ (k1 k2 : Str), commonLen k1 k2 ≤ k2.length
  | [], k2 => by simp [commonLen]
  | _ :: _, [] => by simp [commonLen]
  | a :: k1, b :: k2 => by
    simp only [commonLen]
    split
    · simpa using commonLen_le_right k1 k2
    · simp

theorem take_commonLen : ∀ (k1 k2 : Str),
    k1.take (commonLen k1 k2) = k2.take (commonLen k1 k2)
  | [], k2 => by simp [commonLen]
  | _ :: _, [] => by simp [commonLen]
  | a :: k1, b :: k2 => by
    simp only [commonLen]
    split
    · rename_i h; subst h
      simpa using take_commonLen k1 k2
    · simp

/-- Past the common prefix the two strings differ in their first byte, when both go on. -/
theorem drop_commonLen_ne : ∀ (k1 k2 : Str) (a b : Byte) (t1 t2 : Str),
    k1.drop (commonLen k1 k2) = a :: t1 → k2.drop (commonLen k1 k2) = b :: t2 → a ≠ b
  | [], k2, a, b, t1, t2 => by simp [commonLen]
  | _ :: _, [], a, b, t1, t2 => by simp [commonLen]
  | x :: k1, y :: k2, a, b, t1, t2 => by
    simp only [commonLen]
    split
    · simpa using drop_commonLen_ne k1 k2 a b t1 t2
    · rename_i h
      simp only [List.drop_zero, List.cons.injEq, and_imp]
      rintro rfl _ rfl _
      exact h

theorem commonLen_eq_length_iff (k1 k2 : Str) : commonLen k1 k2 = k2.length ↔ k2 <+: k1 := by
  constructor
  · intro h
    have := take_commonLen k1 k2
    rw [h, List.take_length] at this
    rw [← this]
    exact List.take_prefix _ _
  · rintro ⟨t, rfl⟩
    induction k2 with
    | nil => simp [commonLen_nil_right]
    | cons a k ih => simp [commonLen, ih]

/-! ## Induction on nodes and the edge slice helpers -/

mutual
theorem node.ind_node {P : node → Prop}
    (h : ∀ leaf d p es, (∀ e ∈ es, P e.n) → P (.mk leaf d p es)) : ∀ n, P n
  | .mk leaf d p es => h leaf d p es (node.ind_edges h es)
theorem node.ind_edges {P : node → Prop}
    (h : ∀ leaf d p es, (∀ e ∈ es, P e.n) → P (.mk leaf d p es)) :
    ∀ (es : List edge), ∀ e ∈ es, P e.n
  | [] => by simp
  | (.mk l n) :: rest => by
    intro e he
    rcases List.mem_cons.mp he with rfl | he
    · exact node.ind_node h n
    · exact node.ind_edges h rest e he
end

/-- Induction on nodes: a property holds of a node if it holds of the nodes of its edges. -/
@[elab_as_elim]
theorem node.induct {motive : node → Prop}
    (mk : ∀ leaf d p es, (∀ e ∈ es, motive e.n) → motive (.mk leaf d p es)) (n : node) :
    motive n :=
  node.ind_node mk n

@[simp]
theorem node.leaf_mk (l d p es) : (node.mk l d p es).leaf = l := rfl
@[simp]
theorem node.depth_mk (l d p es) : (node.mk l d p es).depth = d := rfl
@[simp]
theorem node.pfx_mk (l d p es) : (node.mk l d p es).pfx = p := rfl
@[simp]
theorem node.edges_mk (l d p es) : (node.mk l d p es).edges = es := rfl
@[simp]
theorem edge.label_mk (l n) : (edge.mk l n).label = l := rfl
@[simp]
theorem edge.n_mk (l n) : (edge.mk l n).n = n := rfl

theorem node_eta (n : node) : node.mk n.leaf n.depth n.pfx n.edges = n := by
  cases n; rfl

theorem edge_eta (e : edge) : edge.mk e.label e.n = e := by
  cases e; rfl

theorem getEdgeL_some_mem {es : List edge} {l : Str} {n : node} (h : getEdgeL es l = some n) :
    edge.mk l n ∈ es := by
  induction es with
  | nil => simp [getEdgeL] at h
  | cons e rest ih =>
    simp only [getEdgeL] at h
    split at h
    · rename_i hl
      cases e
      simp only [edge.label_mk] at hl
      simp only [edge.n_mk, Option.some.injEq] at h
      subst hl; subst h
      exact List.mem_cons_self _ _
    · exact List.mem_cons_of_mem _ (ih h)

theorem getEdgeL_eq_none_iff {es : List edge} {l : Str} :
    getEdgeL es l = none ↔ ∀ e ∈ es, e.label ≠ l := by
  induction es with
  | nil => simp [getEdgeL]
  | cons e rest ih =>
    simp only [getEdgeL, List.mem_cons, forall_eq_or_imp]
    split
    · rename_i hl; simp [hl]
    · rename_i hl; simp [hl, ih]

theorem getEdgeL_append (es1 es2 : List edge) (l : Str) :
    getEdgeL (es1 ++ es2) l = (getEdgeL es1 l).orElse (fun _ => getEdgeL es2 l) := by
  induction es1 with
  | nil => simp [getEdgeL]
  | cons e rest ih =>
    simp only [List.cons_append, getEdgeL]
    split <;> simp [ih]

theorem getEdgeL_updateEdgeL (es : List edge) (l l1 : Str) (c : node) :
    getEdgeL (updateEdgeL es l c) l1 =
      if l1 = l then (getEdgeL es l).map (fun _ => c) else getEdgeL es l1 := by
  induction es with
  | nil => simp [getEdgeL, updateEdgeL]
  | cons e rest ih =>
    simp only [updateEdgeL]
    by_cases h : e.label = l
    · simp only [h, if_true, getEdgeL, edge.label_mk, edge.n_mk]
      by_cases h1 : l1 = l
      · simp [h1]
      · simp [h1, Ne.symm h1]
    · simp only [h, if_false, getEdgeL, ih]
      by_cases h1 : l1 = l
      · subst h1; simp [h]
      · simp [h1]

theorem length_updateEdgeL (es : List edge) (l : Str) (c : node) :
    (updateEdgeL es l c).length = es.length := by
  induction es with
  | nil => rfl
  | cons e rest ih => simp only [updateEdgeL]; split <;> simp [ih]

theorem delEdgeL_isSome {es : List edge} {l : Str} {c : node} (h : getEdgeL es l = some c) :
    ∃ es1, delEdgeL es l = some es1 := by
  induction es with
  | nil => simp [getEdgeL] at h
  | cons e rest ih =>
    simp only [getEdgeL] at h
    simp only [delEdgeL]
    split at h
    · rename_i hl; simp [hl]
    · rename_i hl
      obtain ⟨es1, h1⟩ := ih h
      simp [hl, h1]

/-! ## The descents, one edge at a time -/

theorem findLeaf_nil (leaf d p es) : findLeaf (.mk leaf d p es) [] = leaf := by
  simp [findLeaf]

theorem findLeafEdges_eq (es : List edge) (label pattern : Str) :
    findLeafEdges es label pattern =
      match getEdgeL es label with
      | none => none
      | some n => findVia n pattern := by
  induction es with
  | nil => simp [findLeafEdges, getEdgeL]
  | cons e rest ih =>
    cases e with
    | mk l n =>
      simp only [findLeafEdges, getEdgeL, edge.label_mk, edge.n_mk]
      split
      · simp [findVia]
      · exact ih

theorem findLeaf_cons (leaf d p es) (b : Byte) (t : Str) :
    findLeaf (.mk leaf d p es) (b :: t) =
      match getEdgeL es (byteString b) with
      | none => none
      | some n => findVia n (b :: t) := by
  rw [findLeaf, findLeafEdges_eq]

/-! ## Get -/

theorem getEdges_eq (es : List edge) (label pattern : Str) :
    getEdges es label pattern =
      match getEdgeL es label with
      | none => (none, false)
      | some n => if hasPrefix pattern n.pfx then getNode n (pattern.drop n.pfx.length)
                  else (none, false) := by
  induction es with
  | nil => simp [getEdges, getEdgeL]
  | cons e rest ih =>
    cases e with
    | mk l n =>
      simp only [getEdges, getEdgeL, edge.label_mk, edge.n_mk]
      split
      · rfl
      · exact ih

/-- `Get` returns the value of the leaf the descent ends at. -/
theorem getNode_eq (n : node) : ∀ (pattern : Str),
    getNode n pattern = leafResult (findLeaf n pattern) := by
  induction n using node.induct with
  | mk leaf d p es ih =>
    intro pattern
    cases pattern with
    | nil => cases leaf <;> simp [getNode, findLeaf, leafResult]
    | cons b t =>
      rw [getNode, getEdges_eq, findLeaf_cons]
      cases h : getEdgeL es (byteString b) with
      | none => simp [leafResult]
      | some c =>
        have hc := ih _ (getEdgeL_some_mem h)
        simp only [edge.n_mk] at hc
        simp only [findVia]
        split
        · exact hc _
        · simp [leafResult]

theorem leafResult_eq_some_iff {o : Option leafNode} {v : Value} :
    leafResult o = (v, true) ↔ ∃ l, o = some l ∧ l.value = v := by
  cases o <;> simp [leafResult]

theorem leafResult_eq_none_iff {o : Option leafNode} :
    leafResult o = (none, false) ↔ o = none := by
  cases o <;> simp [leafResult]

theorem leafResult_snd {o : Option leafNode} : (leafResult o).2 = o.isSome := by
  cases o <;> simp [leafResult]

/-! ## Insert -/

theorem insertEdges_eq (es : List edge) (label nodeKey key : Str) (v : Value) :
    insertEdges es label nodeKey key v =
      match getEdgeL es label with
      | none => none
      | some c => some (updateEdgeL es label (insertChild c nodeKey key v).1,
                        (insertChild c nodeKey key v).2) := by
  induction es with
  | nil => simp [insertEdges, getEdgeL]
  | cons e rest ih =>
    cases e with
    | mk l n =>
      simp only [insertEdges, getEdgeL, updateEdgeL, edge.label_mk, edge.n_mk]
      by_cases hl : l = label
      · simp only [hl, if_true, insertChild, splitNode, node.addEdge]
        split
        · rfl
        · split <;> simp_all
      · simp only [hl, if_false, ih]
        cases getEdgeL rest label <;> simp

theorem insertNode_nil (leaf d p es) (key : Str) (v : Value) :
    insertNode (.mk leaf d p es) [] key v =
      match leaf with
      | some l => (.mk (some ⟨l.key, v⟩) d p es, ⟨l.value, true, 0⟩)
      | none => (.mk (some ⟨key, v⟩) d p es, ⟨none, false, 1⟩) := by
  cases leaf <;> simp [insertNode]

theorem insertNode_cons (leaf d p es) (b : Byte) (t key : Str) (v : Value) :
    insertNode (.mk leaf d p es) (b :: t) key v =
      match getEdgeL es (byteString b) with
      | none => (.mk leaf d p (es ++ [.mk (byteString b) (.mk (some ⟨key, v⟩) 0 (b :: t) [])]),
                 ⟨none, false, 1⟩)
      | some c => (.mk leaf d p (updateEdgeL es (byteString b) (insertChild c (b :: t) key v).1),
                   (insertChild c (b :: t) key v).2) := by
  rw [insertNode, insertEdges_eq]
  cases getEdgeL es (byteString b) <;> simp [node.addEdge]

theorem insertNode_pfx (n : node) (nodeKey key : Str) (v : Value) :
    (insertNode n nodeKey key v).1.pfx = n.pfx := by
  cases n with
  | mk leaf d p es =>
    cases nodeKey with
    | nil => rw [insertNode_nil]; cases leaf <;> rfl
    | cons b t => rw [insertNode_cons]; cases getEdgeL es (byteString b) <;> rfl

/-! ## What `Insert` does to the leaves found by the descent -/

theorem findLeaf_congr (leaf d p es d1 p1) (q : Str) :
    findLeaf (.mk leaf d p es) q = findLeaf (.mk leaf d1 p1 es) q := by
  cases q <;> simp [findLeaf]

theorem findVia_mk (leaf d p es) (q : Str) :
    findVia (.mk leaf d p es) q =
      if hasPrefix q p then findLeaf (.mk leaf d p es) (q.drop p.length) else none := rfl

theorem findVia_append (leaf d es) (A P q1 : Str) :
    findVia (.mk leaf d (A ++ P) es) (A ++ q1) = findVia (.mk leaf d P es) q1 := by
  simp only [findVia_mk]
  have h1 : hasPrefix (A ++ q1) (A ++ P) = hasPrefix q1 P := by
    rw [Bool.eq_iff_iff, hasPrefix_iff, hasPrefix_iff, List.prefix_append_right_inj]
  have h2 : List.drop (A ++ P).length (A ++ q1) = List.drop P.length q1 := by
    rw [List.length_append, ← List.drop_drop, List.drop_left]
  rw [h1, h2, findLeaf_congr leaf d (A ++ P) es d P]

theorem findVia_of_not_pre (n : node) (A q : Str) (hA : A <+: n.pfx) (h : ¬ A <+: q) :
    findVia n q = none := by
  unfold findVia
  rw [if_neg]
  rw [hasPrefix_iff]
  exact fun hp => h (hA.trans hp)

theorem findVia_leafOnly (lf : leafNode) (d : Int) (nk q : Str) :
    findVia (.mk (some lf) d nk []) q = if q = nk then some lf else none := by
  by_cases h : nk <+: q
  · obtain ⟨r, rfl⟩ := h
    rw [findVia_mk, hasPrefix_append, if_pos rfl, List.drop_left]
    cases r with
    | nil => simp [findLeaf]
    | cons b t => simp [findLeaf_cons, getEdgeL]
  · rw [findVia_of_not_pre (.mk (some lf) d nk []) nk q (List.prefix_refl _) h, if_neg]
    rintro rfl
    exact h (List.prefix_refl _)

theorem split_core (A : Str) (pb : Byte) (pt N : Str) (leaf : Option leafNode) (d : Int)
    (es : List edge) (lf : leafNode) (q : Str) :
    (∀ nb nt, N = nb :: nt → nb ≠ pb) →
    findVia (match N with
        | [] => node.mk (some lf) 0 A [.mk (byteString pb) (.mk leaf d (pb :: pt) es)]
        | c :: tl => node.mk none 0 A [.mk (byteString pb) (.mk leaf d (pb :: pt) es),
            .mk (byteString c) (.mk (some lf) 0 (c :: tl) [])]) q =
      if q = A ++ N then some lf else findVia (.mk leaf d (A ++ pb :: pt) es) q := by
  intro hne
  by_cases hA : A <+: q
  · obtain ⟨q1, rfl⟩ := hA
    rw [findVia_append]
    simp only [List.append_cancel_left_eq]
    cases N with
    | nil =>
      simp only [findVia_mk, hasPrefix_append, if_true, List.drop_left]
      cases q1 with
      | nil => simp [findLeaf, hasPrefix]
      | cons qb qt =>
        simp only [findLeaf_cons, getEdgeL, edge.label_mk, edge.n_mk, byteString_eq_iff]
        by_cases hb : pb = qb
        · subst hb; simp [findVia_mk]
        · have : hasPrefix (qb :: qt) (pb :: pt) = false := by
            rw [hasPrefix_eq_false_iff]
            rintro ⟨r, hr⟩
            simp only [List.cons_append, List.cons.injEq] at hr
            exact hb hr.1
          simp [hb, this]
    | cons c tl =>
      have hc := hne c tl rfl
      simp only [findVia_mk, hasPrefix_append, if_true, List.drop_left]
      cases q1 with
      | nil => simp [findLeaf, hasPrefix]
      | cons qb qt =>
        simp only [findLeaf_cons, getEdgeL, edge.label_mk, edge.n_mk, byteString_eq_iff]
        by_cases hb : pb = qb
        · subst hb
          have : ¬ (pb :: qt = c :: tl) := by
            intro h; injection h with h1 _; exact hc h1.symm
          simp [findVia_mk, this]
        · have hf : hasPrefix (qb :: qt) (pb :: pt) = false := by
            rw [hasPrefix_eq_false_iff]
            rintro ⟨r, hr⟩
            simp only [List.cons_append, List.cons.injEq] at hr
            exact hb hr.1
          simp only [hb, if_false, hf]
          by_cases hcq : c = qb
          · subst hcq
            simp only [if_true]
            have := findVia_leafOnly lf 0 (c :: tl) (c :: qt)
            simp only [findVia_mk] at this
            simpa using this
          · have : ¬ (qb :: qt = c :: tl) := by
              intro h; injection h with h1 _; exact hcq h1.symm
            simp [hcq, this]
  · have h1 : (match N with
        | [] => node.mk (some lf) 0 A [.mk (byteString pb) (.mk leaf d (pb :: pt) es)]
        | c :: tl => node.mk none 0 A [.mk (byteString pb) (.mk leaf d (pb :: pt) es),
            .mk (byteString c) (.mk (some lf) 0 (c :: tl) [])]).pfx = A := by
      cases N <;> rfl
    rw [findVia_of_not_pre _ A q (by rw [h1]) hA,
      findVia_of_not_pre _ A q (by simp) hA, if_neg]
    rintro rfl
    exact hA (List.prefix_append _ _)

theorem splitNode_findVia (c : node) (nk key : Str) (v : Value) (q : Str)
    (h : longestPrefix nk c.pfx ≠ c.pfx.length) :
    findVia (splitNode c nk key v) q = if q = nk then some ⟨key, v⟩ else findVia c q := by
  cases c with
  | mk leaf d p es =>
    simp only [node.pfx_mk, longestPrefix_eq] at h
    simp only [splitNode, longestPrefix_eq, node.pfx_mk, node.leaf_mk, node.depth_mk,
      node.edges_mk]
    have hle := commonLen_le_right nk p
    have htake := take_commonLen nk p
    have hne := drop_commonLen_ne nk p
    generalize commonLen nk p = cp at *
    have hlt : cp < p.length := lt_of_le_of_ne hle h
    have hP : p.drop cp = p[cp] :: p.drop (cp + 1) := List.drop_eq_getElem_cons hlt
    have hget : p.getD cp 0 = p[cp] := by
      simp [List.getD_eq_getElem?_getD, List.getElem?_eq_getElem hlt]
    have hp : p = nk.take cp ++ p[cp] :: p.drop (cp + 1) := by
      rw [← hP, htake, List.take_append_drop]
    have hnk : nk = nk.take cp ++ nk.drop cp := (List.take_append_drop cp nk).symm
    rw [hget, hP]
    rw [hP] at hne
    generalize p[cp] = pb at *
    generalize p.drop (cp + 1) = pt at *
    generalize nk.take cp = A at *
    generalize nk.drop cp = N at *
    subst hp; subst hnk
    exact split_core A pb pt N leaf d es ⟨key, v⟩ q (fun nb nt hN => hne nb pb nt pt hN rfl)

theorem findVia_append_self (c : node) (q1 : Str) :
    findVia c (c.pfx ++ q1) = findLeaf c q1 := by
  simp [findVia, hasPrefix_append]

theorem insertChild_findVia (c : node) (key : Str) (v : Value)
    (ih : ∀ (nk q : Str), findLeaf (insertNode c nk key v).1 q =
      if q = nk then some ⟨(match findLeaf c nk with | some l => l.key | none => key), v⟩
      else findLeaf c q)
    (nk q : Str) :
    findVia (insertChild c nk key v).1 q =
      if q = nk then some ⟨(match findVia c nk with | some l => l.key | none => key), v⟩
      else findVia c q := by
  unfold insertChild
  by_cases hcp : longestPrefix nk c.pfx = c.pfx.length
  · rw [if_pos hcp, hcp]
    have hpre : c.pfx <+: nk := by
      rw [longestPrefix_eq] at hcp
      exact (commonLen_eq_length_iff _ _).mp hcp
    obtain ⟨r, rfl⟩ := hpre
    rw [List.drop_left, findVia_append_self]
    by_cases hq : c.pfx <+: q
    · obtain ⟨q1, rfl⟩ := hq
      have : findVia (insertNode c r key v).1 (c.pfx ++ q1) = findLeaf (insertNode c r key v).1 q1 := by
        have := findVia_append_self (insertNode c r key v).1 q1
        rwa [insertNode_pfx] at this
      rw [this, ih, findVia_append_self]
      simp only [List.append_cancel_left_eq]
    · rw [findVia_of_not_pre _ c.pfx q (by rw [insertNode_pfx]) hq,
        findVia_of_not_pre c c.pfx q (List.prefix_refl _) hq, if_neg]
      rintro rfl
      exact hq (List.prefix_append _ _)
  · rw [if_neg hcp]
    have hnp : ¬ c.pfx <+: nk := by
      rw [longestPrefix_eq] at hcp
      exact fun hp => hcp ((commonLen_eq_length_iff _ _).mpr hp)
    rw [splitNode_findVia c nk key v q hcp,
      findVia_of_not_pre c c.pfx nk (List.prefix_refl _) hnp]

/-- After `Insert` the descent for the inserted key ends at a leaf with the new value, and the
descent for any other key ends where it did. -/
theorem insertNode_findLeaf (n : node) (key : Str) (v : Value) : ∀ (nk q : Str),
    findLeaf (insertNode n nk key v).1 q =
      if q = nk then some ⟨(match findLeaf n nk with | some l => l.key | none => key), v⟩
      else findLeaf n q := by
  induction n using node.induct with
  | mk leaf d p es ih =>
    intro nk q
    cases nk with
    | nil =>
      rw [insertNode_nil]
      cases leaf with
      | none => cases q <;> simp [findLeaf]
      | some l => cases q <;> simp [findLeaf]
    | cons b t =>
      rw [insertNode_cons, findLeaf_cons]
      cases hg : getEdgeL es (byteString b) with
      | none =>
        simp only
        cases q with
        | nil => simp [findLeaf]
        | cons qb qt =>
          rw [findLeaf_cons, findLeaf_cons, getEdgeL_append]
          cases hq : getEdgeL es (byteString qb) with
          | some x =>
            have : ¬ (qb :: qt = b :: t) := by
              intro h; injection h with h1 _; subst h1; rw [hg] at hq; cases hq
            simp [this]
          | none =>
            simp only [Option.orElse, getEdgeL, edge.label_mk, edge.n_mk, byteString_eq_iff]
            by_cases hb : b = qb
            · subst hb
              simp only [if_true]
              exact findVia_leafOnly _ _ _ _
            · have : ¬ (qb :: qt = b :: t) := by
                intro h; injection h with h1 _; exact hb h1.symm
              simp [hb, this]
      | some c =>
        simp only
        have hc := ih _ (getEdgeL_some_mem hg)
        simp only [edge.n_mk] at hc
        cases q with
        | nil => simp [findLeaf]
        | cons qb qt =>
          rw [findLeaf_cons, findLeaf_cons, getEdgeL_updateEdgeL]
          simp only [byteString_eq_iff]
          by_cases hb : qb = b
          · subst hb
            simp only [if_true, hg, Option.map_some']
            exact insertChild_findVia c key v hc _ _
          · have : ¬ (qb :: qt = b :: t) := by
              intro h; injection h with h1 _; exact hb h1
            simp [hb, this]

/-! ## Well-formedness -/

theorem edge.labelled_iff {e : edge} :
    e.labelled ↔ ∃ b t, e.n.pfx = b :: t ∧ e.label = byteString b := by
  unfold edge.labelled
  split
  · rename_i h; simp [h]
  · rename_i b t h; simp [h]

theorem node.WF_mk (leaf d p es) (path : Str) :
    (node.mk leaf d p es).WF path ↔ (∀ l, leaf = some l → l.key = path) ∧ edge.WFL es path := by
  rw [node.WF]

theorem node.WF_congr {leaf d p es} {path : Str} (d1 p1) (h : (node.mk leaf d p es).WF path) :
    (node.mk leaf d1 p1 es).WF path := by
  rw [node.WF_mk] at h ⊢; exact h

theorem edge.WFL_nil (path : Str) : edge.WFL [] path := by
  rw [edge.WFL]; trivial

theorem edge.WFL_cons (e : edge) (rest : List edge) (path : Str) :
    edge.WFL (e :: rest) path ↔
      e.labelled ∧ getEdgeL rest e.label = none ∧ e.n.WF (path ++ e.n.pfx) ∧
        edge.WFL rest path := by
  cases e; rw [edge.WFL]; rfl

theorem edge.WFL_getEdgeL {es : List edge} {path l : Str} {c : node}
    (h : edge.WFL es path) (hg : getEdgeL es l = some c) :
    (edge.mk l c).labelled ∧ c.WF (path ++ c.pfx) := by
  induction es with
  | nil => simp [getEdgeL] at hg
  | cons e rest ih =>
    rw [edge.WFL_cons] at h
    simp only [getEdgeL] at hg
    split at hg
    · rename_i hl
      cases e
      simp only [edge.label_mk] at hl
      simp only [edge.n_mk, Option.some.injEq] at hg
      subst hl; subst hg
      exact ⟨h.1, h.2.2.1⟩
    · exact ih h.2.2.2 hg

theorem edge.WFL_append_singleton {es : List edge} {path : Str} {e : edge}
    (h : edge.WFL es path) (hl : e.labelled) (hg : getEdgeL es e.label = none)
    (hw : e.n.WF (path ++ e.n.pfx)) : edge.WFL (es ++ [e]) path := by
  induction es with
  | nil =>
    simp only [List.nil_append, edge.WFL_cons]
    exact ⟨hl, by simp [getEdgeL], hw, edge.WFL_nil _⟩
  | cons e1 rest ih =>
    rw [edge.WFL_cons] at h
    simp only [getEdgeL] at hg
    split at hg
    · cases hg
    · rename_i hne
      rw [List.cons_append, edge.WFL_cons]
      refine ⟨h.1, ?_, h.2.2.1, ih h.2.2.2 hg⟩
      rw [getEdgeL_append, h.2.1]
      simp [getEdgeL, Ne.symm hne]

theorem edge.WFL_updateEdgeL {es : List edge} {path l : Str} {c : node}
    (h : edge.WFL es path) (hl : (edge.mk l c).labelled) (hw : c.WF (path ++ c.pfx)) :
    edge.WFL (updateEdgeL es l c) path := by
  induction es with
  | nil => simpa [updateEdgeL] using edge.WFL_nil path
  | cons e rest ih =>
    rw [edge.WFL_cons] at h
    simp only [updateEdgeL]
    split
    · rename_i he
      rw [edge.WFL_cons]
      simp only [edge.label_mk, edge.n_mk]
      rw [he] at h ⊢
      exact ⟨hl, h.2.1, hw, h.2.2.2⟩
    · rename_i he
      rw [edge.WFL_cons]
      refine ⟨h.1, ?_, h.2.2.1, ih h.2.2.2⟩
      rw [getEdgeL_updateEdgeL, if_neg he]
      exact h.2.1

/-! ## `Insert` keeps the tree well-formed -/

theorem splitNode_WF (c : node) (nk key : Str) (v : Value) (path l : Str)
    (h : longestPrefix nk c.pfx ≠ c.pfx.length) (hl : (edge.mk l c).labelled)
    (hw : c.WF (path ++ c.pfx)) (hkey : key = path ++ nk)
    (hb : ∀ b t, nk = b :: t → l = byteString b) (hnk : nk ≠ []) :
    (edge.mk l (splitNode c nk key v)).labelled ∧
      (splitNode c nk key v).WF (path ++ (splitNode c nk key v).pfx) := by
  cases c with
  | mk leaf d p es =>
    simp only [node.pfx_mk, longestPrefix_eq] at h
    simp only [splitNode, longestPrefix_eq, node.pfx_mk, node.leaf_mk, node.depth_mk,
      node.edges_mk]
    have hle := commonLen_le_right nk p
    have htake := take_commonLen nk p
    have hne := drop_commonLen_ne nk p
    have hpos : 0 < commonLen nk p := by
      obtain ⟨b0, t0, hp0, hl0⟩ := edge.labelled_iff.mp hl
      simp only [edge.n_mk, node.pfx_mk, edge.label_mk] at hp0 hl0
      cases nk with
      | nil => exact absurd rfl hnk
      | cons b t =>
        have := hb b t rfl
        rw [hl0, byteString_eq_iff] at this
        subst this; subst hp0
        simp [commonLen]
    generalize commonLen nk p = cp at *
    have hlt : cp < p.length := lt_of_le_of_ne hle h
    have hP : p.drop cp = p[cp] :: p.drop (cp + 1) := List.drop_eq_getElem_cons hlt
    have hget : p.getD cp 0 = p[cp] := by
      simp [List.getD_eq_getElem?_getD, List.getElem?_eq_getElem hlt]
    have hp : p = nk.take cp ++ p[cp] :: p.drop (cp + 1) := by
      rw [← hP, htake, List.take_append_drop]
    have hnk1 : nk = nk.take cp ++ nk.drop cp := (List.take_append_drop cp nk).symm
    have hA : ∀ b t, nk = b :: t → ∃ t1, nk.take cp = b :: t1 := by
      intro b t hbt
      subst hbt
      obtain ⟨k, rfl⟩ : ∃ k, cp = k + 1 := ⟨cp - 1, by omega⟩
      exact ⟨_, List.take_succ_cons⟩
    rw [hget, hP]
    rw [hP] at hne
    generalize p[cp] = pb at *
    generalize p.drop (cp + 1) = pt at *
    generalize nk.take cp = A at *
    generalize nk.drop cp = N at *
    subst hp; subst hnk1; subst hkey
    rw [node.WF_mk] at hw
    have hlab : ∀ (n1 : node), n1.pfx = A → (edge.mk l n1).labelled := by
      intro n1 hn1
      cases hAN : A ++ N with
      | nil => exact absurd hAN hnk
      | cons b t =>
        obtain ⟨t1, ht1⟩ := hA b t hAN
        rw [edge.labelled_iff]
        exact ⟨b, t1, by simp [hn1, ht1], hb b t hAN⟩
    have hold : edge.WFL [edge.mk (byteString pb) (node.mk leaf d (pb :: pt) es)] (path ++ A) := by
      rw [edge.WFL_cons]
      refine ⟨by simp [edge.labelled], by simp [getEdgeL], ?_, edge.WFL_nil _⟩
      simp only [edge.n_mk, node.pfx_mk, node.WF_mk, List.append_assoc]
      simpa using hw
    cases N with
    | nil =>
      refine ⟨hlab _ rfl, ?_⟩
      simp only [node.pfx_mk, node.WF_mk, Option.some.injEq]
      refine ⟨?_, hold⟩
      rintro l1 rfl
      simp
    | cons nb nt =>
      refine ⟨hlab _ rfl, ?_⟩
      simp only [node.pfx_mk, node.WF_mk]
      refine ⟨by simp, ?_⟩
      have := @edge.WFL_append_singleton _ _ (edge.mk (byteString nb)
        (node.mk (some ⟨path ++ (A ++ nb :: nt), v⟩) 0 (nb :: nt) [])) hold
        (by simp [edge.labelled])
        (by simp [getEdgeL, byteString_eq_iff]; exact fun h1 => hne nb pb nt pt rfl rfl h1.symm)
        (by simp [node.WF_mk, edge.WFL_nil])
      simpa using this

theorem insertChild_WF (c : node) (nk key : Str) (v : Value) (path l : Str)
    (ih : ∀ (path nk : Str), c.WF path → key = path ++ nk → (insertNode c nk key v).1.WF path)
    (hl : (edge.mk l c).labelled)
    (hw : c.WF (path ++ c.pfx)) (hkey : key = path ++ nk)
    (hb : ∀ b t, nk = b :: t → l = byteString b) (hnk : nk ≠ []) :
    (edge.mk l (insertChild c nk key v).1).labelled ∧
      (insertChild c nk key v).1.WF (path ++ (insertChild c nk key v).1.pfx) := by
  unfold insertChild
  by_cases hcp : longestPrefix nk c.pfx = c.pfx.length
  · rw [if_pos hcp, hcp]
    have hpre : c.pfx <+: nk := by
      rw [longestPrefix_eq] at hcp
      exact (commonLen_eq_length_iff _ _).mp hcp
    obtain ⟨r, rfl⟩ := hpre
    rw [List.drop_left, insertNode_pfx]
    refine ⟨?_, ih _ _ hw (by rw [hkey, List.append_assoc])⟩
    rw [edge.labelled_iff] at hl ⊢
    simpa [insertNode_pfx] using hl
  · rw [if_neg hcp]
    exact splitNode_WF c nk key v path l hcp hl hw hkey hb hnk

/-- `Insert` keeps the subtree well-formed. -/
theorem insertNode_WF (n : node) (key : Str) (v : Value) : ∀ (path nk : Str),
    n.WF path → key = path ++ nk → (insertNode n nk key v).1.WF path := by
  induction n using node.induct with
  | mk leaf d p es ih =>
    intro path nk hw hkey
    rw [node.WF_mk] at hw
    cases nk with
    | nil =>
      rw [insertNode_nil]
      cases leaf with
      | none =>
        simp only [node.WF_mk, Option.some.injEq]
        exact ⟨by rintro l rfl; simpa using hkey, hw.2⟩
      | some l0 =>
        simp only [node.WF_mk, Option.some.injEq]
        exact ⟨by rintro l rfl; exact hw.1 l0 rfl, hw.2⟩
    | cons b t =>
      rw [insertNode_cons]
      cases hg : getEdgeL es (byteString b) with
      | none =>
        simp only [node.WF_mk]
        refine ⟨hw.1, edge.WFL_append_singleton hw.2 (by simp [edge.labelled]) hg ?_⟩
        simp [node.WF_mk, edge.WFL_nil, hkey]
      | some c =>
        simp only [node.WF_mk]
        have hc := ih _ (getEdgeL_some_mem hg)
        simp only [edge.n_mk] at hc
        obtain ⟨hl, hcw⟩ := edge.WFL_getEdgeL hw.2 hg
        have := insertChild_WF c (b :: t) key v path (byteString b) hc hl hcw hkey
          (by intro b1 t1 h; injection h with h1 _; rw [h1]) (by simp)
        exact ⟨hw.1, edge.WFL_updateEdgeL hw.2 this.1 this.2⟩

/-- The results of `Insert` and the number of times `size` is incremented. -/
theorem insertNode_out (n : node) (key : Str) (v : Value) : ∀ (nk : Str),
    (insertNode n nk key v).2 =
      match findLeaf n nk with
      | some l => ⟨l.value, true, 0⟩
      | none => ⟨none, false, 1⟩ := by
  induction n using node.induct with
  | mk leaf d p es ih =>
    intro nk
    cases nk with
    | nil => rw [insertNode_nil]; cases leaf <;> simp [findLeaf]
    | cons b t =>
      rw [insertNode_cons, findLeaf_cons]
      cases hg : getEdgeL es (byteString b) with
      | none => rfl
      | some c =>
        simp only
        have hc := ih _ (getEdgeL_some_mem hg)
        simp only [edge.n_mk] at hc
        unfold insertChild
        by_cases hcp : longestPrefix (b :: t) c.pfx = c.pfx.length
        · rw [if_pos hcp, hcp]
          have hpre : c.pfx <+: b :: t := by
            rw [longestPrefix_eq] at hcp
            exact (commonLen_eq_length_iff _ _).mp hcp
          obtain ⟨r, hr⟩ := hpre
          rw [← hr, List.drop_left, findVia_append_self, hc]
        · rw [if_neg hcp]
          have hnp : ¬ c.pfx <+: b :: t := by
            rw [longestPrefix_eq] at hcp
            exact fun hp => hcp ((commonLen_eq_length_iff _ _).mpr hp)
          rw [findVia_of_not_pre c c.pfx _ (List.prefix_refl _) hnp]

/-! ## Counting leaves -/

@[simp]
theorem leafPart_none : leafPart none = [] := rfl

@[simp]
theorem leafPart_some (l : leafNode) : leafPart (some l) = [([], l)] := rfl

theorem entriesN_mk (leaf d p es) :
    entriesN (.mk leaf d p es) = leafPart leaf ++ entriesL es := by
  rw [entriesN]

theorem entriesL_nil : entriesL [] = [] := by
  rw [entriesL]

theorem entriesL_cons (e : edge) (rest : List edge) :
    entriesL (e :: rest) =
      (entriesN e.n).map (fun x => (e.n.pfx ++ x.1, x.2)) ++ entriesL rest := by
  cases e; rw [entriesL]; rfl

theorem entriesL_append (es1 es2 : List edge) :
    entriesL (es1 ++ es2) = entriesL es1 ++ entriesL es2 := by
  induction es1 with
  | nil => simp [entriesL_nil]
  | cons e rest ih => simp [entriesL_cons, ih]

theorem entriesN_congr (leaf d p es d1 p1) :
    entriesN (.mk leaf d p es) = entriesN (.mk leaf d1 p1 es) := by
  rw [entriesN_mk, entriesN_mk]

theorem length_entriesL_updateEdgeL {es : List edge} {l : Str} {c : node} (c1 : node)
    (hg : getEdgeL es l = some c) :
    (entriesL (updateEdgeL es l c1)).length + (entriesN c).length =
      (entriesL es).length + (entriesN c1).length := by
  induction es with
  | nil => simp [getEdgeL] at hg
  | cons e rest ih =>
    simp only [getEdgeL] at hg
    simp only [updateEdgeL]
    split at hg
    · rename_i he
      simp only [Option.some.injEq] at hg
      subst hg
      simp only [he, if_true, entriesL_cons, edge.n_mk, List.length_append, List.length_map]
      omega
    · rename_i he
      simp only [he, if_false, entriesL_cons, List.length_append, List.length_map]
      have := ih hg
      omega

theorem length_entriesN_splitNode (c : node) (nk key : Str) (v : Value) :
    (entriesN (splitNode c nk key v)).length = (entriesN c).length + 1 := by
  cases c with
  | mk leaf d p es =>
    unfold splitNode
    simp only [node.leaf_mk, node.depth_mk, node.edges_mk]
    split <;>
    · simp only [entriesN_mk, entriesL_cons, entriesL_nil, edge.n_mk, List.length_append,
        List.length_map, List.length_cons, List.length_nil, leafPart_none, leafPart_some]
      omega

/-- The number of leaves after `Insert` is the number before plus the increment of `size`. -/
theorem length_entriesN_insertNode (n : node) (key : Str) (v : Value) : ∀ (nk : Str),
    ((entriesN (insertNode n nk key v).1).length : Int) =
      (entriesN n).length + (insertNode n nk key v).2.inc := by
  induction n using node.induct with
  | mk leaf d p es ih =>
    intro nk
    cases nk with
    | nil => rw [insertNode_nil]; cases leaf <;> simp [entriesN_mk]
    | cons b t =>
      rw [insertNode_cons]
      cases hg : getEdgeL es (byteString b) with
      | none =>
        simp only [entriesN_mk, entriesL_append, entriesL_cons, entriesL_nil, edge.n_mk,
          List.length_append, List.length_map, List.length_cons, List.length_nil]
        cases leaf <;> simp only [leafPart_none, leafPart_some, List.length_nil, List.length_cons, List.length_append] <;> push_cast <;> omega
      | some c =>
        simp only
        have hc := ih _ (getEdgeL_some_mem hg)
        simp only [edge.n_mk] at hc
        have hlen := length_entriesL_updateEdgeL (insertChild c (b :: t) key v).1 hg
        have hchild : ((entriesN (insertChild c (b :: t) key v).1).length : Int) =
            (entriesN c).length + (insertChild c (b :: t) key v).2.inc := by
          unfold insertChild
          split
          · exact hc _
          · simp [length_entriesN_splitNode]
        simp only [entriesN_mk, List.length_append]
        push_cast
        omega

/-! ## Delete: the edge slice helpers -/

theorem updateEdgeL_updateEdgeL (es : List edge) (l : Str) (c1 c2 : node) :
    updateEdgeL (updateEdgeL es l c1) l c2 = updateEdgeL es l c2 := by
  induction es with
  | nil => rfl
  | cons e rest ih =>
    simp only [updateEdgeL]
    by_cases he : e.label = l
    · simp [he, updateEdgeL]
    · simp [he, updateEdgeL, ih]

theorem getEdgeL_delEdgeL {es es1 : List edge} {path l : Str} (h : edge.WFL es path)
    (hd : delEdgeL es l = some es1) (l1 : Str) :
    getEdgeL es1 l1 = if l1 = l then none else getEdgeL es l1 := by
  induction es generalizing es1 with
  | nil => simp [delEdgeL] at hd
  | cons e rest ih =>
    rw [edge.WFL_cons] at h
    simp only [delEdgeL] at hd
    split at hd
    · rename_i he
      simp only [Option.some.injEq] at hd
      subst hd
      simp only [getEdgeL]
      by_cases h1 : l1 = l
      · rw [if_pos h1, h1, ← he]; exact h.2.1
      · rw [if_neg h1, if_neg]
        rw [he]; exact Ne.symm h1
    · rename_i he
      cases hr : delEdgeL rest l with
      | none => rw [hr] at hd; cases hd
      | some r1 =>
        rw [hr] at hd
        simp only [Option.some.injEq] at hd
        subst hd
        simp only [getEdgeL]
        rw [ih h.2.2.2 hr]
        by_cases h1 : l1 = l
        · subst h1; simp [he]
        · simp [h1]

theorem edge.WFL_delEdgeL {es es1 : List edge} {path l : Str} (h : edge.WFL es path)
    (hd : delEdgeL es l = some es1) : edge.WFL es1 path := by
  induction es generalizing es1 with
  | nil => simp [delEdgeL] at hd
  | cons e rest ih =>
    rw [edge.WFL_cons] at h
    simp only [delEdgeL] at hd
    split at hd
    · simp only [Option.some.injEq] at hd
      subst hd
      exact h.2.2.2
    · rename_i he
      cases hr : delEdgeL rest l with
      | none => rw [hr] at hd; cases hd
      | some r1 =>
        rw [hr] at hd
        simp only [Option.some.injEq] at hd
        subst hd
        rw [edge.WFL_cons]
        refine ⟨h.1, ?_, h.2.2.1, ih h.2.2.2 hr⟩
        rw [getEdgeL_delEdgeL h.2.2.2 hr, h.2.1]
        simp

theorem length_entriesL_delEdgeL {es es1 : List edge} {l : Str} {c : node}
    (hg : getEdgeL es l = some c) (hd : delEdgeL es l = some es1) :
    (entriesL es1).length + (entriesN c).length = (entriesL es).length := by
  induction es generalizing es1 with
  | nil => simp [delEdgeL] at hd
  | cons e rest ih =>
    simp only [delEdgeL] at hd
    simp only [getEdgeL] at hg
    by_cases he : e.label = l
    · simp only [he, if_true, Option.some.injEq] at hd hg
      subst hd; subst hg
      simp only [entriesL_cons, List.length_append, List.length_map]
      omega
    · simp only [he, if_false] at hd hg
      cases hr : delEdgeL rest l with
      | none => rw [hr] at hd; cases hd
      | some r1 =>
        rw [hr] at hd
        simp only [Option.some.injEq] at hd
        subst hd
        have := ih hg hr
        simp only [entriesL_cons, List.length_append, List.length_map]
        omega

theorem length_delEdgeL {es es1 : List edge} {l : Str} (hd : delEdgeL es l = some es1) :
    es1.length + 1 = es.length := by
  induction es generalizing es1 with
  | nil => simp [delEdgeL] at hd
  | cons e rest ih =>
    simp only [delEdgeL] at hd
    split at hd
    · simp only [Option.some.injEq] at hd
      subst hd; simp
    · cases hr : delEdgeL rest l with
      | none => rw [hr] at hd; cases hd
      | some r1 =>
        rw [hr] at hd
        simp only [Option.some.injEq] at hd
        subst hd
        have := ih hr
        simp only [List.length_cons]; omega

/-! ## Delete: one edge at a time -/

theorem deleteEdges_eq (es : List edge) (label pattern : Str) :
    deleteEdges es label pattern =
      match getEdgeL es label with
      | none => .notFound
      | some c =>
        if hasPrefix pattern c.pfx then
          match deleteNode c false (pattern.drop c.pfx.length) with
          | .notFound => .notFound
          | .panic => .panic
          | .atLeaf => .atLeaf c
          | .deleted c1 v => .deleted (updateEdgeL es label c1) v
        else .notFound := by
  induction es with
  | nil => simp [deleteEdges, getEdgeL]
  | cons e rest ih =>
    cases e with
    | mk l n =>
      simp only [deleteEdges, getEdgeL, updateEdgeL, edge.label_mk, edge.n_mk]
      by_cases hl : l = label
      · simp only [hl, if_true]
      · simp only [hl, if_false, ih]
        cases getEdgeL rest label with
        | none => rfl
        | some c =>
          simp only
          by_cases hp : hasPrefix pattern c.pfx = true
          · simp only [hp, if_true]
            cases deleteNode c false (List.drop c.pfx.length pattern) <;> rfl
          · simp [hp]

theorem deleteNode_nil (leaf d p es) (isRoot : Bool) :
    deleteNode (.mk leaf d p es) isRoot [] = if leaf.isSome then .atLeaf else .notFound := by
  simp [deleteNode, node.isLeaf]

theorem deleteNode_cons (leaf d p es) (isRoot : Bool) (b : Byte) (t : Str) :
    deleteNode (.mk leaf d p es) isRoot (b :: t) =
      match getEdgeL es (byteString b) with
      | none => .notFound
      | some c =>
        if hasPrefix (b :: t) c.pfx then
          match deleteNode c false ((b :: t).drop c.pfx.length) with
          | .notFound => .notFound
          | .panic => .panic
          | .atLeaf =>
            match deleteBlock isRoot (.mk leaf d p es) (byteString b) c with
            | none => .panic
            | some (parent1, v) => .deleted parent1 v
          | .deleted c1 v => .deleted (.mk leaf d p (updateEdgeL es (byteString b) c1)) v
        else .notFound := by
  rw [deleteNode, deleteEdges_eq]
  cases getEdgeL es (byteString b) with
  | none => rfl
  | some c =>
    simp only
    by_cases hp : hasPrefix (b :: t) c.pfx = true
    · simp only [hp, if_true]
      cases deleteNode c false (List.drop c.pfx.length (b :: t)) <;> rfl
    · simp [hp]

/-! ## Delete: the effect of the block `DELETE` -/

theorem findVia_of_findLeaf (n n1 : node) (q : Str) (hp : n1.pfx = n.pfx)
    (h : ∀ y, findLeaf n1 y = if y = q then none else findLeaf n y) (x : Str) :
    findVia n1 x = if x = n.pfx ++ q then none else findVia n x := by
  by_cases hx : n.pfx <+: x
  · obtain ⟨y, rfl⟩ := hx
    have h1 := findVia_append_self n1 y
    rw [hp] at h1
    rw [h1, findVia_append_self, h]
    simp only [List.append_cancel_left_eq]
  · rw [findVia_of_not_pre n1 n.pfx x (by rw [hp]) hx,
      findVia_of_not_pre n n.pfx x (List.prefix_refl _) hx]
    simp

/-- Taking the leaf off a node. -/
theorem DelOK_clear (lf : leafNode) (d : Int) (p : Str) (es : List edge) (path : Str)
    (hw : (node.mk (some lf) d p es).WF path) :
    DelOK (.mk (some lf) d p es) (.mk none d p es) path p := by
  refine ⟨⟨[], by simp, ?_⟩, ?_, ?_⟩
  · rw [node.WF_mk] at hw ⊢
    exact ⟨by simp, by simpa using hw.2⟩
  · have := findVia_of_findLeaf (.mk (some lf) d p es) (.mk none d p es) []
      rfl (by intro y; cases y <;> simp [findLeaf])
    simpa using this
  · simp [entriesN_mk]

/-- The descent through a node without a leaf and with one edge is the descent through the
node `mergeChild` makes of it. -/
theorem findVia_merge (d : Int) (p : Str) (e : edge) (he : e.labelled) (x : Str) :
    findVia (.mk e.n.leaf d (p ++ e.n.pfx) e.n.edges) x = findVia (.mk none d p [e]) x := by
  obtain ⟨b, t, hpb, hl⟩ := edge.labelled_iff.mp he
  by_cases hx : p <+: x
  · obtain ⟨y, rfl⟩ := hx
    have h0 := findVia_append_self (.mk none d p [e]) y
    simp only [node.pfx_mk] at h0
    rw [findVia_append, h0]
    cases y with
    | nil =>
      rw [findLeaf_nil, findVia_mk, hpb]
      simp [hasPrefix]
    | cons yb yt =>
      rw [findLeaf_cons]
      simp only [getEdgeL, hl, byteString_eq_iff]
      by_cases hb : b = yb
      · subst hb
        simp only [if_true]
        rw [findVia_mk]
        conv_rhs => rw [findVia]
        rw [findLeaf_congr e.n.leaf d e.n.pfx e.n.edges e.n.depth e.n.pfx, node_eta]
      · have : hasPrefix (yb :: yt) e.n.pfx = false := by
          rw [hasPrefix_eq_false_iff, hpb]
          rintro ⟨r, hr⟩
          simp only [List.cons_append, List.cons.injEq] at hr
          exact hb hr.1
        simp [hb, findVia_mk, this]
  · rw [findVia_of_not_pre _ p x (by simp) hx,
      findVia_of_not_pre _ p x (by simp) hx]

/-- The node `mergeChild` makes of a node without a leaf and with one edge. -/
theorem DelOK_merge {c : node} {path k : Str} {d : Int} {p : Str} {e : edge}
    (h : DelOK c (.mk none d p [e]) path k) :
    DelOK c (.mk e.n.leaf d (p ++ e.n.pfx) e.n.edges) path k := by
  obtain ⟨⟨ext, hext, hw⟩, hf, hlen⟩ := h
  simp only [node.pfx_mk] at hext
  rw [node.WF_mk, edge.WFL_cons] at hw
  refine ⟨⟨ext ++ e.n.pfx, by simp [hext], ?_⟩, ?_, ?_⟩
  · have := hw.2.2.2.1
    rw [← node_eta e.n] at this
    simp only [node.pfx_mk] at this
    rw [← List.append_assoc]
    exact node.WF_congr _ _ this
  · intro y
    rw [findVia_merge d p e hw.2.1, hf]
  · rw [← hlen, entriesN_congr e.n.leaf d (p ++ e.n.pfx) e.n.edges e.n.depth e.n.pfx, node_eta]
    simp [entriesN_mk, entriesL_cons, entriesL_nil]

/-- Putting the node `Delete` left in the place of a child. -/
theorem DelOK_replace {leaf : Option leafNode} {d : Int} {p : Str} {es : List edge}
    {path l k : Str} {c c1 : node}
    (hw : (node.mk leaf d p es).WF path) (hg : getEdgeL es l = some c)
    (hk : c.pfx <+: k) (h : DelOK c c1 (path ++ c.pfx) k) :
    DelOK (.mk leaf d p es) (.mk leaf d p (updateEdgeL es l c1)) path (p ++ k) := by
  obtain ⟨⟨ext, hext, hw1⟩, hf, hlen⟩ := h
  rw [node.WF_mk] at hw
  obtain ⟨hlab, -⟩ := edge.WFL_getEdgeL hw.2 hg
  obtain ⟨b, t, hpb, hl⟩ := edge.labelled_iff.mp hlab
  simp only [edge.n_mk, edge.label_mk] at hpb hl
  refine ⟨⟨[], by simp, ?_⟩, ?_, ?_⟩
  · rw [node.WF_mk]
    refine ⟨by simpa using hw.1, ?_⟩
    rw [List.append_nil]
    refine edge.WFL_updateEdgeL hw.2 ?_ ?_
    · rw [edge.labelled_iff]
      exact ⟨b, t ++ ext, by simp [hext, hpb], hl⟩
    · rw [hext, ← List.append_assoc]; exact hw1
  · refine findVia_of_findLeaf (.mk leaf d p es) (.mk leaf d p (updateEdgeL es l c1)) k rfl ?_
    intro y
    cases y with
    | nil =>
      rw [findLeaf_nil, findLeaf_nil, if_neg]
      rintro rfl
      rw [hpb] at hk
      simp at hk
    | cons yb yt =>
      rw [findLeaf_cons, findLeaf_cons, getEdgeL_updateEdgeL]
      by_cases hb : byteString yb = l
      · rw [if_pos hb, hb, hg]
        exact hf _
      · rw [if_neg hb, if_neg]
        rintro rfl
        apply hb
        rw [hpb] at hk
        obtain ⟨r, hr⟩ := hk
        simp only [List.cons_append, List.cons.injEq] at hr
        rw [hl, hr.1]
  · have := length_entriesL_updateEdgeL c1 hg
    simp only [entriesN_mk, List.length_append]
    omega

/-- Removing the edge to a node that held nothing but the leaf. -/
theorem DelOK_remove {leaf : Option leafNode} {d : Int} {p : Str} {es es1 : List edge}
    {path l : Str} {lf : leafNode} {dc : Int} {pc : Str}
    (hw : (node.mk leaf d p es).WF path) (hg : getEdgeL es l = some (.mk (some lf) dc pc []))
    (hd : delEdgeL es l = some es1) :
    DelOK (.mk leaf d p es) (.mk leaf d p es1) path (p ++ pc) := by
  rw [node.WF_mk] at hw
  obtain ⟨hlab, -⟩ := edge.WFL_getEdgeL hw.2 hg
  obtain ⟨b, t, hpb, hl⟩ := edge.labelled_iff.mp hlab
  simp only [edge.n_mk, edge.label_mk, node.pfx_mk] at hpb hl
  refine ⟨⟨[], by simp, ?_⟩, ?_, ?_⟩
  · rw [node.WF_mk, List.append_nil]
    exact ⟨hw.1, edge.WFL_delEdgeL hw.2 hd⟩
  · refine findVia_of_findLeaf (.mk leaf d p es) (.mk leaf d p es1) pc rfl ?_
    intro y
    cases y with
    | nil =>
      rw [findLeaf_nil, findLeaf_nil, if_neg]
      rw [hpb]; simp
    | cons yb yt =>
      rw [findLeaf_cons, findLeaf_cons, getEdgeL_delEdgeL hw.2 hd]
      by_cases hb : byteString yb = l
      · rw [if_pos hb, hb, hg]
        simp only
        rw [findVia_leafOnly]
        split <;> rfl
      · rw [if_neg hb, if_neg]
        rintro rfl
        apply hb
        injection hpb with h1 _
        rw [hl, h1]
  · have := length_entriesL_delEdgeL hg hd
    simp only [entriesN_mk, List.length_append, entriesL_nil, List.length_cons,
      List.length_nil, leafPart_some] at this ⊢
    omega

theorem findLeaf_nil_leaf (n : node) : findLeaf n [] = n.leaf := by
  cases n; simp [findLeaf]

theorem mergeChild_singleton (leaf : Option leafNode) (d : Int) (p : Str) (e : edge) :
    (node.mk leaf d p [e]).mergeChild = some (.mk e.n.leaf d (p ++ e.n.pfx) e.n.edges) := rfl

theorem deleteBlock_step3 {n : node} {path k : Str} (isRoot : Bool) (leaf : Option leafNode)
    (d : Int) (p : Str) (es2 : List edge) (h : DelOK n (.mk leaf d p es2) path k) :
    ∃ n3, (if (node.mk leaf d p es2).edges.length = 1 && !isRoot && !(node.mk leaf d p es2).isLeaf
        then (node.mk leaf d p es2).mergeChild else some (node.mk leaf d p es2)) = some n3 ∧
      DelOK n n3 path k ∧ (isRoot = true → n3.pfx = p) := by
  by_cases hc : ((node.mk leaf d p es2).edges.length = 1 && !isRoot &&
      !(node.mk leaf d p es2).isLeaf) = true
  · rw [if_pos hc]
    simp only [node.edges_mk, node.isLeaf, node.leaf_mk, Bool.and_eq_true, decide_eq_true_eq,
      Bool.not_eq_true'] at hc
    obtain ⟨⟨hlen, hr⟩, hleaf⟩ := hc
    cases leaf with
    | some l0 => simp at hleaf
    | none =>
      match es2, hlen with
      | [e], _ =>
        exact ⟨_, rfl, DelOK_merge h, by simp [hr]⟩
  · rw [if_neg hc]
    exact ⟨_, rfl, h, fun _ => rfl⟩

/-- The block `DELETE` for a node with a leaf below a well-formed parent: no panic, the value
of the leaf is returned, and the parent is left with this one leaf less. -/
theorem deleteBlock_ok (isRoot : Bool) {leaf : Option leafNode} {d : Int} {p : Str}
    {es : List edge} {path l : Str} {c : node} {lf : leafNode}
    (hw : (node.mk leaf d p es).WF path) (hg : getEdgeL es l = some c)
    (hleaf : c.leaf = some lf) :
    ∃ n3, deleteBlock isRoot (.mk leaf d p es) l c = some (n3, lf.value) ∧
      DelOK (.mk leaf d p es) n3 path (p ++ c.pfx) ∧ (isRoot = true → n3.pfx = p) := by
  cases c with
  | mk cleaf dc pc ces =>
    simp only [node.leaf_mk] at hleaf
    subst hleaf
    have hwc : (node.mk (some lf) dc pc ces).WF (path ++ pc) := by
      have := (edge.WFL_getEdgeL ((node.WF_mk _ _ _ _ _).mp hw).2 hg).2
      simpa using this
    have hclear := DelOK_clear lf dc pc ces (path ++ pc) hwc
    unfold deleteBlock
    simp only [node.leaf_mk, node.depth_mk, node.pfx_mk, node.edges_mk]
    match ces, hg, hwc, hclear with
    | [], hg, hwc, hclear =>
      obtain ⟨es1, hd⟩ := delEdgeL_isSome hg
      have h2 := DelOK_remove hw hg hd
      obtain ⟨n3, h3, hok, hr⟩ := deleteBlock_step3 isRoot leaf d p es1 h2
      refine ⟨n3, ?_, hok, hr⟩
      simp only [List.length_nil, if_true, node.delEdge, hd, Option.some_bind, zero_ne_one,
        if_false]
      rw [h3]; rfl
    | [e], hg, hwc, hclear =>
      have h1 := DelOK_merge hclear
      have h2 := DelOK_replace hw hg (List.prefix_refl _) h1
      obtain ⟨n3, h3, hok, hr⟩ := deleteBlock_step3 isRoot leaf d p _ h2
      refine ⟨n3, ?_, hok, hr⟩
      simp only [List.length_singleton, one_ne_zero, if_false, node.setChild, Option.some_bind,
        if_true, mergeChild_singleton, Option.map_some', updateEdgeL_updateEdgeL]
      rw [h3]; rfl
    | e1 :: e2 :: r, hg, hwc, hclear =>
      have h2 := DelOK_replace hw hg (List.prefix_refl _) hclear
      obtain ⟨n3, h3, hok, hr⟩ := deleteBlock_step3 isRoot leaf d p _ h2
      refine ⟨n3, ?_, hok, hr⟩
      have hne0 : ¬ (e1 :: e2 :: r).length = 0 := by simp
      have hne1 : ¬ (e1 :: e2 :: r).length = 1 := by simp
      simp only [hne0, hne1, if_false, node.setChild, Option.some_bind]
      rw [h3]; rfl

/-- The descent of `Delete` from a well-formed node: it finds exactly the leaf `Get` finds,
never panics, and where it finds one the node is left with this one leaf less. -/
theorem deleteNode_ok (n : node) : ∀ (isRoot : Bool) (path q : Str), n.WF path →
    match findLeaf n q with
    | none => deleteNode n isRoot q = .notFound
    | some lf =>
      if q = [] then deleteNode n isRoot q = .atLeaf
      else ∃ n1, deleteNode n isRoot q = .deleted n1 lf.value ∧
        DelOK n n1 path (n.pfx ++ q) ∧ (isRoot = true → n1.pfx = n.pfx) := by
  induction n using node.induct with
  | mk leaf d p es ih =>
    intro isRoot path q hw
    cases q with
    | nil =>
      rw [findLeaf_nil, deleteNode_nil]
      cases leaf <;> simp
    | cons b t =>
      rw [findLeaf_cons, deleteNode_cons]
      cases hg : getEdgeL es (byteString b) with
      | none => rfl
      | some c =>
        simp only
        have hc := ih _ (getEdgeL_some_mem hg)
        simp only [edge.n_mk] at hc
        have hwc := (edge.WFL_getEdgeL ((node.WF_mk _ _ _ _ _).mp hw).2 hg).2
        by_cases hp : hasPrefix (b :: t) c.pfx = true
        · rw [if_pos hp]
          obtain ⟨q1, hq1⟩ := hasPrefix_iff.mp hp
          rw [← hq1, List.drop_left, findVia_append_self]
          have hc1 := hc false _ q1 hwc
          cases hf : findLeaf c q1 with
          | none =>
            rw [hf] at hc1
            simp only at hc1 ⊢
            rw [hc1]
          | some lf =>
            rw [hf] at hc1
            simp only at hc1 ⊢
            rw [if_neg (by rw [hq1]; simp)]
            by_cases hq : q1 = []
            · subst hq
              rw [if_pos rfl] at hc1
              rw [hc1]
              simp only
              rw [findLeaf_nil_leaf] at hf
              obtain ⟨n3, h3, hok, hr⟩ := deleteBlock_ok isRoot hw hg hf
              rw [h3]
              exact ⟨n3, rfl, by simpa using hok, hr⟩
            · rw [if_neg hq] at hc1
              obtain ⟨c1, hd, hok, -⟩ := hc1
              rw [hd]
              exact ⟨_, rfl, DelOK_replace hw hg (List.prefix_append _ _) hok, fun _ => rfl⟩
        · rw [if_neg hp]
          rw [findVia, if_neg hp]

/-! ## The leaves below a node and the descent -/

theorem mem_entriesL {es : List edge} {path : Str} (h : edge.WFL es path) (x : Str)
    (lf : leafNode) :
    (x, lf) ∈ entriesL es ↔
      ∃ b t c, x = b :: t ∧ getEdgeL es (byteString b) = some c ∧
        ∃ x1, x = c.pfx ++ x1 ∧ (x1, lf) ∈ entriesN c := by
  induction es with
  | nil => simp [entriesL_nil, getEdgeL]
  | cons e rest ih =>
    rw [edge.WFL_cons] at h
    obtain ⟨b0, t0, hp0, hl0⟩ := edge.labelled_iff.mp h.1
    rw [entriesL_cons, List.mem_append, List.mem_map, ih h.2.2.2]
    constructor
    · rintro (⟨⟨x1, lf1⟩, hmem, heq⟩ | ⟨b, t, c, hx, hg, hrest⟩)
      · simp only [Prod.mk.injEq] at heq
        obtain ⟨rfl, rfl⟩ := heq
        refine ⟨b0, t0 ++ x1, e.n, by simp [hp0], by simp [getEdgeL, hl0], x1, rfl, hmem⟩
      · refine ⟨b, t, c, hx, ?_, hrest⟩
        simp only [getEdgeL]
        rw [if_neg, hg]
        intro he
        rw [← he, h.2.1] at hg
        cases hg
    · rintro ⟨b, t, c, hx, hg, x1, hx1, hmem⟩
      simp only [getEdgeL] at hg
      split at hg
      · simp only [Option.some.injEq] at hg
        subst hg
        exact Or.inl ⟨(x1, lf), hmem, by simp [hx1]⟩
      · exact Or.inr ⟨b, t, c, hx, hg, x1, hx1, hmem⟩

theorem mem_leafPart (leaf : Option leafNode) (x : Str) (lf : leafNode) :
    (x, lf) ∈ leafPart leaf ↔ x = [] ∧ leaf = some lf := by
  cases leaf with
  | none => simp
  | some l =>
    simp only [leafPart_some, List.mem_singleton, Prod.mk.injEq, Option.some.injEq]
    constructor <;> rintro ⟨rfl, rfl⟩ <;> exact ⟨rfl, rfl⟩

theorem edge.WFL_mem {es : List edge} {path : Str} (h : edge.WFL es path) {e : edge}
    (he : e ∈ es) : e.labelled ∧ e.n.WF (path ++ e.n.pfx) := by
  induction es with
  | nil => cases he
  | cons e1 rest ih =>
    rw [edge.WFL_cons] at h
    rcases List.mem_cons.mp he with rfl | he
    · exact ⟨h.1, h.2.2.1⟩
    · exact ih h.2.2.2 he

/-- Below a well-formed node, the leaves listed are those the descent finds. -/
theorem mem_entriesN (n : node) : ∀ (path x : Str) (lf : leafNode), n.WF path →
    ((x, lf) ∈ entriesN n ↔ findLeaf n x = some lf) := by
  induction n using node.induct with
  | mk leaf d p es ih =>
    intro path x lf hw
    rw [node.WF_mk] at hw
    rw [entriesN_mk, List.mem_append, mem_entriesL hw.2]
    cases x with
    | nil =>
      rw [findLeaf_nil, mem_leafPart]
      simp
    | cons b t =>
      rw [findLeaf_cons]
      rw [mem_leafPart]
      simp only [List.cons_ne_nil, false_and, false_or, List.cons.injEq]
      constructor
      · rintro ⟨b1, t1, c, ⟨rfl, rfl⟩, hg, x1, hx1, hmem⟩
        rw [hg]
        simp only
        rw [hx1, findVia_append_self]
        have hc := ih _ (getEdgeL_some_mem hg)
        simp only [edge.n_mk] at hc
        exact (hc _ x1 lf (edge.WFL_getEdgeL hw.2 hg).2).mp hmem
      · intro hf
        cases hg : getEdgeL es (byteString b) with
        | none => rw [hg] at hf; cases hf
        | some c =>
          rw [hg] at hf
          simp only at hf
          have hc := ih _ (getEdgeL_some_mem hg)
          simp only [edge.n_mk] at hc
          by_cases hp : c.pfx <+: b :: t
          · obtain ⟨x1, hx1⟩ := hp
            rw [← hx1, findVia_append_self] at hf
            exact ⟨b, t, c, ⟨rfl, rfl⟩, hg, x1, hx1.symm,
              (hc _ x1 lf (edge.WFL_getEdgeL hw.2 hg).2).mpr hf⟩
          · rw [findVia_of_not_pre c c.pfx _ (List.prefix_refl _) hp] at hf
            cases hf

theorem entriesL_head {es : List edge} {path : Str} (h : edge.WFL es path) {x : Str}
    (hx : x ∈ (entriesL es).map Prod.fst) :
    ∃ b t c, x = b :: t ∧ getEdgeL es (byteString b) = some c := by
  obtain ⟨⟨x0, lf⟩, hmem, rfl⟩ := List.mem_map.mp hx
  obtain ⟨b, t, c, hx, hg, -⟩ := (mem_entriesL h x0 lf).mp hmem
  exact ⟨b, t, c, hx, hg⟩

theorem nodup_entriesL {es : List edge} {path : Str} (h : edge.WFL es path)
    (hn : ∀ e ∈ es, ((entriesN e.n).map Prod.fst).Nodup) :
    ((entriesL es).map Prod.fst).Nodup := by
  induction es with
  | nil => simp [entriesL_nil]
  | cons e rest ih =>
    have h1 := (edge.WFL_cons _ _ _).mp h
    obtain ⟨b0, t0, hp0, hl0⟩ := edge.labelled_iff.mp h1.1
    rw [entriesL_cons, List.map_append, List.nodup_append]
    refine ⟨?_, ih h1.2.2.2 (fun e1 he1 => hn e1 (List.mem_cons_of_mem _ he1)), ?_⟩
    · rw [List.map_map]
      have : (Prod.fst ∘ fun (x : Str × leafNode) => (e.n.pfx ++ x.1, x.2)) =
          (fun s => e.n.pfx ++ s) ∘ Prod.fst := by
        funext x; rfl
      rw [this, ← List.map_map]
      exact (hn e (List.mem_cons_self _ _)).map (fun a b hab => List.append_cancel_left hab)
    · intro x hx1 hx2
      obtain ⟨b, t, c, hx, hg⟩ := entriesL_head h1.2.2.2 hx2
      rw [List.map_map] at hx1
      obtain ⟨⟨x0, lf⟩, -, hx0⟩ := List.mem_map.mp hx1
      simp only [Function.comp, hp0] at hx0
      rw [hx] at hx0
      injection hx0 with hb _
      rw [← hb, ← hl0, h1.2.1] at hg
      cases hg

/-- Below a well-formed node no two leaves are reached by the same bytes. -/
theorem nodup_entriesN (n : node) : ∀ (path : Str), n.WF path →
    ((entriesN n).map Prod.fst).Nodup := by
  induction n using node.induct with
  | mk leaf d p es ih =>
    intro path hw
    rw [node.WF_mk] at hw
    rw [entriesN_mk, List.map_append, List.nodup_append]
    refine ⟨by cases leaf <;> simp, ?_, ?_⟩
    · refine nodup_entriesL hw.2 ?_
      intro e he
      exact ih e he _ (edge.WFL_mem hw.2 he).2
    · intro x hx1 hx2
      obtain ⟨b, t, c, hx, -⟩ := entriesL_head hw.2 hx2
      subst hx
      obtain ⟨⟨x0, lf⟩, hmem, hx0⟩ := List.mem_map.mp hx1
      simp only at hx0
      subst hx0
      rw [mem_leafPart] at hmem
      cases hmem.1

/-! ## Walking with a callback that never stops -/

theorem walkEdges_false (es : List edge)
    (h : ∀ e ∈ es, recursiveWalk e.n (fun _ _ => false) =
      ((entriesN e.n).map (fun x => (x.2.key, x.2.value)), false)) :
    walkEdges es (fun _ _ => false) =
      ((entriesL es).map (fun x => (x.2.key, x.2.value)), false) := by
  induction es with
  | nil => simp [walkEdges, entriesL_nil]
  | cons e rest ih =>
    cases e with
    | mk l n =>
      have h1 := h _ (List.mem_cons_self _ _)
      have h2 := ih (fun e1 he1 => h e1 (List.mem_cons_of_mem _ he1))
      simp only [edge.n_mk] at h1
      simp only [walkEdges, h1, h2, entriesL_cons, edge.n_mk, List.map_append, List.map_map]
      simp [Function.comp]

/-- With a callback that always returns false, `recursiveWalk` calls it on the key and value of
every leaf below the node, in pre-order, and returns false. -/
theorem recursiveWalk_false (n : node) :
    recursiveWalk n (fun _ _ => false) =
      ((entriesN n).map (fun x => (x.2.key, x.2.value)), false) := by
  induction n using node.induct with
  | mk leaf d p es ih =>
    have := walkEdges_false es ih
    cases leaf with
    | none => simp [recursiveWalk, this, entriesN_mk]
    | some l => simp [recursiveWalk, this, entriesN_mk]

/-- The key held by a leaf of a well-formed subtree is the sequence of bytes leading to it. -/
theorem findLeaf_key (n : node) : ∀ (path x : Str) (lf : leafNode), n.WF path →
    findLeaf n x = some lf → lf.key = path ++ x := by
  induction n using node.induct with
  | mk leaf d p es ih =>
    intro path x lf hw hf
    rw [node.WF_mk] at hw
    cases x with
    | nil =>
      rw [findLeaf_nil] at hf
      simpa using hw.1 lf hf
    | cons b t =>
      rw [findLeaf_cons] at hf
      cases hg : getEdgeL es (byteString b) with
      | none => rw [hg] at hf; cases hf
      | some c =>
        rw [hg] at hf
        simp only at hf
        have hc := ih _ (getEdgeL_some_mem hg)
        simp only [edge.n_mk] at hc
        by_cases hp : c.pfx <+: b :: t
        · obtain ⟨x1, hx1⟩ := hp
          rw [← hx1, findVia_append_self] at hf
          rw [← hx1, ← List.append_assoc]
          exact hc _ x1 lf (edge.WFL_getEdgeL hw.2 hg).2 hf
        · rw [findVia_of_not_pre c c.pfx _ (List.prefix_refl _) hp] at hf
          cases hf

/-! ## Counting the leaves under a prefix -/

theorem hasPrefix_cons_cons (a b : Byte) (s t : Str) :
    hasPrefix (a :: s) (b :: t) = (decide (a = b) && hasPrefix s t) := by
  rw [Bool.eq_iff_iff]
  simp only [Bool.and_eq_true, decide_eq_true_eq, hasPrefix_iff]
  constructor
  · rintro ⟨r, hr⟩
    simp only [List.cons_append, List.cons.injEq] at hr
    exact ⟨hr.1.symm, ⟨r, hr.2⟩⟩
  · rintro ⟨rfl, ⟨r, rfl⟩⟩
    exact ⟨r, rfl⟩

theorem countP_entriesL_none {es : List edge} {path : Str} (h : edge.WFL es path) (b : Byte)
    (t : Str) (hg : getEdgeL es (byteString b) = none) :
    (entriesL es).countP (fun x => hasPrefix x.1 (b :: t)) = 0 := by
  rw [List.countP_eq_zero]
  rintro ⟨x, lf⟩ hmem
  obtain ⟨b1, t1, c, hx, hg1, -⟩ := (mem_entriesL h x lf).mp hmem
  simp only [hx, hasPrefix_cons_cons, Bool.and_eq_true, decide_eq_true_eq, not_and]
  rintro rfl
  rw [hg] at hg1; cases hg1

theorem countP_entriesL_some {es : List edge} {path : Str} (h : edge.WFL es path) (b : Byte)
    (t : Str) {c : node} (hg : getEdgeL es (byteString b) = some c) :
    (entriesL es).countP (fun x => hasPrefix x.1 (b :: t)) =
      (entriesN c).countP (fun x => hasPrefix (c.pfx ++ x.1) (b :: t)) := by
  induction es with
  | nil => simp [getEdgeL] at hg
  | cons e rest ih =>
    have h1 := (edge.WFL_cons _ _ _).mp h
    obtain ⟨b0, t0, hp0, hl0⟩ := edge.labelled_iff.mp h1.1
    rw [entriesL_cons, List.countP_append, List.countP_map]
    simp only [getEdgeL] at hg
    by_cases he : e.label = byteString b
    · rw [if_pos he] at hg
      simp only [Option.some.injEq] at hg
      subst hg
      rw [countP_entriesL_none h1.2.2.2 b t (by rw [← he]; exact h1.2.1)]
      rfl
    · rw [if_neg he] at hg
      rw [ih h1.2.2.2 hg]
      have : List.countP ((fun x => hasPrefix x.1 (b :: t)) ∘
          fun (x : Str × leafNode) => (e.n.pfx ++ x.1, x.2)) (entriesN e.n) = 0 := by
        rw [List.countP_eq_zero]
        rintro ⟨x, lf⟩ -
        simp only [Function.comp, hp0, List.cons_append, hasPrefix_cons_cons, Bool.and_eq_true,
          decide_eq_true_eq, not_and]
        rintro rfl
        exact absurd hl0 he
      rw [this, Nat.zero_add]

/-! ## DeletePrefix -/

theorem deletePrefixEdges_eq (es : List edge) (label pattern : Str) :
    deletePrefixEdges es label pattern =
      match getEdgeL es label with
      | none => none
      | some c =>
        if (!hasPrefix pattern c.pfx && !hasPrefix c.pfx pattern) = true then none
        else some (updateEdgeL es label (deletePrefixNode c
          (if pattern.length > c.pfx.length then pattern.drop c.pfx.length
            else pattern.drop pattern.length)).1,
          (deletePrefixNode c
          (if pattern.length > c.pfx.length then pattern.drop c.pfx.length
            else pattern.drop pattern.length)).2) := by
  induction es with
  | nil => simp [deletePrefixEdges, getEdgeL]
  | cons e rest ih =>
    cases e with
    | mk l n =>
      simp only [deletePrefixEdges, getEdgeL, updateEdgeL, edge.label_mk, edge.n_mk]
      by_cases hl : l = label
      · simp only [hl, if_true]
      · simp only [hl, if_false, ih]
        cases getEdgeL rest label with
        | none => rfl
        | some c =>
          simp only
          by_cases hc : (!hasPrefix pattern c.pfx && !hasPrefix c.pfx pattern) = true
          · simp only [hc, if_true]
          · simp only [hc, if_false, Bool.false_eq_true]

theorem deletePrefixNode_nil (leaf d p es) :
    deletePrefixNode (.mk leaf d p es) [] =
      (.mk none d p [],
        ((recursiveWalk (.mk leaf d p es) (fun _ _ => false)).1.length : Int)) := by
  simp [deletePrefixNode]

theorem deletePrefixNode_cons (leaf d p es) (b : Byte) (t : Str) :
    deletePrefixNode (.mk leaf d p es) (b :: t) =
      match getEdgeL es (byteString b) with
      | none => (.mk leaf d p es, 0)
      | some c =>
        if (!hasPrefix (b :: t) c.pfx && !hasPrefix c.pfx (b :: t)) = true then
          (.mk leaf d p es, 0)
        else (.mk leaf d p (updateEdgeL es (byteString b) (deletePrefixNode c
          (if (b :: t).length > c.pfx.length then (b :: t).drop c.pfx.length
            else (b :: t).drop (b :: t).length)).1),
          (deletePrefixNode c
          (if (b :: t).length > c.pfx.length then (b :: t).drop c.pfx.length
            else (b :: t).drop (b :: t).length)).2) := by
  rw [deletePrefixNode, deletePrefixEdges_eq]
  cases getEdgeL es (byteString b) with
  | none => rfl
  | some c =>
    simp only
    by_cases hc : (!hasPrefix (b :: t) c.pfx && !hasPrefix c.pfx (b :: t)) = true
    · simp only [hc, if_true]
    · simp only [hc, if_false, Bool.false_eq_true]

theorem prefix_cases {a b y : Str} (ha : a <+: y) (hb : b <+: y) : a <+: b ∨ b <+: a := by
  rcases Nat.le_total a.length b.length with h | h
  · exact Or.inl (List.prefix_of_prefix_length_le ha hb h)
  · exact Or.inr (List.prefix_of_prefix_length_le hb ha h)

theorem PrefixOK_child (c : node) (path q : Str) (hw : c.WF path) (hq : q ≠ [])
    (ih : ∀ (path q : Str), c.WF path →
      PrefixOK c (deletePrefixNode c q).1 (deletePrefixNode c q).2 path q)
    (hc : ¬ (!hasPrefix q c.pfx && !hasPrefix c.pfx q) = true) :
    let r := deletePrefixNode c
      (if q.length > c.pfx.length then q.drop c.pfx.length else q.drop q.length)
    r.1.pfx = c.pfx ∧ r.1.WF path ∧
    (∀ y, findVia r.1 y = if q <+: y then none else findVia c y) ∧
    r.2 = (entriesN c).countP (fun x => hasPrefix (c.pfx ++ x.1) q) ∧
    ((entriesN r.1).length : Int) + r.2 = (entriesN c).length := by
  intro r
  simp only [Bool.and_eq_true, Bool.not_eq_true', not_and, Bool.not_eq_false] at hc
  by_cases hp : c.pfx <+: q
  · obtain ⟨q1, rfl⟩ := hp
    have hpat : (if (c.pfx ++ q1).length > c.pfx.length then (c.pfx ++ q1).drop c.pfx.length
        else (c.pfx ++ q1).drop (c.pfx ++ q1).length) = q1 := by
      split
      · rw [List.drop_left]
      · rename_i hlen
        rw [List.length_append] at hlen
        have : q1 = [] := List.length_eq_zero.mp (by omega)
        simp [this]
    obtain ⟨h1, h2, h3, h4, h5⟩ := ih path q1 hw
    have hr : r = deletePrefixNode c q1 := by
      show deletePrefixNode c _ = _
      rw [hpat]
    rw [hr]
    refine ⟨h1, h2, ?_, ?_, h5⟩
    · intro y
      by_cases hy : c.pfx <+: y
      · obtain ⟨y1, rfl⟩ := hy
        have := findVia_append_self (deletePrefixNode c q1).1 y1
        rw [h1] at this
        rw [this, findVia_append_self, h3]
        simp only [List.prefix_append_right_inj]
      · rw [findVia_of_not_pre _ c.pfx y (by rw [h1]) hy,
          findVia_of_not_pre c c.pfx y (List.prefix_refl _) hy]
        simp
    · rw [h4]
      have hfun : (fun (x : Str × leafNode) => hasPrefix x.1 q1) =
          (fun x => hasPrefix (c.pfx ++ x.1) (c.pfx ++ q1)) := by
        funext x
        rw [Bool.eq_iff_iff, hasPrefix_iff, hasPrefix_iff, List.prefix_append_right_inj]
      rw [hfun]
  · have hp1 : hasPrefix q c.pfx = false := hasPrefix_eq_false_iff.mpr hp
    have hp2 : q <+: c.pfx := hasPrefix_iff.mp (hc hp1)
    have hpat : (if q.length > c.pfx.length then q.drop c.pfx.length
        else q.drop q.length) = [] := by
      have := hp2.length_le
      rw [if_neg (by omega)]
      simp
    obtain ⟨h1, h2, h3, h4, h5⟩ := ih path [] hw
    have hr : r = deletePrefixNode c [] := by
      show deletePrefixNode c _ = _
      rw [hpat]
    rw [hr]
    refine ⟨h1, h2, ?_, ?_, h5⟩
    · intro y
      have hnone : findVia (deletePrefixNode c []).1 y = none := by
        unfold findVia
        split
        · rw [h3]; simp
        · rfl
      rw [hnone]
      split
      · rfl
      · rename_i hy
        rw [findVia_of_not_pre c c.pfx y (List.prefix_refl _)
          (fun h => hy (hp2.trans h))]
    · rw [h4]
      have hfun : (fun (x : Str × leafNode) => hasPrefix x.1 []) =
          (fun x => hasPrefix (c.pfx ++ x.1) q) := by
        funext x
        rw [Bool.eq_iff_iff, hasPrefix_iff, hasPrefix_iff]
        simp only [List.nil_prefix, true_iff]
        exact hp2.trans (List.prefix_append _ _)
      rw [hfun]

theorem countP_leafPart (leaf : Option leafNode) (b : Byte) (t : Str) :
    (leafPart leaf).countP (fun x => hasPrefix x.1 (b :: t)) = 0 := by
  cases leaf <;> simp [hasPrefix]

/-- `deletePrefix` on a well-formed subtree. -/
theorem deletePrefixNode_ok (n : node) : ∀ (path q : Str), n.WF path →
    PrefixOK n (deletePrefixNode n q).1 (deletePrefixNode n q).2 path q := by
  induction n using node.induct with
  | mk leaf d p es ih =>
    intro path q hw
    have hw0 := hw
    rw [node.WF_mk] at hw
    cases q with
    | nil =>
      rw [deletePrefixNode_nil, recursiveWalk_false]
      refine ⟨rfl, ?_, ?_, ?_, ?_⟩
      · rw [node.WF_mk]; exact ⟨by simp, edge.WFL_nil _⟩
      · intro y
        simp only [List.nil_prefix, if_true]
        cases y with
        | nil => rw [findLeaf_nil]
        | cons b t => rw [findLeaf_cons]; rfl
      · simp only [List.length_map, hasPrefix_nil, Nat.cast_inj]
        rw [List.countP_eq_length.mpr (by simp)]
      · simp [entriesN_mk, entriesL_nil]
    | cons b t =>
      rw [deletePrefixNode_cons]
      have hcount0 : ∀ (hg : getEdgeL es (byteString b) = none),
          PrefixOK (.mk leaf d p es) (.mk leaf d p es) 0 path (b :: t) := by
        intro hg
        refine ⟨rfl, hw0, ?_, ?_, by simp⟩
        · intro y
          split
          · rename_i hy
            obtain ⟨r, rfl⟩ := hy
            simp only [List.cons_append]
            rw [findLeaf_cons, hg]
          · rfl
        · rw [entriesN_mk, List.countP_append, countP_leafPart,
            countP_entriesL_none hw.2 b t hg]
          rfl
      cases hg : getEdgeL es (byteString b) with
      | none => exact hcount0 hg
      | some c =>
        simp only
        have hc := ih _ (getEdgeL_some_mem hg)
        simp only [edge.n_mk] at hc
        obtain ⟨hlab, hwc⟩ := edge.WFL_getEdgeL hw.2 hg
        obtain ⟨b0, t0, hpb, hl⟩ := edge.labelled_iff.mp hlab
        simp only [edge.n_mk, edge.label_mk, byteString_eq_iff] at hpb hl
        subst hl
        by_cases hcond : (!hasPrefix (b :: t) c.pfx && !hasPrefix c.pfx (b :: t)) = true
        · rw [if_pos hcond]
          simp only [Bool.and_eq_true, Bool.not_eq_true'] at hcond
          have hn1 : ¬ c.pfx <+: b :: t := hasPrefix_eq_false_iff.mp hcond.1
          have hn2 : ¬ (b :: t) <+: c.pfx := hasPrefix_eq_false_iff.mp hcond.2
          refine ⟨rfl, hw0, ?_, ?_, by simp⟩
          · intro y
            split
            · rename_i hy
              obtain ⟨r, rfl⟩ := hy
              simp only [List.cons_append]
              rw [findLeaf_cons, hg]
              simp only
              apply findVia_of_not_pre c c.pfx _ (List.prefix_refl _)
              intro hpy
              have hqy : (b :: t) <+: b :: (t ++ r) := ⟨r, rfl⟩
              rcases prefix_cases hpy hqy with h | h
              · exact hn1 h
              · exact hn2 h
            · rfl
          · rw [entriesN_mk, List.countP_append, countP_leafPart,
              countP_entriesL_some hw.2 b t hg, Nat.zero_add]
            symm
            rw [Nat.cast_eq_zero, List.countP_eq_zero]
            rintro ⟨x, lf⟩ -
            simp only [Bool.not_eq_true]
            rw [hasPrefix_eq_false_iff]
            intro hpy
            rcases prefix_cases (List.prefix_append c.pfx x) hpy with h | h
            · exact hn1 h
            · exact hn2 h
        · rw [if_neg hcond]
          obtain ⟨h1, h2, h3, h4, h5⟩ := PrefixOK_child c (path ++ c.pfx) (b :: t) hwc
            (by simp) hc hcond
          refine ⟨rfl, ?_, ?_, ?_, ?_⟩
          · rw [node.WF_mk]
            refine ⟨hw.1, edge.WFL_updateEdgeL hw.2 ?_ (by rw [h1]; exact h2)⟩
            rw [edge.labelled_iff]
            exact ⟨b, t0, by rw [edge.n_mk, h1]; exact hpb, rfl⟩
          · intro y
            cases y with
            | nil =>
              rw [findLeaf_nil, findLeaf_nil, if_neg]
              simp
            | cons yb yt =>
              rw [findLeaf_cons, findLeaf_cons, getEdgeL_updateEdgeL]
              by_cases hb : yb = b
              · subst hb
                simp only [if_true, hg, Option.map_some']
                exact h3 _
              · rw [if_neg (by rw [byteString_eq_iff]; exact hb), if_neg]
                rintro ⟨r, hr⟩
                simp only [List.cons_append, List.cons.injEq] at hr
                exact hb hr.1.symm
          · rw [entriesN_mk, List.countP_append, countP_leafPart,
              countP_entriesL_some hw.2 b t hg, Nat.zero_add]
            exact h4
          · have := length_entriesL_updateEdgeL (deletePrefixNode c
              (if (b :: t).length > c.pfx.length then (b :: t).drop c.pfx.length
                else (b :: t).drop (b :: t).length)).1 hg
            simp only [entriesN_mk, List.length_append]
            push_cast
            omega

/-! ## The invariant of reachable trees -/

theorem Tree.Get_eq (tr : Tree) (k : Str) : tr.Get k = leafResult (findLeaf tr.root k) :=
  getNode_eq _ _

theorem Tree.Get_true_iff (tr : Tree) (k : Str) (v : Value) :
    tr.Get k = (v, true) ↔ ∃ l, findLeaf tr.root k = some l ∧ l.value = v := by
  rw [Tree.Get_eq, leafResult_eq_some_iff]

theorem Tree.Get_false_iff (tr : Tree) (k : Str) :
    tr.Get k = (none, false) ↔ findLeaf tr.root k = none := by
  rw [Tree.Get_eq, leafResult_eq_none_iff]

theorem Tree.Get_snd_iff (tr : Tree) (k : Str) :
    (tr.Get k).2 = true ↔ ∃ l, findLeaf tr.root k = some l := by
  rw [Tree.Get_eq, leafResult_snd, Option.isSome_iff_exists]

theorem Inv_New (rc : Str) : (New rc).Inv := by
  refine ⟨rfl, ?_, ?_⟩
  · show emptyNode.WF []
    rw [emptyNode, node.WF_mk]
    exact ⟨by simp, edge.WFL_nil _⟩
  · show (0 : Int) = (entriesN emptyNode).length
    simp [emptyNode, entriesN_mk, entriesL_nil]

theorem Tree.Insert_of_ne (tr : Tree) {k : Str} (hk : k ≠ []) (v : Value) :
    tr.Insert k v =
      (⟨(insertNode tr.root k k v).1, tr.value, tr.size + (insertNode tr.root k k v).2.inc,
        tr.resourceClass⟩, (insertNode tr.root k k v).2.old,
        (insertNode tr.root k k v).2.existed) := by
  unfold Tree.Insert
  rw [if_neg hk]

theorem Tree.Insert_nil (tr : Tree) (v : Value) : tr.Insert [] v = (tr, none, false) := by
  unfold Tree.Insert
  rw [if_pos rfl]

/-- After `Insert` of a non-empty key the descent ends at the new value for that key and where
it ended before for every other key. -/
theorem Tree.Insert_findLeaf (tr : Tree) {k : Str} (hk : k ≠ []) (v : Value) (q : Str) :
    findLeaf (tr.Insert k v).1.root q =
      if q = k then some ⟨(match findLeaf tr.root k with | some l => l.key | none => k), v⟩
      else findLeaf tr.root q := by
  rw [Tree.Insert_of_ne tr hk]
  exact insertNode_findLeaf _ _ _ _ _

/-- The two results of `Insert` of a non-empty key are those of `Get` just before. -/
theorem Tree.Insert_result (tr : Tree) {k : Str} (hk : k ≠ []) (v : Value) :
    (tr.Insert k v).2 = tr.Get k := by
  rw [Tree.Insert_of_ne tr hk, Tree.Get_eq]
  simp only [insertNode_out]
  cases findLeaf tr.root k <;> rfl

theorem Tree.Insert_size (tr : Tree) {k : Str} (hk : k ≠ []) (v : Value) :
    (tr.Insert k v).1.size = tr.size + if (tr.Get k).2 = true then 0 else 1 := by
  rw [Tree.Insert_of_ne tr hk, Tree.Get_eq]
  simp only [insertNode_out]
  cases findLeaf tr.root k <;> simp [leafResult]

theorem Tree.Insert_Inv (tr : Tree) (h : tr.Inv) (k : Str) (v : Value) :
    (tr.Insert k v).1.Inv := by
  by_cases hk : k = []
  · subst hk; rw [Tree.Insert_nil]; exact h
  · obtain ⟨h1, h2, h3⟩ := h
    rw [Tree.Insert_of_ne tr hk]
    refine ⟨?_, insertNode_WF _ _ _ _ _ h2 (by simp), ?_⟩
    · show (insertNode tr.root k k v).1.leaf = none
      rw [← findLeaf_nil_leaf, insertNode_findLeaf, if_neg (Ne.symm hk), findLeaf_nil_leaf, h1]
    · show tr.size + _ = _
      rw [length_entriesN_insertNode, h3]

/-- `Delete` of a key the descent does not find: nothing happens. -/
theorem Tree.Delete_of_none (tr : Tree) (h : tr.Inv) (k : Str)
    (hf : findLeaf tr.root k = none) : tr.Delete k = some (tr, none, false) := by
  have := deleteNode_ok tr.root true [] k h.2.1
  rw [hf] at this
  simp only at this
  unfold Tree.Delete
  rw [this]

/-- `Delete` of a key the descent finds. -/
theorem Tree.Delete_of_some (tr : Tree) (h : tr.Inv) (k : Str) (lf : leafNode)
    (hf : findLeaf tr.root k = some lf) :
    ∃ t1, tr.Delete k = some (t1, lf.value, true) ∧ t1.Inv ∧ t1.size = tr.size - 1 ∧
      ∀ y, findLeaf t1.root y = if y = k then none else findLeaf tr.root y := by
  have hk : k ≠ [] := by
    rintro rfl
    rw [findLeaf_nil_leaf, h.1] at hf
    cases hf
  have := deleteNode_ok tr.root true [] k h.2.1
  rw [hf] at this
  simp only [if_neg hk] at this
  obtain ⟨n1, hd, ⟨⟨ext, hext, hw⟩, hfv, hlen⟩, hp⟩ := this
  have hp1 := hp trivial
  have hext0 : ext = [] := by
    rw [hp1] at hext
    exact List.append_right_eq_self.mp hext.symm |> fun h => h
  subst hext0
  have hfl : ∀ y, findLeaf n1 y = if y = k then none else findLeaf tr.root y := by
    intro y
    have h1 := hfv (tr.root.pfx ++ y)
    have h2 := findVia_append_self n1 y
    rw [hp1] at h2
    rw [h2, findVia_append_self] at h1
    simpa using h1
  refine ⟨⟨n1, tr.value, tr.size - 1, tr.resourceClass⟩, ?_, ⟨?_, ?_, ?_⟩, rfl, hfl⟩
  · unfold Tree.Delete
    rw [hd]
  · show n1.leaf = none
    rw [← findLeaf_nil_leaf, hfl, if_neg (Ne.symm hk), findLeaf_nil_leaf, h.1]
  · simpa using hw
  · show tr.size - 1 = ((entriesN n1).length : Int)
    rw [h.2.2]
    omega

theorem Tree.Delete_Inv (tr t1 : Tree) (h : tr.Inv) (k : Str) (r : Value × Bool)
    (hd : tr.Delete k = some (t1, r)) : t1.Inv := by
  cases hf : findLeaf tr.root k with
  | none =>
    rw [Tree.Delete_of_none tr h k hf] at hd
    simp only [Option.some.injEq, Prod.mk.injEq] at hd
    rw [← hd.1]; exact h
  | some lf =>
    obtain ⟨t2, hd2, hinv, -⟩ := Tree.Delete_of_some tr h k lf hf
    rw [hd2] at hd
    simp only [Option.some.injEq, Prod.mk.injEq] at hd
    rw [← hd.1]; exact hinv

/-- `DeletePrefix` on a tree that satisfies the invariant. -/
theorem Tree.DeletePrefix_ok (tr : Tree) (h : tr.Inv) (p : Str) :
    (tr.DeletePrefix p).1.Inv ∧
      (∀ y, findLeaf (tr.DeletePrefix p).1.root y =
        if p <+: y then none else findLeaf tr.root y) ∧
      (tr.DeletePrefix p).2 = (entriesN tr.root).countP (fun x => hasPrefix x.1 p) ∧
      (tr.DeletePrefix p).1.size = tr.size - (tr.DeletePrefix p).2 := by
  obtain ⟨h1, h2, h3, h4, h5⟩ := deletePrefixNode_ok tr.root [] p h.2.1
  refine ⟨⟨?_, h2, ?_⟩, h3, h4, rfl⟩
  · show (deletePrefixNode tr.root p).1.leaf = none
    rw [← findLeaf_nil_leaf, h3, findLeaf_nil_leaf, h.1]
    simp
  · show tr.size - (deletePrefixNode tr.root p).2 =
      ((entriesN (deletePrefixNode tr.root p).1).length : Int)
    rw [h.2.2]
    omega

theorem Tree.apply_Inv (tr t1 : Tree) (h : tr.Inv) (op : Op) (ha : tr.apply op = some t1) :
    t1.Inv := by
  cases op with
  | insert k v =>
    simp only [Tree.apply, Option.some.injEq] at ha
    rw [← ha]; exact Tree.Insert_Inv tr h k v
  | delete k =>
    simp only [Tree.apply, Option.map_eq_some'] at ha
    obtain ⟨⟨t2, r⟩, hd, rfl⟩ := ha
    exact Tree.Delete_Inv tr _ h k r hd
  | deletePrefix p =>
    simp only [Tree.apply, Option.some.injEq] at ha
    rw [← ha]; exact (Tree.DeletePrefix_ok tr h p).1

theorem Tree.run_Inv (ops : List Op) : ∀ (tr t1 : Tree), tr.Inv → tr.run ops = some t1 →
    t1.Inv := by
  induction ops with
  | nil =>
    intro tr t1 h hr
    simp only [Tree.run, Option.some.injEq] at hr
    rw [← hr]; exact h
  | cons op ops ih =>
    intro tr t1 h hr
    simp only [Tree.run, Option.bind_eq_some] at hr
    obtain ⟨t2, ha, hr2⟩ := hr
    exact ih t2 t1 (Tree.apply_Inv tr t2 h op ha) hr2

/-- Every tree reachable from `New` satisfies the invariant. -/
theorem Reachable.Inv {tr : Tree} (h : Reachable tr) : tr.Inv := by
  obtain ⟨rc, ops, hr⟩ := h
  exact Tree.run_Inv ops _ _ (Inv_New rc) hr

/-! ## WalkPrefix -/

theorem filter_entriesL_none {es : List edge} {path : Str} (h : edge.WFL es path) (b : Byte)
    (t : Str) (hg : getEdgeL es (byteString b) = none) :
    (entriesL es).filter (fun x => hasPrefix x.1 (b :: t)) = [] := by
  apply List.eq_nil_of_length_eq_zero
  rw [← List.countP_eq_length_filter]
  exact countP_entriesL_none h b t hg

theorem filter_entriesL_some {es : List edge} {path : Str} (h : edge.WFL es path) (b : Byte)
    (t : Str) {c : node} (hg : getEdgeL es (byteString b) = some c) :
    (entriesL es).filter (fun x => hasPrefix x.1 (b :: t)) =
      ((entriesN c).filter (fun x => hasPrefix (c.pfx ++ x.1) (b :: t))).map
        (fun x => (c.pfx ++ x.1, x.2)) := by
  induction es with
  | nil => simp [getEdgeL] at hg
  | cons e rest ih =>
    have h1 := (edge.WFL_cons _ _ _).mp h
    obtain ⟨b0, t0, hp0, hl0⟩ := edge.labelled_iff.mp h1.1
    rw [entriesL_cons, List.filter_append, List.filter_map]
    simp only [getEdgeL] at hg
    by_cases he : e.label = byteString b
    · rw [if_pos he] at hg
      simp only [Option.some.injEq] at hg
      subst hg
      rw [filter_entriesL_none h1.2.2.2 b t (by rw [← he]; exact h1.2.1), List.append_nil]
      rfl
    · rw [if_neg he] at hg
      rw [ih h1.2.2.2 hg]
      have : List.filter ((fun x => hasPrefix x.1 (b :: t)) ∘
          fun (x : Str × leafNode) => (e.n.pfx ++ x.1, x.2)) (entriesN e.n) = [] := by
        rw [List.filter_eq_nil_iff]
        rintro ⟨x, lf⟩ -
        simp only [Function.comp, hp0, List.cons_append, hasPrefix_cons_cons, Bool.and_eq_true,
          decide_eq_true_eq, not_and]
        rintro rfl
        exact absurd hl0 he
      rw [this, List.map_nil, List.nil_append]

theorem walkPrefixEdges_eq (es : List edge) (label pattern : Str) (fn : walkFn) :
    walkPrefixEdges es label pattern fn =
      match getEdgeL es label with
      | none => []
      | some n =>
        if hasPrefix pattern n.pfx then walkPrefixNode n (pattern.drop n.pfx.length) fn
        else if hasPrefix n.pfx pattern then (recursiveWalk n fn).1
        else [] := by
  induction es with
  | nil => simp [walkPrefixEdges, getEdgeL]
  | cons e rest ih =>
    cases e with
    | mk l n =>
      simp only [walkPrefixEdges, getEdgeL, edge.label_mk, edge.n_mk]
      split
      · rfl
      · exact ih

theorem walkPrefixNode_nil (leaf d p es) (fn : walkFn) :
    walkPrefixNode (.mk leaf d p es) [] fn = (recursiveWalk (.mk leaf d p es) fn).1 := by
  simp [walkPrefixNode]

theorem walkPrefixNode_cons (leaf d p es) (b : Byte) (t : Str) (fn : walkFn) :
    walkPrefixNode (.mk leaf d p es) (b :: t) fn =
      walkPrefixEdges es (byteString b) (b :: t) fn := by
  rw [walkPrefixNode]

/-- With a callback that always returns false, `WalkPrefix` calls it on the leaves under the
prefix, in pre-order. -/
theorem walkPrefixNode_false (n : node) : ∀ (path q : Str), n.WF path →
    walkPrefixNode n q (fun _ _ => false) =
      ((entriesN n).filter (fun x => hasPrefix x.1 q)).map (fun x => (x.2.key, x.2.value)) := by
  induction n using node.induct with
  | mk leaf d p es ih =>
    intro path q hw
    rw [node.WF_mk] at hw
    cases q with
    | nil =>
      rw [walkPrefixNode_nil, recursiveWalk_false]
      simp [hasPrefix_nil]
    | cons b t =>
      rw [walkPrefixNode_cons, walkPrefixEdges_eq, entriesN_mk, List.filter_append]
      have hleaf : (leafPart leaf).filter (fun x => hasPrefix x.1 (b :: t)) = [] := by
        cases leaf <;> simp [hasPrefix]
      rw [hleaf, List.nil_append]
      cases hg : getEdgeL es (byteString b) with
      | none => rw [filter_entriesL_none hw.2 b t hg]; rfl
      | some c =>
        simp only
        rw [filter_entriesL_some hw.2 b t hg, List.map_map]
        have hc := ih _ (getEdgeL_some_mem hg)
        simp only [edge.n_mk] at hc
        have hwc := (edge.WFL_getEdgeL hw.2 hg).2
        have hcomp : ((fun (x : Str × leafNode) => (x.2.key, x.2.value)) ∘
            fun (x : Str × leafNode) => (c.pfx ++ x.1, x.2)) =
            fun x => (x.2.key, x.2.value) := by
          funext x; rfl
        rw [hcomp]
        by_cases hp : hasPrefix (b :: t) c.pfx = true
        · rw [if_pos hp, hc _ _ hwc]
          obtain ⟨q1, hq1⟩ := hasPrefix_iff.mp hp
          rw [← hq1, List.drop_left]
          have hfun : (fun (x : Str × leafNode) => hasPrefix x.1 q1) =
              (fun x => hasPrefix (c.pfx ++ x.1) (c.pfx ++ q1)) := by
            funext x
            rw [Bool.eq_iff_iff, hasPrefix_iff, hasPrefix_iff, List.prefix_append_right_inj]
          rw [hfun]
        · rw [if_neg hp]
          by_cases hp2 : hasPrefix c.pfx (b :: t) = true
          · rw [if_pos hp2, recursiveWalk_false]
            have hall : (entriesN c).filter (fun x => hasPrefix (c.pfx ++ x.1) (b :: t)) =
                entriesN c := by
              rw [List.filter_eq_self]
              intro x _
              rw [hasPrefix_iff]
              exact (hasPrefix_iff.mp hp2).trans (List.prefix_append _ _)
            rw [hall]
          · rw [if_neg hp2]
            have hnone : (entriesN c).filter (fun x => hasPrefix (c.pfx ++ x.1) (b :: t)) =
                [] := by
              rw [List.filter_eq_nil_iff]
              intro x _ hx
              rw [hasPrefix_iff] at hx
              rcases prefix_cases (List.prefix_append c.pfx x.1) hx with h | h
              · exact hp (hasPrefix_iff.mpr h)
              · exact hp2 (hasPrefix_iff.mpr h)
            rw [hnone]; rfl

/-! ## ToMap -/

theorem GoMap.set_of_not_mem (m : GoMap) (k : Str) (v : Value) (h : k ∉ m.map Prod.fst) :
    GoMap.set m k v = m ++ [(k, v)] := by
  induction m with
  | nil => rfl
  | cons kv rest ih =>
    obtain ⟨k1, v1⟩ := kv
    simp only [List.map_cons, List.mem_cons, not_or] at h
    simp only [GoMap.set]
    rw [if_neg (Ne.symm h.1)]
    have := ih h.2
    simp only [List.cons_append, List.cons.injEq, true_and]
    exact this

theorem GoMap.foldl_set (w : List (Str × Value)) : ∀ (acc : GoMap),
    ((acc ++ w).map Prod.fst).Nodup →
    w.foldl (fun out kv => GoMap.set out kv.1 kv.2) acc = acc ++ w := by
  induction w with
  | nil => intro acc _; simp
  | cons kv rest ih =>
    intro acc h
    have hk : kv.1 ∉ acc.map Prod.fst := by
      rw [List.map_append, List.nodup_append] at h
      intro hmem
      exact h.2.2 hmem (by simp)
    rw [List.foldl_cons, GoMap.set_of_not_mem acc kv.1 kv.2 hk, ih]
    · simp
    · simpa using h

theorem GoMap.get_eq_some_iff (m : GoMap) (h : (m.map Prod.fst).Nodup) (k : Str) (v : Value) :
    GoMap.get m k = some v ↔ (k, v) ∈ m := by
  induction m with
  | nil => simp [GoMap.get]
  | cons kv rest ih =>
    obtain ⟨k1, v1⟩ := kv
    simp only [List.map_cons, List.nodup_cons] at h
    simp only [GoMap.get, List.mem_cons, Prod.mk.injEq]
    by_cases hk : k1 = k
    · subst hk
      rw [if_pos rfl]
      constructor
      · intro hv; simp only [Option.some.injEq] at hv; exact Or.inl ⟨rfl, hv.symm⟩
      · rintro (⟨-, rfl⟩ | hmem)
        · rfl
        · exact absurd (List.mem_map_of_mem Prod.fst hmem) h.1
    · rw [if_neg hk, ih h.2]
      constructor
      · exact Or.inr
      · rintro (⟨rfl, -⟩ | hmem)
        · exact absurd rfl hk
        · exact hmem

/-! ## The leaves on the path of a key: WalkPath and LongestPrefix -/

/-- Among the prefixes of `q`, those that go through the string `P` are `P` followed by the
prefixes of the rest of `q`. -/
theorem filterMap_inits_strip {β : Type} (F : Str → Option β) : ∀ (P q : Str),
    (List.inits q).filterMap (fun y => if hasPrefix y P then F (y.drop P.length) else none) =
      if hasPrefix q P then (List.inits (q.drop P.length)).filterMap F else [] := by
  intro P
  induction P with
  | nil => intro q; simp [hasPrefix_nil]
  | cons a P1 ih =>
    intro q
    cases q with
    | nil => simp [hasPrefix]
    | cons b t =>
      rw [List.inits_cons, List.filterMap_cons]
      have h0 : hasPrefix ([] : Str) (a :: P1) = false := by simp [hasPrefix]
      simp only [h0, Bool.false_eq_true, if_false, List.filterMap_map]
      by_cases hb : b = a
      · subst hb
        have hfun : ((fun y => if hasPrefix y (b :: P1) = true
            then F (List.drop (b :: P1).length y) else none) ∘ fun t => b :: t) =
            fun x => if hasPrefix x P1 = true then F (List.drop P1.length x) else none := by
          funext x
          simp [hasPrefix_cons_cons]
        rw [hfun, ih t]
        simp [hasPrefix_cons_cons]
      · have hfun : ((fun y => if hasPrefix y (a :: P1) = true
            then F (List.drop (a :: P1).length y) else none) ∘ fun t => b :: t) =
            fun _ => none := by
          funext x
          simp [hasPrefix_cons_cons, hb]
        rw [hfun]
        simp [hasPrefix_cons_cons, hb]

/-- The leaves found for the prefixes of a key: the leaf of the node, then the leaves found
through the node of the edge for the first byte. -/
theorem onPath_cons (leaf : Option leafNode) (d : Int) (p : Str) (es : List edge) (path : Str)
    (hw : (node.mk leaf d p es).WF path) (b : Byte) (t : Str) :
    (List.inits (b :: t)).filterMap (findLeaf (.mk leaf d p es)) =
      leaf.toList ++
        match getEdgeL es (byteString b) with
        | none => []
        | some c =>
          if hasPrefix (b :: t) c.pfx then
            (List.inits ((b :: t).drop c.pfx.length)).filterMap (findLeaf c)
          else [] := by
  rw [List.inits_cons, List.filterMap_cons, findLeaf_nil, List.filterMap_map]
  have hrest : List.filterMap (findLeaf (.mk leaf d p es) ∘ fun t => b :: t) (List.inits t) =
      match getEdgeL es (byteString b) with
      | none => []
      | some c =>
        if hasPrefix (b :: t) c.pfx then
          (List.inits ((b :: t).drop c.pfx.length)).filterMap (findLeaf c)
        else [] := by
    cases hg : getEdgeL es (byteString b) with
    | none =>
      have hfun : (findLeaf (.mk leaf d p es) ∘ fun t => b :: t) = fun _ => none := by
        funext x
        simp only [Function.comp]
        rw [findLeaf_cons, hg]
      rw [hfun]
      simp
    | some c =>
      simp only
      rw [node.WF_mk] at hw
      obtain ⟨b0, t0, hpb, hl⟩ := edge.labelled_iff.mp (edge.WFL_getEdgeL hw.2 hg).1
      simp only [edge.n_mk, edge.label_mk, byteString_eq_iff] at hpb hl
      have := filterMap_inits_strip (findLeaf c) c.pfx (b :: t)
      rw [List.inits_cons, List.filterMap_cons] at this
      have h0 : hasPrefix ([] : Str) c.pfx = false := by rw [hpb]; simp [hasPrefix]
      simp only [h0, Bool.false_eq_true, if_false, List.filterMap_map] at this
      rw [← this]
      have hfun : (findLeaf (.mk leaf d p es) ∘ fun t => b :: t) =
          ((fun y => if hasPrefix y c.pfx = true
            then findLeaf c (List.drop c.pfx.length y) else none) ∘ fun t => b :: t) := by
        funext x
        simp only [Function.comp]
        rw [findLeaf_cons, hg]
        rfl
      rw [hfun]
  rw [hrest]
  cases leaf <;> rfl

theorem walkPathEdges_eq (es : List edge) (label pattern : Str) (fn : walkFn) :
    walkPathEdges es label pattern fn =
      match getEdgeL es label with
      | none => []
      | some n =>
        if hasPrefix pattern n.pfx then walkPathNode n (pattern.drop n.pfx.length) fn
        else [] := by
  induction es with
  | nil => simp [walkPathEdges, getEdgeL]
  | cons e rest ih =>
    cases e with
    | mk l n =>
      simp only [walkPathEdges, getEdgeL, edge.label_mk, edge.n_mk]
      split
      · rfl
      · exact ih

/-- With a callback that always returns false, `WalkPath` calls it on the leaves found for the
prefixes of the path, shortest first. -/
theorem walkPathNode_false (n : node) : ∀ (path q : Str), n.WF path →
    walkPathNode n q (fun _ _ => false) =
      ((List.inits q).filterMap (findLeaf n)).map (fun l => (l.key, l.value)) := by
  induction n using node.induct with
  | mk leaf d p es ih =>
    intro path q hw
    cases q with
    | nil => cases leaf <;> simp [walkPathNode, findLeaf]
    | cons b t =>
      rw [onPath_cons leaf d p es path hw]
      have hwalk : walkPathNode (.mk leaf d p es) (b :: t) (fun _ _ => false) =
          leaf.toList.map (fun l => (l.key, l.value)) ++
            walkPathEdges es (byteString b) (b :: t) (fun _ _ => false) := by
        cases leaf <;> simp [walkPathNode]
      rw [hwalk, walkPathEdges_eq, List.map_append]
      congr 1
      cases hg : getEdgeL es (byteString b) with
      | none => rfl
      | some c =>
        simp only
        have hc := ih _ (getEdgeL_some_mem hg)
        simp only [edge.n_mk] at hc
        have hwc := (edge.WFL_getEdgeL ((node.WF_mk _ _ _ _ _).mp hw).2 hg).2
        split
        · exact hc _ _ hwc
        · rfl

theorem longestPrefixEdges_eq (es : List edge) (label pattern : Str) (last : Option leafNode) :
    longestPrefixEdges es label pattern last =
      match getEdgeL es label with
      | none => last
      | some n =>
        if hasPrefix pattern n.pfx then longestPrefixNode n (pattern.drop n.pfx.length) last
        else last := by
  induction es with
  | nil => simp [longestPrefixEdges, getEdgeL]
  | cons e rest ih =>
    cases e with
    | mk l n =>
      simp only [longestPrefixEdges, getEdgeL, edge.label_mk, edge.n_mk]
      split
      · rfl
      · exact ih

/-- `LongestPrefix` ends with the last of the leaves found for the prefixes of the pattern, if
there is one. -/
theorem longestPrefixNode_eq (n : node) : ∀ (path q : Str) (last : Option leafNode),
    n.WF path →
    longestPrefixNode n q last =
      (((List.inits q).filterMap (findLeaf n)).getLast?).or last := by
  induction n using node.induct with
  | mk leaf d p es ih =>
    intro path q last hw
    cases q with
    | nil => cases leaf <;> simp [longestPrefixNode, findLeaf]
    | cons b t =>
      rw [onPath_cons leaf d p es path hw, List.getLast?_append]
      have hlp : longestPrefixNode (.mk leaf d p es) (b :: t) last =
          longestPrefixEdges es (byteString b) (b :: t) (leaf.or last) := by
        cases leaf <;> simp [longestPrefixNode]
      rw [hlp, longestPrefixEdges_eq]
      have hleaf : leaf.toList.getLast? = leaf := by cases leaf <;> rfl
      rw [hleaf]
      cases hg : getEdgeL es (byteString b) with
      | none => simp
      | some c =>
        simp only
        have hc := ih _ (getEdgeL_some_mem hg)
        simp only [edge.n_mk] at hc
        have hwc := (edge.WFL_getEdgeL ((node.WF_mk _ _ _ _ _).mp hw).2 hg).2
        split
        · rw [hc _ _ _ hwc, Option.or_assoc]
        · simp

theorem pairwise_inits (q : Str) :
    (List.inits q).Pairwise (fun a b => a.length < b.length) := by
  induction q with
  | nil => simp
  | cons a l ih =>
    rw [List.inits_cons, List.pairwise_cons]
    refine ⟨?_, ?_⟩
    · intro y hy
      obtain ⟨x, -, rfl⟩ := List.mem_map.mp hy
      simp
    · rw [List.pairwise_map]
      exact ih.imp (by intro x y h; simpa using h)

/-- The last element kept by `filterMap` from a list sorted by `R` comes from an element that
every other element with a result is `R`-below. -/
theorem getLast_filterMap {α β : Type} (R : α → α → Prop) (f : α → Option β) :
    ∀ (L : List α), L.Pairwise R →
      (∀ y, (L.filterMap f).getLast? = some y →
        ∃ x ∈ L, f x = some y ∧ ∀ x2 ∈ L, (f x2).isSome → x2 = x ∨ R x2 x) ∧
      ((L.filterMap f).getLast? = none → ∀ x ∈ L, f x = none) := by
  intro L
  induction L with
  | nil => intro _; simp
  | cons a L ih =>
    intro hp
    rw [List.pairwise_cons] at hp
    obtain ⟨ih1, ih2⟩ := ih hp.2
    have hcons : (List.filterMap f (a :: L)).getLast? = ((L.filterMap f).getLast?).or (f a) := by
      rw [List.filterMap_cons]
      cases hfa : f a with
      | none => simp
      | some y0 =>
        simp only
        rw [← List.singleton_append, List.getLast?_append]
        rfl
    rw [hcons]
    cases hl : (L.filterMap f).getLast? with
    | some y1 =>
      refine ⟨?_, by simp⟩
      intro y hy
      simp only [Option.or_some, Option.some.injEq] at hy
      subst hy
      obtain ⟨x, hx, hfx, hmax⟩ := ih1 y1 hl
      refine ⟨x, List.mem_cons_of_mem _ hx, hfx, ?_⟩
      intro x2 hx2 hs
      rcases List.mem_cons.mp hx2 with rfl | hx2
      · exact Or.inr (hp.1 x hx)
      · exact hmax x2 hx2 hs
    | none =>
      have hnone := ih2 hl
      simp only [Option.none_or]
      refine ⟨?_, ?_⟩
      · intro y hy
        refine ⟨a, List.mem_cons_self _ _, hy, ?_⟩
        intro x2 hx2 hs
        rcases List.mem_cons.mp hx2 with rfl | hx2
        · exact Or.inl rfl
        · rw [hnone x2 hx2] at hs; cases hs
      · intro hfa x hx
        rcases List.mem_cons.mp hx with rfl | hx
        · exact hfa
        · exact hnone x hx

/-! ## The claims -/

theorem romanTree_reachable : Reachable romanTree :=
  ⟨[], romanOps, rfl⟩

theorem fooTree_reachable : Reachable fooTree :=
  ⟨[], [.insert foo (some 1), .insert foobar (some 2)], rfl⟩

theorem insertAll_spec : ∀ (kvs : List (Str × Value)) (tr : Tree),
    (∀ kv ∈ kvs, kv.1 ≠ []) → (kvs.map Prod.fst).Nodup →
    (∀ kv ∈ kvs, findLeaf tr.root kv.1 = none) →
    (∀ kv ∈ kvs, (insertAll tr kvs).Get kv.1 = (kv.2, true)) ∧
      (∀ q, q ∉ kvs.map Prod.fst → findLeaf (insertAll tr kvs).root q = findLeaf tr.root q) ∧
      (insertAll tr kvs).size = tr.size + kvs.length := by
  intro kvs
  induction kvs with
  | nil => intro tr _ _ _; simp [insertAll]
  | cons kv rest ih =>
    intro tr hne hnd hnone
    obtain ⟨k, v⟩ := kv
    have hk : k ≠ [] := hne (k, v) (List.mem_cons_self _ _)
    simp only [List.map_cons, List.nodup_cons] at hnd
    have hfind := Tree.Insert_findLeaf tr hk v
    have hrest : ∀ kv ∈ rest, findLeaf (tr.Insert k v).1.root kv.1 = none := by
      intro kv hkv
      rw [hfind, if_neg, hnone kv (List.mem_cons_of_mem _ hkv)]
      rintro rfl
      exact hnd.1 (List.mem_map_of_mem Prod.fst hkv)
    obtain ⟨h1, h2, h3⟩ := ih (tr.Insert k v).1
      (fun kv hkv => hne kv (List.mem_cons_of_mem _ hkv)) hnd.2 hrest
    have hk0 : findLeaf tr.root k = none := hnone (k, v) (List.mem_cons_self _ _)
    refine ⟨?_, ?_, ?_⟩
    · intro kv hkv
      rcases List.mem_cons.mp hkv with rfl | hkv
      · show (insertAll (tr.Insert k v).1 rest).Get k = (v, true)
        rw [Tree.Get_true_iff, h2 k hnd.1, hfind, if_pos rfl]
        exact ⟨_, rfl, rfl⟩
      · exact h1 kv hkv
    · intro q hq
      simp only [List.map_cons, List.mem_cons, not_or] at hq
      show findLeaf (insertAll (tr.Insert k v).1 rest).root q = _
      rw [h2 q hq.2, hfind, if_neg hq.1]
    · show (insertAll (tr.Insert k v).1 rest).size = _
      rw [h3, Tree.Insert_size tr hk v, Tree.Get_eq, hk0]
      simp only [leafResult, Bool.false_eq_true, if_false, List.length_cons]
      push_cast
      omega

/-- Claim C1 (round trip): for every finite list of (key, value) pairs whose keys are non-empty
and pairwise distinct, inserting all pairs in list order into a tree made by `New` and then
calling `Get` on each key returns that key's value and true, and `Len` is the number of
pairs. -/
theorem C1_round_trip (resourceClass : Str) (kvs : List (Str × Value))
    (hne : ∀ kv ∈ kvs, kv.1 ≠ []) (hnd : (kvs.map Prod.fst).Nodup) :
    (∀ kv ∈ kvs, (insertAll (New resourceClass) kvs).Get kv.1 = (kv.2, true)) ∧
      (insertAll (New resourceClass) kvs).Len = kvs.length := by
  obtain ⟨h1, -, h3⟩ := insertAll_spec kvs (New resourceClass) hne hnd (by
    intro kv hkv
    have hk := hne kv hkv
    cases hkv1 : kv.1 with
    | nil => exact absurd hkv1 hk
    | cons b t => rfl)
  refine ⟨h1, ?_⟩
  show (insertAll (New resourceClass) kvs).size = _
  rw [h3]
  show (0 : Int) + _ = _
  simp

/-- Witness of C1: the keys "romane", "romanus", "romulus", "rubens" with the values 1 to 4. -/
theorem C1_round_trip_witness :
    (∀ kv ∈ romanPairs, kv.1 ≠ []) ∧ (romanPairs.map Prod.fst).Nodup ∧
      ((∀ kv ∈ romanPairs, (insertAll (New []) romanPairs).Get kv.1 = (kv.2, true)) ∧
        (insertAll (New []) romanPairs).Len = romanPairs.length) :=
  ⟨by decide, by decide, C1_round_trip [] romanPairs (by decide) (by decide)⟩

/-- Claim C2 (delete of a present key): for every reachable tree and every key `k` for which
`Get` returns `(v, true)`, `Delete` returns `(v, true)`, afterwards `Get` returns `(nil, false)`
for `k`, and `Len` is one less than before. -/
theorem C2_delete_present (tr : Tree) (h : Reachable tr) (k : Str) (v : Value)
    (hget : tr.Get k = (v, true)) :
    ∃ t1, tr.Delete k = some (t1, v, true) ∧ t1.Get k = (none, false) ∧
      t1.Len = tr.Len - 1 := by
  obtain ⟨lf, hf, rfl⟩ := (Tree.Get_true_iff tr k v).mp hget
  obtain ⟨t1, hd, -, hsize, hfl⟩ := Tree.Delete_of_some tr h.Inv k lf hf
  refine ⟨t1, hd, ?_, hsize⟩
  rw [Tree.Get_false_iff, hfl, if_pos rfl]

/-- Witness of C2: deleting "romane" from the tree of the four keys. -/
theorem C2_delete_present_witness :
    Reachable romanTree ∧ romanTree.Get romane = (some 1, true) ∧
      ∃ t1, romanTree.Delete romane = some (t1, some 1, true) ∧ t1.Get romane = (none, false) ∧
        t1.Len = romanTree.Len - 1 :=
  ⟨romanTree_reachable, rfl, C2_delete_present romanTree romanTree_reachable romane (some 1) rfl⟩

/-- The key held by a leaf of a tree that satisfies the invariant is the key it is found by. -/
theorem Tree.leaf_key_eq (tr : Tree) (h : tr.Inv) {k : Str} {lf : leafNode}
    (hf : findLeaf tr.root k = some lf) : lf.key = k := by
  simpa using findLeaf_key tr.root [] k lf h.2.1 hf

/-- Claim C3 (DeletePrefix count): for every reachable tree and every string `p`, `DeletePrefix`
returns the number of stored keys that start with `p` (the length of a duplicate-free list of
exactly these keys), `Len` decreases by that number, and afterwards `Get` returns `(nil, false)`
for every key that starts with `p`. -/
theorem C3_deletePrefix_count (tr : Tree) (h : Reachable tr) (p : Str) :
    ∃ ks : List Str, ks.Nodup ∧ (∀ k, k ∈ ks ↔ ((tr.Get k).2 = true ∧ p <+: k)) ∧
      (tr.DeletePrefix p).2 = ks.length ∧
      (tr.DeletePrefix p).1.Len = tr.Len - ks.length ∧
      ∀ k, p <+: k → (tr.DeletePrefix p).1.Get k = (none, false) := by
  have hinv := h.Inv
  obtain ⟨-, hfl, hcnt, hsize⟩ := Tree.DeletePrefix_ok tr hinv p
  refine ⟨((entriesN tr.root).filter (fun x => hasPrefix x.1 p)).map Prod.fst, ?_, ?_, ?_, ?_, ?_⟩
  · exact (nodup_entriesN tr.root [] hinv.2.1).sublist
      ((List.filter_sublist _).map Prod.fst)
  · intro k
    rw [Tree.Get_snd_iff, List.mem_map]
    constructor
    · rintro ⟨⟨x, lf⟩, hmem, rfl⟩
      rw [List.mem_filter] at hmem
      exact ⟨⟨lf, (mem_entriesN tr.root [] x lf hinv.2.1).mp hmem.1⟩, hasPrefix_iff.mp hmem.2⟩
    · rintro ⟨⟨lf, hf⟩, hp⟩
      refine ⟨(k, lf), ?_, rfl⟩
      rw [List.mem_filter]
      exact ⟨(mem_entriesN tr.root [] k lf hinv.2.1).mpr hf, hasPrefix_iff.mpr hp⟩
  · rw [hcnt, List.length_map, List.countP_eq_length_filter]
  · show (tr.DeletePrefix p).1.size = tr.size - _
    rw [hsize, hcnt, List.length_map, List.countP_eq_length_filter]
  · intro k hk
    rw [Tree.Get_false_iff, hfl, if_pos hk]

/-- Witness of C3: the four keys and the prefix "rom", which gives 3. -/
theorem C3_deletePrefix_count_witness :
    Reachable romanTree ∧ (romanTree.DeletePrefix rom).2 = 3 ∧
      ∃ ks : List Str, ks.Nodup ∧ (∀ k, k ∈ ks ↔ ((romanTree.Get k).2 = true ∧ rom <+: k)) ∧
        (romanTree.DeletePrefix rom).2 = ks.length ∧
        (romanTree.DeletePrefix rom).1.Len = romanTree.Len - ks.length ∧
        ∀ k, rom <+: k → (romanTree.DeletePrefix rom).1.Get k = (none, false) :=
  ⟨romanTree_reachable, rfl, C3_deletePrefix_count romanTree romanTree_reachable rom⟩

/-- Claim C4 (LongestPrefix): for every reachable tree and every pattern, when some stored key
is a prefix of the pattern `LongestPrefix` returns `(k, v, true)` with `k` a stored key that is
a prefix of the pattern, `v` its value and no stored prefix of the pattern longer than `k`;
when no stored key is a prefix of the pattern it returns `("", nil, false)`. -/
theorem C4_longestPrefix (tr : Tree) (h : Reachable tr) (pattern : Str) :
    ((∃ k1, k1 <+: pattern ∧ (tr.Get k1).2 = true) →
      ∃ k v, tr.LongestPrefix pattern = (k, v, true) ∧ k <+: pattern ∧ tr.Get k = (v, true) ∧
        ∀ k1, k1 <+: pattern → (tr.Get k1).2 = true → k1.length ≤ k.length) ∧
    ((¬ ∃ k1, k1 <+: pattern ∧ (tr.Get k1).2 = true) →
      tr.LongestPrefix pattern = ([], none, false)) := by
  have hinv := h.Inv
  have heq := longestPrefixNode_eq tr.root [] pattern none hinv.2.1
  rw [Option.or_none] at heq
  obtain ⟨g1, g2⟩ := getLast_filterMap (fun (a b : Str) => a.length < b.length)
    (findLeaf tr.root) (List.inits pattern) (pairwise_inits pattern)
  constructor
  · rintro ⟨k1, hk1, hs1⟩
    obtain ⟨lf1, hlf1⟩ := (Tree.Get_snd_iff tr k1).mp hs1
    cases hl : ((List.inits pattern).filterMap (findLeaf tr.root)).getLast? with
    | none =>
      have := g2 hl k1 ((List.mem_inits _ _).mpr hk1)
      rw [hlf1] at this; cases this
    | some lf =>
      obtain ⟨x, hx, hfx, hmax⟩ := g1 lf hl
      have hkey := Tree.leaf_key_eq tr hinv hfx
      refine ⟨lf.key, lf.value, ?_, ?_, ?_, ?_⟩
      · unfold Tree.LongestPrefix
        rw [heq, hl]
      · rw [hkey]; exact (List.mem_inits _ _).mp hx
      · rw [hkey, Tree.Get_true_iff]; exact ⟨lf, hfx, rfl⟩
      · intro k2 hk2 hs2
        obtain ⟨lf2, hlf2⟩ := (Tree.Get_snd_iff tr k2).mp hs2
        rw [hkey]
        rcases hmax k2 ((List.mem_inits _ _).mpr hk2) (by rw [hlf2]; rfl) with rfl | hlt
        · exact le_refl _
        · exact le_of_lt hlt
  · intro hno
    cases hl : ((List.inits pattern).filterMap (findLeaf tr.root)).getLast? with
    | none =>
      unfold Tree.LongestPrefix
      rw [heq, hl]
    | some lf =>
      obtain ⟨x, hx, hfx, -⟩ := g1 lf hl
      exact absurd ⟨x, (List.mem_inits _ _).mp hx, (Tree.Get_snd_iff tr x).mpr ⟨lf, hfx⟩⟩ hno

/-- Witness of C4: with the keys "foo" and "foobar", the pattern "foobarbaz" gives "foobar" and
the pattern "fo" gives nothing. -/
theorem C4_longestPrefix_witness :
    Reachable fooTree ∧ fooTree.LongestPrefix foobarbaz = (foobar, some 2, true) ∧
      fooTree.LongestPrefix fo = ([], none, false) ∧
      (((∃ k1, k1 <+: foobarbaz ∧ (fooTree.Get k1).2 = true) →
        ∃ k v, fooTree.LongestPrefix foobarbaz = (k, v, true) ∧ k <+: foobarbaz ∧
          fooTree.Get k = (v, true) ∧
          ∀ k1, k1 <+: foobarbaz → (fooTree.Get k1).2 = true → k1.length ≤ k.length) ∧
      ((¬ ∃ k1, k1 <+: foobarbaz ∧ (fooTree.Get k1).2 = true) →
        fooTree.LongestPrefix foobarbaz = ([], none, false))) :=
  ⟨fooTree_reachable, rfl, rfl, C4_longestPrefix fooTree fooTree_reachable foobarbaz⟩

/-- Claim C5 (overwrite): for every reachable tree, every non-empty key `k` for which `Get`
returns `(v, true)` and every value `w`, `Insert(k, w)` returns `(v, true)`, leaves `Len`
unchanged, and afterwards `Get(k)` returns `(w, true)`. -/
theorem C5_overwrite (tr : Tree) (_h : Reachable tr) (k : Str) (hk : k ≠ []) (v w : Value)
    (hget : tr.Get k = (v, true)) :
    (tr.Insert k w).2 = (v, true) ∧ (tr.Insert k w).1.Len = tr.Len ∧
      (tr.Insert k w).1.Get k = (w, true) := by
  refine ⟨?_, ?_, ?_⟩
  · rw [Tree.Insert_result tr hk, hget]
  · show (tr.Insert k w).1.size = tr.size
    rw [Tree.Insert_size tr hk, hget]
    simp
  · rw [Tree.Get_true_iff, Tree.Insert_findLeaf tr hk, if_pos rfl]
    exact ⟨_, rfl, rfl⟩

/-- Witness of C5: overwriting "romane" in the tree of the four keys. -/
theorem C5_overwrite_witness :
    Reachable romanTree ∧ romane ≠ [] ∧ romanTree.Get romane = (some 1, true) ∧
      ((romanTree.Insert romane (some 9)).2 = (some 1, true) ∧
        (romanTree.Insert romane (some 9)).1.Len = romanTree.Len ∧
        (romanTree.Insert romane (some 9)).1.Get romane = (some 9, true)) :=
  ⟨romanTree_reachable, by decide, rfl,
    C5_overwrite romanTree romanTree_reachable romane (by decide) (some 1) (some 9) rfl⟩

/-- The calls of a walk with a callback that never stops hold the keys the leaves are found
by. -/
theorem entries_key (tr : Tree) (h : tr.Inv) {x : Str × leafNode} (hx : x ∈ entriesN tr.root) :
    x.2.key = x.1 :=
  Tree.leaf_key_eq tr h ((mem_entriesN tr.root [] x.1 x.2 h.2.1).mp hx)

/-- Claim C6 (WalkPrefix): for every reachable tree, every string `p` and the callback that
always returns false, `WalkPrefix(p, fn)` calls `fn` on `(k, v)` exactly for the stored keys `k`
that start with `p`, with `v` the stored value, and on no key twice. -/
theorem C6_walkPrefix (tr : Tree) (h : Reachable tr) (p : Str) :
    ((tr.WalkPrefix p (fun _ _ => false)).map Prod.fst).Nodup ∧
      ∀ k v, (k, v) ∈ tr.WalkPrefix p (fun _ _ => false) ↔ (tr.Get k = (v, true) ∧ p <+: k) := by
  have hinv := h.Inv
  have hw : tr.WalkPrefix p (fun _ _ => false) =
      ((entriesN tr.root).filter (fun x => hasPrefix x.1 p)).map
        (fun x => (x.2.key, x.2.value)) := walkPrefixNode_false tr.root [] p hinv.2.1
  rw [hw]
  constructor
  · rw [List.map_map]
    have hcongr : ((entriesN tr.root).filter (fun x => hasPrefix x.1 p)).map
        (Prod.fst ∘ fun (x : Str × leafNode) => (x.2.key, x.2.value)) =
        ((entriesN tr.root).filter (fun x => hasPrefix x.1 p)).map Prod.fst := by
      apply List.map_congr_left
      intro x hx
      exact entries_key tr hinv (List.mem_filter.mp hx).1
    rw [hcongr]
    exact (nodup_entriesN tr.root [] hinv.2.1).sublist ((List.filter_sublist _).map Prod.fst)
  · intro k v
    rw [List.mem_map, Tree.Get_true_iff]
    constructor
    · rintro ⟨⟨x, lf⟩, hmem, heq⟩
      rw [List.mem_filter] at hmem
      simp only [Prod.mk.injEq] at heq
      have hkey := entries_key tr hinv hmem.1
      simp only at hkey
      have hxk : x = k := by rw [← hkey]; exact heq.1
      subst hxk
      exact ⟨⟨lf, (mem_entriesN tr.root [] x lf hinv.2.1).mp hmem.1, heq.2⟩,
        hasPrefix_iff.mp hmem.2⟩
    · rintro ⟨⟨lf, hf, hv⟩, hp⟩
      refine ⟨(k, lf), ?_, ?_⟩
      · rw [List.mem_filter]
        exact ⟨(mem_entriesN tr.root [] k lf hinv.2.1).mpr hf, hasPrefix_iff.mpr hp⟩
      · simp only [Prod.mk.injEq]
        exact ⟨Tree.leaf_key_eq tr hinv hf, hv⟩

/-- Witness of C6: after inserting the four keys, `WalkPrefix("rom", fn)` visits exactly romane,
romanus, romulus. -/
theorem C6_walkPrefix_witness :
    Reachable romanTree ∧
      romanTree.WalkPrefix rom (fun _ _ => false) =
        [(romane, some 1), (romanus, some 2), (romulus, some 3)] ∧
      (((romanTree.WalkPrefix rom (fun _ _ => false)).map Prod.fst).Nodup ∧
        ∀ k v, (k, v) ∈ romanTree.WalkPrefix rom (fun _ _ => false) ↔
          (romanTree.Get k = (v, true) ∧ rom <+: k)) :=
  ⟨romanTree_reachable, rfl, C6_walkPrefix romanTree romanTree_reachable rom⟩

/-- Claim C7 (WalkPath): for every reachable tree, every string `path` and the callback that
always returns false, `WalkPath(path, fn)` calls `fn` on `(k, v)` exactly for the stored keys
`k` that are prefixes of `path` (with `v` the stored value), in order of strictly increasing
key length, hence once each. -/
theorem C7_walkPath (tr : Tree) (h : Reachable tr) (path : Str) :
    (∀ k v, (k, v) ∈ tr.WalkPath path (fun _ _ => false) ↔
        (tr.Get k = (v, true) ∧ k <+: path)) ∧
      (tr.WalkPath path (fun _ _ => false)).Pairwise (fun a b => a.1.length < b.1.length) := by
  have hinv := h.Inv
  have hw : tr.WalkPath path (fun _ _ => false) =
      ((List.inits path).filterMap (findLeaf tr.root)).map (fun l => (l.key, l.value)) :=
    walkPathNode_false tr.root [] path hinv.2.1
  rw [hw]
  constructor
  · intro k v
    rw [List.mem_map, Tree.Get_true_iff]
    constructor
    · rintro ⟨lf, hmem, heq⟩
      rw [List.mem_filterMap] at hmem
      obtain ⟨x, hx, hfx⟩ := hmem
      simp only [Prod.mk.injEq] at heq
      have hkey := Tree.leaf_key_eq tr hinv hfx
      have hxk : x = k := by rw [← hkey]; exact heq.1
      subst hxk
      exact ⟨⟨lf, hfx, heq.2⟩, (List.mem_inits _ _).mp hx⟩
    · rintro ⟨⟨lf, hf, hv⟩, hp⟩
      refine ⟨lf, ?_, ?_⟩
      · rw [List.mem_filterMap]
        exact ⟨k, (List.mem_inits _ _).mpr hp, hf⟩
      · simp only [Prod.mk.injEq]
        exact ⟨Tree.leaf_key_eq tr hinv hf, hv⟩
  · rw [List.pairwise_map]
    refine List.Pairwise.filterMap (findLeaf tr.root) ?_ (pairwise_inits path)
    intro a a1 hlt b hb b1 hb1
    rw [Option.mem_def] at hb hb1
    rw [Tree.leaf_key_eq tr hinv hb, Tree.leaf_key_eq tr hinv hb1]
    exact hlt

/-- Witness of C7: the tree of "foo" and "foobar" and the path "foobarbaz". -/
theorem C7_walkPath_witness :
    Reachable fooTree ∧
      fooTree.WalkPath foobarbaz (fun _ _ => false) = [(foo, some 1), (foobar, some 2)] ∧
      ((∀ k v, (k, v) ∈ fooTree.WalkPath foobarbaz (fun _ _ => false) ↔
          (fooTree.Get k = (v, true) ∧ k <+: foobarbaz)) ∧
        (fooTree.WalkPath foobarbaz (fun _ _ => false)).Pairwise
          (fun a b => a.1.length < b.1.length)) :=
  ⟨fooTree_reachable, rfl, C7_walkPath fooTree fooTree_reachable foobarbaz⟩

/-- Claim C8 (ToMap fidelity): for every reachable tree, `ToMap` has exactly `Len` entries, and
it maps `k` to `v` if and only if `Get(k)` returns `(v, true)`. -/
theorem C8_toMap (tr : Tree) (h : Reachable tr) :
    ((tr.ToMap).length : Int) = tr.Len ∧
      ∀ k v, GoMap.get tr.ToMap k = some v ↔ tr.Get k = (v, true) := by
  have hinv := h.Inv
  have hkeys : ((entriesN tr.root).map (fun x => (x.2.key, x.2.value))).map Prod.fst =
      (entriesN tr.root).map Prod.fst := by
    rw [List.map_map]
    apply List.map_congr_left
    intro x hx
    exact entries_key tr hinv hx
  have hnd : (((entriesN tr.root).map (fun x => (x.2.key, x.2.value))).map Prod.fst).Nodup := by
    rw [hkeys]; exact nodup_entriesN tr.root [] hinv.2.1
  have hmap : tr.ToMap = (entriesN tr.root).map (fun x => (x.2.key, x.2.value)) := by
    unfold Tree.ToMap Tree.Walk
    rw [recursiveWalk_false, GoMap.foldl_set _ [] (by simpa using hnd)]
    rfl
  rw [hmap]
  constructor
  · rw [List.length_map]
    exact hinv.2.2.symm
  · intro k v
    rw [GoMap.get_eq_some_iff _ hnd, List.mem_map, Tree.Get_true_iff]
    constructor
    · rintro ⟨⟨x, lf⟩, hmem, heq⟩
      simp only [Prod.mk.injEq] at heq
      have hkey := entries_key tr hinv hmem
      simp only at hkey
      have hxk : x = k := by rw [← hkey]; exact heq.1
      subst hxk
      exact ⟨lf, (mem_entriesN tr.root [] x lf hinv.2.1).mp hmem, heq.2⟩
    · rintro ⟨lf, hf, hv⟩
      refine ⟨(k, lf), (mem_entriesN tr.root [] k lf hinv.2.1).mpr hf, ?_⟩
      simp only [Prod.mk.injEq]
      exact ⟨Tree.leaf_key_eq tr hinv hf, hv⟩

/-- Witness of C8: the tree of the four keys. -/
theorem C8_toMap_witness :
    Reachable romanTree ∧ romanTree.ToMap = romanPairs ∧
      (((romanTree.ToMap).length : Int) = romanTree.Len ∧
        ∀ k v, GoMap.get romanTree.ToMap k = some v ↔ romanTree.Get k = (v, true)) :=
  ⟨romanTree_reachable, rfl, C8_toMap romanTree romanTree_reachable⟩

/-- Claim C9 (delete of an absent key): for every reachable tree and every key `k` for which
`Get` returns `(nil, false)`, `Delete(k)` returns `(nil, false)` and leaves the tree as it was:
the same tree value, hence the same `Len` and the same result of `Get` on every key. -/
theorem C9_delete_absent (tr : Tree) (h : Reachable tr) (k : Str)
    (hget : tr.Get k = (none, false)) :
    ∃ t1, tr.Delete k = some (t1, none, false) ∧ t1 = tr ∧ t1.Len = tr.Len ∧
      ∀ k1, t1.Get k1 = tr.Get k1 :=
  ⟨tr, Tree.Delete_of_none tr h.Inv k ((Tree.Get_false_iff tr k).mp hget), rfl, rfl,
    fun _ => rfl⟩

/-- Witness of C9: the empty key, the key "rom" that ends inside a node's prefix and beside a
node without a leaf, on the tree of the four keys. -/
theorem C9_delete_absent_witness :
    Reachable romanTree ∧ romanTree.Get rom = (none, false) ∧
      ∃ t1, romanTree.Delete rom = some (t1, none, false) ∧ t1 = romanTree ∧
        t1.Len = romanTree.Len ∧ ∀ k1, t1.Get k1 = romanTree.Get k1 :=
  ⟨romanTree_reachable, rfl, C9_delete_absent romanTree romanTree_reachable rom rfl⟩

/-- Claim C10 (empty-key insert is rejected): for every reachable tree and every value `v`,
`Insert("", v)` returns `(nil, false)` and leaves the tree as it was (the same tree value, hence
the same `Len` and `Get` results), and `Get("")` returns `(nil, false)`. -/
theorem C10_insert_empty (tr : Tree) (h : Reachable tr) (v : Value) :
    (tr.Insert [] v).2 = (none, false) ∧ (tr.Insert [] v).1 = tr ∧
      (tr.Insert [] v).1.Len = tr.Len ∧ (∀ k, (tr.Insert [] v).1.Get k = tr.Get k) ∧
      tr.Get [] = (none, false) ∧ (tr.Insert [] v).1.Get [] = (none, false) := by
  have hg : tr.Get [] = (none, false) := by
    rw [Tree.Get_false_iff, findLeaf_nil_leaf]
    exact h.Inv.1
  rw [Tree.Insert_nil]
  exact ⟨rfl, rfl, rfl, fun _ => rfl, hg, hg⟩

/-- Witness of C10: inserting the empty key into the tree of the four keys. -/
theorem C10_insert_empty_witness :
    Reachable romanTree ∧
      ((romanTree.Insert [] (some 7)).2 = (none, false) ∧
        (romanTree.Insert [] (some 7)).1 = romanTree ∧
        (romanTree.Insert [] (some 7)).1.Len = romanTree.Len ∧
        (∀ k, (romanTree.Insert [] (some 7)).1.Get k = romanTree.Get k) ∧
        romanTree.Get [] = (none, false) ∧
        (romanTree.Insert [] (some 7)).1.Get [] = (none, false)) :=
  ⟨romanTree_reachable, C10_insert_empty romanTree romanTree_reachable (some 7)⟩

/-! ## Size, frame properties and the defects of DeletePrefix and updateEdge -/

theorem leafCountL_eq (es : List edge) (h : ∀ e ∈ es, leafCount e.n = (entriesN e.n).length) :
    leafCountL es = (entriesL es).length := by
  induction es with
  | nil => simp [leafCountL, entriesL_nil]
  | cons e rest ih =>
    cases e with
    | mk l n =>
      have h1 := h _ (List.mem_cons_self _ _)
      simp only [edge.n_mk] at h1
      rw [leafCountL, entriesL_cons, List.length_append, List.length_map, edge.n_mk, h1,
        ih (fun e1 he1 => h e1 (List.mem_cons_of_mem _ he1))]

/-- The nodes with a leaf are as many as the leaves listed. -/
theorem leafCount_eq (n : node) : leafCount n = (entriesN n).length := by
  induction n using node.induct with
  | mk leaf d p es ih =>
    rw [leafCount, entriesN_mk, List.length_append, leafCountL_eq es ih]
    cases leaf <;> simp

/-- Claim C11 (size invariant): for every reachable tree, `Len` is the number of nodes
reachable from the root that carry a leaf. -/
theorem C11_size_invariant (tr : Tree) (h : Reachable tr) : tr.Len = leafCount tr.root := by
  rw [leafCount_eq]
  exact h.Inv.2.2

/-- Witness of C11: the tree of the four keys. -/
theorem C11_size_invariant_witness :
    Reachable romanTree ∧ romanTree.Len = leafCount romanTree.root :=
  ⟨romanTree_reachable, C11_size_invariant romanTree romanTree_reachable⟩

theorem singleTree_reachable : Reachable singleTree :=
  ⟨[], singleOps, rfl⟩

/-- Claim C12, at the failing input: after Insert "ab", DeletePrefix "ab", Insert "abx" the
node below the root has the prefix "ab", no leaf and exactly one edge. -/
theorem C12_single_edge_node :
    Reachable singleTree ∧
      singleTree.root = .mk none 0 []
        [.mk [97] (.mk none 0 keyAb [.mk [120] (.mk (some ⟨keyAbx, some 2⟩) 0 keyX [])])] ∧
      noSingleBelow singleTree.root = false :=
  ⟨singleTree_reachable, rfl, rfl⟩

/-- Claim C14, at the failing input: `updateEdge` with a label that no edge of a non-empty edge
slice carries returns without a panic and leaves the node as it was; it panics on an empty
slice. -/
theorem C14_updateEdge_missing_label :
    oneEdgeNode.getEdge [98] = none ∧
      oneEdgeNode.updateEdge [98] emptyNode = some oneEdgeNode ∧
      emptyNode.updateEdge [98] emptyNode = none :=
  ⟨rfl, rfl, rfl⟩

/-- Claim C17, at the failing input: in the tree after Insert "ab", DeletePrefix "ab",
Insert "abx" the node "ab" is not the root, has one edge and no leaf; DeletePrefix "abx"
clears its child and returns 1, and the node is left as it was, prefix "ab" and one edge, not
merged with the child. -/
theorem C17_parent_not_merged :
    (singleTree.DeletePrefix keyAbx).2 = 1 ∧
      (singleTree.DeletePrefix keyAbx).1.root = .mk none 0 []
        [.mk [97] (.mk none 0 keyAb [.mk [120] (.mk none 0 keyX [])])] :=
  ⟨rfl, rfl⟩

/-- Claim C19 (Delete leaves other keys alone): for every reachable tree and every key `k`,
`Delete(k)` returns, and `Get` of every other key returns afterwards what it returned
before. -/
theorem C19_delete_frame (tr : Tree) (h : Reachable tr) (k : Str) :
    ∃ t1 r, tr.Delete k = some (t1, r) ∧ ∀ k1, k1 ≠ k → t1.Get k1 = tr.Get k1 := by
  cases hf : findLeaf tr.root k with
  | none =>
    exact ⟨tr, _, Tree.Delete_of_none tr h.Inv k hf, fun _ _ => rfl⟩
  | some lf =>
    obtain ⟨t1, hd, -, -, hfl⟩ := Tree.Delete_of_some tr h.Inv k lf hf
    refine ⟨t1, _, hd, ?_⟩
    intro k1 hk1
    rw [Tree.Get_eq, Tree.Get_eq, hfl, if_neg hk1]

/-- Witness of C19: deleting "romane" from the tree of the four keys. -/
theorem C19_delete_frame_witness :
    Reachable romanTree ∧
      ∃ t1 r, romanTree.Delete romane = some (t1, r) ∧
        ∀ k1, k1 ≠ romane → t1.Get k1 = romanTree.Get k1 :=
  ⟨romanTree_reachable, C19_delete_frame romanTree romanTree_reachable romane⟩

/-- Claim C20 (DeletePrefix leaves keys outside the prefix alone): for every reachable tree and
every string `p`, `Get` of a key that does not start with `p` returns after `DeletePrefix(p)`
what it returned before; when no stored key starts with `p`, `DeletePrefix(p)` returns 0 and
`Len` and every result of `Get` are unchanged. -/
theorem C20_deletePrefix_frame (tr : Tree) (h : Reachable tr) (p : Str) :
    (∀ k, ¬ p <+: k → (tr.DeletePrefix p).1.Get k = tr.Get k) ∧
      ((∀ k, (tr.Get k).2 = true → ¬ p <+: k) →
        (tr.DeletePrefix p).2 = 0 ∧ (tr.DeletePrefix p).1.Len = tr.Len ∧
          ∀ k, (tr.DeletePrefix p).1.Get k = tr.Get k) := by
  have hinv := h.Inv
  obtain ⟨-, hfl, hcnt, hsize⟩ := Tree.DeletePrefix_ok tr hinv p
  constructor
  · intro k hk
    rw [Tree.Get_eq, Tree.Get_eq, hfl, if_neg hk]
  · intro hno
    have h0 : (tr.DeletePrefix p).2 = 0 := by
      rw [hcnt, Nat.cast_eq_zero, List.countP_eq_zero]
      rintro ⟨x, lf⟩ hmem hx
      have hf := (mem_entriesN tr.root [] x lf hinv.2.1).mp hmem
      exact hno x ((Tree.Get_snd_iff tr x).mpr ⟨lf, hf⟩) (hasPrefix_iff.mp hx)
    refine ⟨h0, ?_, ?_⟩
    · show (tr.DeletePrefix p).1.size = tr.size
      rw [hsize, h0]; simp
    · intro k
      rw [Tree.Get_eq, Tree.Get_eq, hfl]
      split
      · rename_i hk
        cases hf : findLeaf tr.root k with
        | none => rfl
        | some lf => exact absurd hk (hno k ((Tree.Get_snd_iff tr k).mpr ⟨lf, hf⟩))
      · rfl

theorem romanTree_keys (k : Str) (h : (romanTree.Get k).2 = true) :
    k ∈ [romane, romanus, romulus, rubens] := by
  obtain ⟨lf, hf⟩ := (Tree.Get_snd_iff romanTree k).mp h
  have hm := (mem_entriesN romanTree.root [] k lf romanTree_reachable.Inv.2.1).mpr hf
  have hk : k ∈ (entriesN romanTree.root).map Prod.fst := List.mem_map.mpr ⟨_, hm, rfl⟩
  have hl : (entriesN romanTree.root).map Prod.fst = [romane, romanus, romulus, rubens] := rfl
  rw [hl] at hk
  exact hk

theorem romanTree_no_x (k : Str) (h : (romanTree.Get k).2 = true) : ¬ keyX <+: k := by
  have hk := romanTree_keys k h
  simp only [List.mem_cons, List.mem_singleton, List.not_mem_nil, or_false] at hk
  rcases hk with rfl | rfl | rfl | rfl <;> decide

/-- Witness of C20: the tree of the four keys, with the prefix "rom", and with the prefix "x"
that no stored key starts with. -/
theorem C20_deletePrefix_frame_witness :
    Reachable romanTree ∧
      (∀ k, ¬ rom <+: k → (romanTree.DeletePrefix rom).1.Get k = romanTree.Get k) ∧
      (∀ k, (romanTree.Get k).2 = true → ¬ keyX <+: k) ∧
      ((romanTree.DeletePrefix keyX).2 = 0 ∧
        (romanTree.DeletePrefix keyX).1.Len = romanTree.Len ∧
        ∀ k, (romanTree.DeletePrefix keyX).1.Get k = romanTree.Get k) :=
  ⟨romanTree_reachable, (C20_deletePrefix_frame romanTree romanTree_reachable rom).1,
    romanTree_no_x,
    (C20_deletePrefix_frame romanTree romanTree_reachable keyX).2 romanTree_no_x⟩

/-! ## Prefix compression under Insert and Delete -/

theorem compressedBelow_mk (leaf d p es) :
    compressedBelow (.mk leaf d p es) = compressedL es := by
  simp [compressedBelow]

theorem compressedL_iff (es : List edge) :
    compressedL es = true ↔ ∀ e ∈ es, e.n.compressed = true ∧ compressedBelow e.n = true := by
  induction es with
  | nil => simp [compressedL]
  | cons e rest ih =>
    cases e with
    | mk l n =>
      simp only [compressedL, Bool.and_eq_true, List.mem_cons, forall_eq_or_imp, edge.n_mk, ih]

theorem mem_updateEdgeL {es : List edge} {l : Str} {c : node} {e : edge}
    (h : e ∈ updateEdgeL es l c) : e ∈ es ∨ e = .mk l c := by
  induction es with
  | nil => simp [updateEdgeL] at h
  | cons e1 rest ih =>
    simp only [updateEdgeL] at h
    split at h
    · rename_i hl
      rcases List.mem_cons.mp h with h | h
      · right; rw [h, hl]
      · left; exact List.mem_cons_of_mem _ h
    · rcases List.mem_cons.mp h with h | h
      · left; rw [h]; exact List.mem_cons_self _ _
      · rcases ih h with h | h
        · left; exact List.mem_cons_of_mem _ h
        · right; exact h

theorem mem_delEdgeL {es es1 : List edge} {l : Str} (hd : delEdgeL es l = some es1) {e : edge}
    (h : e ∈ es1) : e ∈ es := by
  induction es generalizing es1 with
  | nil => simp [delEdgeL] at hd
  | cons e1 rest ih =>
    simp only [delEdgeL] at hd
    split at hd
    · simp only [Option.some.injEq] at hd
      subst hd
      exact List.mem_cons_of_mem _ h
    · cases hr : delEdgeL rest l with
      | none => rw [hr] at hd; cases hd
      | some r1 =>
        rw [hr] at hd
        simp only [Option.some.injEq] at hd
        subst hd
        rcases List.mem_cons.mp h with h | h
        · rw [h]; exact List.mem_cons_self _ _
        · exact List.mem_cons_of_mem _ (ih hr h)

theorem compressedL_updateEdgeL {es : List edge} {l : Str} {c : node}
    (hes : compressedL es = true) (h1 : c.compressed = true) (h2 : compressedBelow c = true) :
    compressedL (updateEdgeL es l c) = true := by
  rw [compressedL_iff] at hes ⊢
  intro e he
  rcases mem_updateEdgeL he with he | he
  · exact hes e he
  · subst he; exact ⟨h1, h2⟩

theorem compressedL_delEdgeL {es es1 : List edge} {l : Str} (hes : compressedL es = true)
    (hd : delEdgeL es l = some es1) : compressedL es1 = true := by
  rw [compressedL_iff] at hes ⊢
  intro e he
  exact hes e (mem_delEdgeL hd he)

theorem compressedL_getEdgeL {es : List edge} {l : Str} {c : node}
    (hes : compressedL es = true) (hg : getEdgeL es l = some c) :
    c.compressed = true ∧ compressedBelow c = true :=
  (compressedL_iff es).mp hes _ (getEdgeL_some_mem hg)

/-- The node a split puts in the place of a compressed node is compressed, and so is all
below it. -/
theorem splitNode_compressed (c : node) (nodeKey key : Str) (v : Value)
    (h1 : c.compressed = true) (h2 : compressedBelow c = true) :
    (splitNode c nodeKey key v).compressed = true ∧
      compressedBelow (splitNode c nodeKey key v) = true := by
  cases c with
  | mk leaf d p es =>
    rw [compressedBelow_mk] at h2
    simp only [node.compressed, node.leaf_mk, node.edges_mk] at h1
    unfold splitNode
    simp only [node.leaf_mk, node.edges_mk, node.pfx_mk, node.depth_mk]
    split
    · simp [node.compressed, compressedBelow_mk, compressedL, h2, h1]
    · simp [node.compressed, compressedBelow_mk, compressedL, h2, h1]

/-- `Insert` keeps prefix compression: below the node, and of the node itself. -/
theorem insertNode_compressed (n : node) : ∀ (nk key : Str) (v : Value),
    compressedBelow n = true →
      compressedBelow (insertNode n nk key v).1 = true ∧
      (n.compressed = true → (insertNode n nk key v).1.compressed = true) := by
  induction n using node.induct with
  | mk leaf d p es ih =>
    intro nk key v hb
    rw [compressedBelow_mk] at hb
    cases nk with
    | nil =>
      rw [insertNode_nil]
      cases leaf <;> simp [compressedBelow_mk, hb, node.compressed]
    | cons b t =>
      rw [insertNode_cons]
      cases hg : getEdgeL es (byteString b) with
      | none =>
        simp only
        refine ⟨?_, ?_⟩
        · rw [compressedBelow_mk, compressedL_iff]
          intro e he
          rcases List.mem_append.mp he with he | he
          · exact (compressedL_iff es).mp hb e he
          · simp only [List.mem_singleton] at he
            subst he
            simp [node.compressed, compressedBelow_mk, compressedL]
        · simp only [node.compressed, node.leaf_mk, node.edges_mk, List.length_append,
            List.length_singleton, Bool.or_eq_true, decide_eq_true_eq]
          rintro (h | h)
          · exact Or.inl h
          · exact Or.inr (by omega)
      | some c =>
        simp only
        have hc := compressedL_getEdgeL hb hg
        have hchild : (insertChild c (b :: t) key v).1.compressed = true ∧
            compressedBelow (insertChild c (b :: t) key v).1 = true := by
          unfold insertChild
          split
          · have h := ih _ (getEdgeL_some_mem hg)
            simp only [edge.n_mk] at h
            have h1 := h (List.drop (longestPrefix (b :: t) c.pfx) (b :: t)) key v hc.2
            exact ⟨h1.2 hc.1, h1.1⟩
          · exact splitNode_compressed c _ key v hc.1 hc.2
        refine ⟨?_, ?_⟩
        · rw [compressedBelow_mk]
          exact compressedL_updateEdgeL hb hchild.1 hchild.2
        · simp only [node.compressed, node.leaf_mk, node.edges_mk, length_updateEdgeL]
          exact id

/-- The third `if` of the block `DELETE`: a parent whose edges are compressed and that has a
leaf or an edge, or is the root, comes out compressed. -/
theorem deleteStep3_compressed {isRoot : Bool} {leaf : Option leafNode} {d : Int} {p : Str}
    {es2 : List edge} {P3 : node} (hes : compressedL es2 = true)
    (hP : isRoot = false → leaf.isSome = true ∨ 1 ≤ es2.length)
    (h3 : (if (node.mk leaf d p es2).edges.length = 1 && !isRoot &&
            !(node.mk leaf d p es2).isLeaf then (node.mk leaf d p es2).mergeChild
          else some (.mk leaf d p es2)) = some P3) :
    compressedBelow P3 = true ∧ (isRoot = false → P3.compressed = true) := by
  simp only [node.edges_mk, node.isLeaf, node.leaf_mk] at h3
  split at h3
  · rename_i hcond
    simp only [Bool.and_eq_true, decide_eq_true_eq, Bool.not_eq_true'] at hcond
    match es2, hes, hcond, h3 with
    | [e], hes, _, h3 =>
      simp only [node.mergeChild, Option.some.injEq] at h3
      subst h3
      have he := (compressedL_iff _).mp hes e (List.mem_singleton_self _)
      refine ⟨?_, fun _ => ?_⟩
      · rw [compressedBelow_mk]
        have := he.2
        rw [← node_eta e.n, compressedBelow_mk] at this
        exact this
      · have := he.1
        simpa [node.compressed] using this
    | [], _, hcond, _ => simp at hcond
    | _ :: _ :: _, _, hcond, _ => simp at hcond
  · rename_i hcond
    simp only [Option.some.injEq] at h3
    subst h3
    refine ⟨by rw [compressedBelow_mk]; exact hes, fun hr => ?_⟩
    simp only [Bool.and_eq_true, decide_eq_true_eq, Bool.not_eq_true', not_and] at hcond
    simp only [node.compressed, node.leaf_mk, node.edges_mk, Bool.or_eq_true,
      decide_eq_true_eq]
    rcases hP hr with h | h
    · exact Or.inl h
    · cases hl : leaf with
      | some x => simp
      | none =>
        right
        by_contra hlt
        have h1 : es2.length = 1 := by omega
        have := hcond ⟨h1, hr⟩
        rw [hl] at this
        simp at this

/-- The block `DELETE` keeps prefix compression. -/
theorem deleteBlock_compressed {isRoot : Bool} {leaf : Option leafNode} {d : Int} {p : Str}
    {es : List edge} {l : Str} {c P3 : node} {v : Value}
    (hes : compressedL es = true) (hg : getEdgeL es l = some c)
    (hP : isRoot = false → (node.mk leaf d p es).compressed = true)
    (hd : deleteBlock isRoot (.mk leaf d p es) l c = some (P3, v)) :
    compressedBelow P3 = true ∧ (isRoot = false → P3.compressed = true) := by
  have hc := compressedL_getEdgeL hes hg
  have hne : 1 ≤ es.length := by
    have := getEdgeL_some_mem hg
    cases es with
    | nil => simp at this
    | cons _ _ => simp
  have hP1 : isRoot = false → leaf.isSome = true ∨ 2 ≤ es.length := by
    intro hr
    have := hP hr
    simpa [node.compressed] using this
  cases c with
  | mk cleaf cd cp ces =>
    rw [compressedBelow_mk] at hc
    unfold deleteBlock at hd
    cases cleaf with
    | none => simp at hd
    | some lf =>
      simp only [node.leaf_mk, node.edges_mk, node.depth_mk, node.pfx_mk,
        Option.bind_eq_some] at hd
      obtain ⟨P1, h1, P2, h2, P3a, h3, heq⟩ := hd
      simp only [Option.some.injEq, Prod.mk.injEq] at heq
      obtain ⟨rfl, -⟩ := heq
      have key : ∃ es2, P2 = .mk leaf d p es2 ∧ compressedL es2 = true ∧
          es.length ≤ es2.length + 1 := by
        match ces, hc, h1, h2 with
        | [], _, h1, h2 =>
          simp only [List.length_nil, if_true, node.delEdge] at h1
          simp only [List.length_nil, zero_ne_one, if_false, Option.some.injEq] at h2
          subst h2
          cases hdl : delEdgeL es l with
          | none => rw [hdl] at h1; cases h1
          | some es1 =>
            rw [hdl] at h1
            simp only [Option.some.injEq] at h1
            subst h1
            exact ⟨es1, rfl, compressedL_delEdgeL hes hdl, by
              have := length_delEdgeL hdl; omega⟩
        | [e], hc, h1, h2 =>
          simp only [List.length_singleton, one_ne_zero, if_false, Option.some.injEq,
            node.setChild] at h1
          subst h1
          simp only [List.length_singleton, if_true, node.mergeChild, Option.map_some',
            Option.some.injEq, node.setChild, updateEdgeL_updateEdgeL] at h2
          subst h2
          have he := (compressedL_iff _).mp hc.2 e (List.mem_singleton_self _)
          refine ⟨_, rfl, compressedL_updateEdgeL hes ?_ ?_, by
            rw [length_updateEdgeL]; omega⟩
          · have := he.1
            simpa [node.compressed] using this
          · rw [compressedBelow_mk]
            have := he.2
            rw [← node_eta e.n, compressedBelow_mk] at this
            exact this
        | e1 :: e2 :: r, hc, h1, h2 =>
          simp only [List.length_cons, Nat.add_one_ne_zero, if_false, Option.some.injEq,
            node.setChild] at h1
          subst h1
          have hlen : ¬ ((r.length + 1 + 1) = 1) := by omega
          simp only [List.length_cons, hlen, if_false, Option.some.injEq] at h2
          subst h2
          refine ⟨_, rfl, compressedL_updateEdgeL hes ?_ ?_, by
            rw [length_updateEdgeL]; omega⟩
          · simp [node.compressed]
          · rw [compressedBelow_mk]; exact hc.2
      obtain ⟨es2, rfl, hes2, hlen⟩ := key
      refine deleteStep3_compressed hes2 (fun hr => ?_) h3
      rcases hP1 hr with h | h
      · exact Or.inl h
      · exact Or.inr (by omega)

/-- The descent of `Delete` keeps prefix compression: below the node and, when the node is
not the root, of the node itself. -/
theorem deleteNode_compressed (n : node) : ∀ (isRoot : Bool) (q : Str) (n1 : node) (v : Value),
    deleteNode n isRoot q = .deleted n1 v → compressedBelow n = true →
    (isRoot = false → n.compressed = true) →
      compressedBelow n1 = true ∧ (isRoot = false → n1.compressed = true) := by
  induction n using node.induct with
  | mk leaf d p es ih =>
    intro isRoot q n1 v hd hb hcp
    rw [compressedBelow_mk] at hb
    cases q with
    | nil =>
      rw [deleteNode_nil] at hd
      split at hd <;> cases hd
    | cons b t =>
      rw [deleteNode_cons] at hd
      cases hg : getEdgeL es (byteString b) with
      | none => rw [hg] at hd; cases hd
      | some c =>
        rw [hg] at hd
        simp only at hd
        have hc := compressedL_getEdgeL hb hg
        split at hd
        · cases hdn : deleteNode c false (List.drop c.pfx.length (b :: t)) with
          | notFound => rw [hdn] at hd; cases hd
          | panic => rw [hdn] at hd; cases hd
          | atLeaf =>
            rw [hdn] at hd
            simp only at hd
            cases hdb : deleteBlock isRoot (.mk leaf d p es) (byteString b) c with
            | none => rw [hdb] at hd; cases hd
            | some r =>
              obtain ⟨P3, v3⟩ := r
              rw [hdb] at hd
              simp only [DelRes.deleted.injEq] at hd
              obtain ⟨rfl, rfl⟩ := hd
              exact deleteBlock_compressed hb hg hcp hdb
          | deleted c1 v1 =>
            rw [hdn] at hd
            simp only [DelRes.deleted.injEq] at hd
            obtain ⟨rfl, rfl⟩ := hd
            have h := ih _ (getEdgeL_some_mem hg)
            simp only [edge.n_mk] at h
            have h1 := h false _ c1 v1 hdn hc.2 (fun _ => hc.1)
            refine ⟨?_, fun hr => ?_⟩
            · rw [compressedBelow_mk]
              exact compressedL_updateEdgeL hb (h1.2 rfl) h1.1
            · have := hcp hr
              simpa [node.compressed, length_updateEdgeL] using this
        · cases hd

theorem Tree.Insert_compressed (tr : Tree) (hc : compressedBelow tr.root = true) (k : Str)
    (v : Value) : compressedBelow (tr.Insert k v).1.root = true := by
  by_cases hk : k = []
  · subst hk; rw [Tree.Insert_nil]; exact hc
  · rw [Tree.Insert_of_ne tr hk]
    exact (insertNode_compressed tr.root k k v hc).1

theorem Tree.Delete_compressed (tr : Tree) (hw : tr.Inv) (hc : compressedBelow tr.root = true)
    (k : Str) : ∃ t1 r, tr.Delete k = some (t1, r) ∧ t1.Inv ∧
      compressedBelow t1.root = true := by
  cases hf : findLeaf tr.root k with
  | none =>
    exact ⟨tr, _, Tree.Delete_of_none tr hw k hf, hw, hc⟩
  | some lf =>
    obtain ⟨t1, hd, hinv, -⟩ := Tree.Delete_of_some tr hw k lf hf
    refine ⟨t1, _, hd, hinv, ?_⟩
    unfold Tree.Delete at hd
    cases hdn : deleteNode tr.root true k with
    | notFound =>
      rw [hdn] at hd
      simp only [Option.some.injEq, Prod.mk.injEq] at hd
      rw [← hd.1]; exact hc
    | panic => rw [hdn] at hd; cases hd
    | atLeaf =>
      exfalso
      cases k with
      | nil =>
        rw [findLeaf_nil_leaf, hw.1] at hf
        cases hf
      | cons b t =>
        have h2 := deleteNode_ok tr.root true [] (b :: t) hw.2.1
        rw [hf] at h2
        simp only [if_neg (List.cons_ne_nil b t)] at h2
        obtain ⟨n1, h3, -⟩ := h2
        rw [hdn] at h3
        cases h3
    | deleted root1 v1 =>
      rw [hdn] at hd
      simp only [Option.some.injEq, Prod.mk.injEq] at hd
      rw [← hd.1]
      exact (deleteNode_compressed tr.root true k root1 v1 hdn hc (fun h => by cases h)).1

theorem Tree.run_compressed (ops : List Op) : ∀ (tr t1 : Tree), tr.Inv →
    compressedBelow tr.root = true → (∀ op ∈ ops, op.isInsertOrDelete = true) →
    tr.run ops = some t1 → compressedBelow t1.root = true := by
  induction ops with
  | nil =>
    intro tr t1 _ hc _ hr
    simp only [Tree.run, Option.some.injEq] at hr
    rw [← hr]; exact hc
  | cons op ops ih =>
    intro tr t1 hw hc hops hr
    simp only [Tree.run, Option.bind_eq_some] at hr
    obtain ⟨t2, ha, hr2⟩ := hr
    have hops2 : ∀ o ∈ ops, o.isInsertOrDelete = true :=
      fun o ho => hops o (List.mem_cons_of_mem _ ho)
    have hop := hops op (List.mem_cons_self _ _)
    have hw2 := Tree.apply_Inv tr t2 hw op ha
    cases op with
    | insert k v =>
      simp only [Tree.apply, Option.some.injEq] at ha
      subst ha
      exact ih _ t1 hw2 (Tree.Insert_compressed tr hc k v) hops2 hr2
    | delete k =>
      obtain ⟨t3, r, hd, -, hc3⟩ := Tree.Delete_compressed tr hw hc k
      simp only [Tree.apply, hd, Option.map_some', Option.some.injEq] at ha
      subst ha
      exact ih _ t1 hw2 hc3 hops2 hr2
    | deletePrefix p => simp [Op.isInsertOrDelete] at hop

/-- Claim C18 (Insert and Delete preserve invariant 2): in a well-formed tree in which every
non-root node has a leaf or at least two edges, the tree after `Insert(k, v)` and the tree
after `Delete(k)`, which returns, have that property again; hence so has every tree that a
sequence of `Insert` and `Delete` calls makes of it, and of the tree made by `New` in
particular. -/
theorem C18_insert_delete_keep_compression (tr : Tree) (hw : tr.Inv)
    (hc : compressedBelow tr.root = true) :
    (∀ k v, compressedBelow (tr.Insert k v).1.root = true) ∧
    (∀ k, ∃ t1 r, tr.Delete k = some (t1, r) ∧ compressedBelow t1.root = true) ∧
    (∀ ops t1, (∀ op ∈ ops, op.isInsertOrDelete = true) → tr.run ops = some t1 →
      compressedBelow t1.root = true) ∧
    (∀ rc ops t1, (∀ op ∈ ops, op.isInsertOrDelete = true) → (New rc).run ops = some t1 →
      compressedBelow t1.root = true) := by
  refine ⟨Tree.Insert_compressed tr hc, fun k => ?_, fun ops t1 hops hr =>
    Tree.run_compressed ops tr t1 hw hc hops hr, fun rc ops t1 hops hr =>
    Tree.run_compressed ops (New rc) t1 (Inv_New rc) rfl hops hr⟩
  obtain ⟨t1, r, hd, -, h1⟩ := Tree.Delete_compressed tr hw hc k
  exact ⟨t1, r, hd, h1⟩

/-- Witness of C18: the tree of the four keys, and the calls that make it. -/
theorem C18_insert_delete_keep_compression_witness :
    romanTree.Inv ∧ compressedBelow romanTree.root = true ∧
    (∀ k v, compressedBelow (romanTree.Insert k v).1.root = true) ∧
    (∀ k, ∃ t1 r, romanTree.Delete k = some (t1, r) ∧ compressedBelow t1.root = true) :=
  ⟨romanTree_reachable.Inv, rfl,
    (C18_insert_delete_keep_compression romanTree romanTree_reachable.Inv rfl).1,
    (C18_insert_delete_keep_compression romanTree romanTree_reachable.Inv rfl).2.1⟩

/-! ## No panic in Insert and Delete -/

theorem longestPrefixLoopChk_eq (k1 k2 : Str) :
    ∀ (left i : Nat), i + left ≤ k1.length → i + left ≤ k2.length →
      longestPrefixLoopChk k1 k2 left i = some (longestPrefixLoop k1 k2 left i) := by
  intro left
  induction left with
  | zero => intro i _ _; rfl
  | succ m ih =>
    intro i h1 h2
    have hi1 : i < k1.length := by omega
    have hi2 : i < k2.length := by omega
    rw [longestPrefixLoopChk, longestPrefixLoop, List.getElem?_eq_getElem hi1,
      List.getElem?_eq_getElem hi2]
    simp only [List.getD_eq_getElem?_getD, List.getElem?_eq_getElem hi1,
      List.getElem?_eq_getElem hi2, Option.getD_some]
    split
    · rfl
    · exact ih (i + 1) (by omega) (by omega)

/-- The index expressions of `longestPrefix` are in range. -/
theorem longestPrefixChk_eq (k1 k2 : Str) :
    longestPrefixChk k1 k2 = some (longestPrefix k1 k2) := by
  unfold longestPrefixChk longestPrefix
  simp only
  split
  · exact longestPrefixLoopChk_eq k1 k2 _ 0 (by omega) (by omega)
  · exact longestPrefixLoopChk_eq k1 k2 _ 0 (by omega) (by omega)

theorem longestPrefix_le_left (k1 k2 : Str) : longestPrefix k1 k2 ≤ k1.length := by
  rw [longestPrefix_eq]; exact commonLen_le_left k1 k2

theorem longestPrefix_le_right (k1 k2 : Str) : longestPrefix k1 k2 ≤ k2.length := by
  rw [longestPrefix_eq]; exact commonLen_le_right k1 k2

/-- The scan of the checked `Insert` over an edge slice of a parent that has an edge where
the scan finds one, given that the checked `Insert` does not panic below. -/
theorem insertEdgesChk_eq (parent : node) (es : List edge) (label nodeKey key : Str)
    (v : Value)
    (ih : ∀ e ∈ es, ∀ (nk key : Str) (v : Value),
      insertNodeChk e.n nk key v = some (insertNode e.n nk key v))
    (hpe : ∀ c, getEdgeL es label = some c → parent.edges.length ≠ 0) :
    insertEdgesChk parent es label nodeKey key v =
      some ((getEdgeL es label).map fun c =>
        (parent.setChild label (insertChild c nodeKey key v).1,
          (insertChild c nodeKey key v).2)) := by
  induction es with
  | nil => simp [insertEdgesChk, getEdgeL]
  | cons e rest ihl =>
    cases e with
    | mk l n =>
      simp only [insertEdgesChk, getEdgeL, edge.label_mk, edge.n_mk]
      by_cases hl : l = label
      · simp only [hl, if_true, longestPrefixChk_eq, Option.map_some']
        have hpe1 := hpe n (by simp [getEdgeL, hl])
        have hle := longestPrefix_le_left nodeKey n.pfx
        have hin := ih _ (List.mem_cons_self _ _)
        simp only [edge.n_mk] at hin
        unfold insertChild
        by_cases hcp : longestPrefix nodeKey n.pfx = n.pfx.length
        · simp only [hcp, if_true]
          rw [← hcp, if_pos hle, hin]
        · simp only [hcp, if_false, if_pos hle]
          have hlt : longestPrefix nodeKey n.pfx < n.pfx.length :=
            lt_of_le_of_ne (longestPrefix_le_right nodeKey n.pfx) hcp
          rw [List.getElem?_eq_getElem hlt]
          simp only
          cases parent with
          | mk pl pd pp pes =>
            simp only [node.edges_mk] at hpe1
            simp only [node.updateEdge, if_neg hpe1, node.setChild, splitNode,
              List.getD_eq_getElem?_getD, List.getElem?_eq_getElem hlt, Option.getD_some]
      · simp only [hl, if_false]
        exact ihl (fun e he => ih e (List.mem_cons_of_mem _ he))
          (fun c hc => hpe c (by simp [getEdgeL, hl, hc]))

/-- The checked `Insert` never panics and does what `Insert` does. -/
theorem insertNodeChk_eq (n : node) : ∀ (nk key : Str) (v : Value),
    insertNodeChk n nk key v = some (insertNode n nk key v) := by
  induction n using node.induct with
  | mk leaf d p es ih =>
    intro nk key v
    cases nk with
    | nil =>
      rw [insertNode_nil]
      cases leaf <;> simp [insertNodeChk]
    | cons b t =>
      have hpe : ∀ c, getEdgeL es (byteString b) = some c →
          (node.mk leaf d p es).edges.length ≠ 0 := by
        intro c hc
        have := getEdgeL_some_mem hc
        cases es with
        | nil => simp at this
        | cons _ _ => simp
      rw [insertNodeChk, insertEdgesChk_eq _ es _ _ key v ih hpe, insertNode_cons]
      cases getEdgeL es (byteString b) <;> simp [node.addEdge, node.setChild]

theorem Tree.InsertChk_eq (tr : Tree) (k : Str) (v : Value) :
    tr.InsertChk k v = some (tr.Insert k v) := by
  unfold Tree.InsertChk Tree.Insert
  split
  · rfl
  · rw [insertNodeChk_eq]

theorem Tree.run_append (ops1 ops2 : List Op) : ∀ (tr : Tree),
    tr.run (ops1 ++ ops2) = (tr.run ops1).bind (fun t => t.run ops2) := by
  induction ops1 with
  | nil => intro tr; rfl
  | cons op ops ih =>
    intro tr
    simp only [List.cons_append, Tree.run]
    cases tr.apply op with
    | none => rfl
    | some t => exact ih t

theorem hasPrefix_length {s p : Str} (h : hasPrefix s p = true) : p.length ≤ s.length := by
  unfold hasPrefix at h
  simp only [Bool.and_eq_true, decide_eq_true_eq] at h
  exact h.1

/-! ## Walk: pre-order with early stop -/

theorem preorderL_eq (es : List edge)
    (h : ∀ e ∈ es, preorder e.n = (entriesN e.n).map (fun x => (x.2.key, x.2.value))) :
    preorderL es = (entriesL es).map (fun x => (x.2.key, x.2.value)) := by
  induction es with
  | nil => simp [preorderL, entriesL_nil]
  | cons e rest ih =>
    cases e with
    | mk l n =>
      have h1 := h _ (List.mem_cons_self _ _)
      simp only [edge.n_mk] at h1
      rw [preorderL, entriesL_cons, List.map_append, List.map_map, edge.n_mk, h1,
        ih (fun e1 he1 => h e1 (List.mem_cons_of_mem _ he1))]
      rfl

/-- The pre-order listing is the listing of the leaves, each with its key and value. -/
theorem preorder_eq (n : node) :
    preorder n = (entriesN n).map (fun x => (x.2.key, x.2.value)) := by
  induction n using node.induct with
  | mk leaf d p es ih =>
    have h := preorderL_eq es ih
    cases leaf <;> simp [preorder, entriesN_mk, leafPart, h]

theorem preorder_keys (tr : Tree) (h : tr.Inv) :
    (preorder tr.root).map Prod.fst = (entriesN tr.root).map Prod.fst := by
  rw [preorder_eq, List.map_map]
  apply List.map_congr_left
  intro x hx
  exact entries_key tr h hx

/-- No key comes twice in the pre-order listing of a well-formed tree. -/
theorem preorder_nodup (tr : Tree) (h : tr.Inv) : ((preorder tr.root).map Prod.fst).Nodup := by
  rw [preorder_keys tr h]
  exact nodup_entriesN tr.root [] h.2.1

/-- The pre-order listing of a well-formed tree holds the stored pairs. -/
theorem mem_preorder (tr : Tree) (h : tr.Inv) (k : Str) (v : Value) :
    (k, v) ∈ preorder tr.root ↔ tr.Get k = (v, true) := by
  rw [preorder_eq, List.mem_map, Tree.Get_true_iff]
  constructor
  · rintro ⟨⟨x, lf⟩, hmem, heq⟩
    simp only [Prod.mk.injEq] at heq
    have hkey := entries_key tr h hmem
    simp only at hkey
    have hxk : x = k := by rw [← hkey]; exact heq.1
    subst hxk
    exact ⟨lf, (mem_entriesN tr.root [] x lf h.2.1).mp hmem, heq.2⟩
  · rintro ⟨lf, hf, hv⟩
    refine ⟨(k, lf), (mem_entriesN tr.root [] k lf h.2.1).mpr hf, ?_⟩
    simp only [Prod.mk.injEq]
    exact ⟨Tree.leaf_key_eq tr h hf, hv⟩

theorem callsUntil_append {σ : Type} (fn : walkFnSt σ) (l1 l2 : List (Str × Value)) :
    ∀ (s : σ), callsUntil fn s (l1 ++ l2) =
      if (callsUntil fn s l1).2.1 then callsUntil fn s l1
      else ((callsUntil fn s l1).1 ++ (callsUntil fn (callsUntil fn s l1).2.2 l2).1,
        (callsUntil fn (callsUntil fn s l1).2.2 l2).2) := by
  induction l1 with
  | nil => intro s; simp [callsUntil]
  | cons x rest ih =>
    intro s
    obtain ⟨k, v⟩ := x
    simp only [List.cons_append, callsUntil]
    cases hf : (fn s k v).1 with
    | true => simp
    | false =>
      simp only [Bool.false_eq_true, if_false, List.append_eq]
      rw [ih]
      cases hc : (callsUntil fn (fn s k v).2 rest).2.1 <;> simp

theorem walkEdgesSt_eq {σ : Type} (es : List edge)
    (h : ∀ e ∈ es, ∀ (fn : walkFnSt σ) (s : σ),
      recursiveWalkSt e.n fn s = callsUntil fn s (preorder e.n)) (fn : walkFnSt σ) :
    ∀ (s : σ), walkEdgesSt es fn s = callsUntil fn s (preorderL es) := by
  induction es with
  | nil => intro s; simp [walkEdgesSt, preorderL, callsUntil]
  | cons e rest ih =>
    intro s
    cases e with
    | mk l n =>
      have h1 := h _ (List.mem_cons_self _ _)
      simp only [edge.n_mk] at h1
      have h2 := ih (fun e1 he1 => h e1 (List.mem_cons_of_mem _ he1))
      rw [walkEdgesSt, preorderL, callsUntil_append, h1, h2]

/-- The walk with a callback that leaves the tree alone calls it on the pre-order listing
until it returns true. -/
theorem recursiveWalkSt_eq {σ : Type} (n : node) : ∀ (fn : walkFnSt σ) (s : σ),
    recursiveWalkSt n fn s = callsUntil fn s (preorder n) := by
  induction n using node.induct with
  | mk leaf d p es ih =>
    intro fn s
    have h := walkEdgesSt_eq es ih fn
    cases leaf with
    | none => simp [recursiveWalkSt, preorder, h]
    | some l => simp [recursiveWalkSt, preorder, h, callsUntil]

/-- A run of calls that ends with false has called the callback on the whole list. -/
theorem callsUntil_of_false {σ : Type} (fn : walkFnSt σ) (l : List (Str × Value)) :
    ∀ (s : σ), (callsUntil fn s l).2.1 = false → (callsUntil fn s l).1 = l := by
  induction l with
  | nil => intro s _; rfl
  | cons x rest ih =>
    intro s h
    obtain ⟨k, v⟩ := x
    simp only [callsUntil] at h ⊢
    cases hf : (fn s k v).1 with
    | true => simp [hf] at h
    | false =>
      simp only [hf, Bool.false_eq_true, if_false] at h ⊢
      rw [ih _ h]

/-- A run of calls that ends with true: the last call returned true and the calls before it
returned false. -/
theorem callsUntil_of_true {σ : Type} (fn : walkFnSt σ) (l : List (Str × Value)) :
    ∀ (s : σ), (callsUntil fn s l).2.1 = true →
      ∃ init k v s0 rest, l = init ++ (k, v) :: rest ∧
        (callsUntil fn s l).1 = init ++ [(k, v)] ∧
        callsUntil fn s init = (init, false, s0) ∧ (fn s0 k v).1 = true := by
  induction l with
  | nil => intro s h; simp [callsUntil] at h
  | cons x rest ih =>
    intro s h
    obtain ⟨k, v⟩ := x
    simp only [callsUntil] at h ⊢
    cases hf : (fn s k v).1 with
    | true => exact ⟨[], k, v, s, rest, rfl, by simp, rfl, hf⟩
    | false =>
      simp only [hf, Bool.false_eq_true, if_false] at h ⊢
      obtain ⟨init, k1, v1, s0, rest1, hl, hc, hi, hfn⟩ := ih _ h
      refine ⟨(k, v) :: init, k1, v1, s0, rest1, by rw [hl]; rfl, by rw [hc]; rfl, ?_, hfn⟩
      simp only [callsUntil, hf, Bool.false_eq_true, if_false, hi]

/-- A callback that never returns true makes the run end with false. -/
theorem callsUntil_never {σ : Type} (fn : walkFnSt σ) (hfn : ∀ s k v, (fn s k v).1 = false)
    (l : List (Str × Value)) : ∀ (s : σ), (callsUntil fn s l).2.1 = false := by
  induction l with
  | nil => intro s; rfl
  | cons x rest ih =>
    intro s
    obtain ⟨k, v⟩ := x
    simp only [callsUntil, hfn, Bool.false_eq_true, if_false]
    exact ih _

/-- The walk for a callback without a state of its own is the walk for one with the trivial
state. -/
theorem recursiveWalk_eq_St (n : node) : ∀ (fn : walkFn),
    recursiveWalk n fn =
      ((recursiveWalkSt n (fun (_ : Unit) k v => (fn k v, ())) ()).1,
        (recursiveWalkSt n (fun (_ : Unit) k v => (fn k v, ())) ()).2.1) := by
  induction n using node.induct with
  | mk leaf d p es ih =>
    intro fn
    have hes : walkEdges es fn =
        ((walkEdgesSt es (fun (_ : Unit) k v => (fn k v, ())) ()).1,
          (walkEdgesSt es (fun (_ : Unit) k v => (fn k v, ())) ()).2.1) := by
      clear d p leaf
      induction es with
      | nil => rfl
      | cons e rest ihl =>
        cases e with
        | mk l n =>
          have h1 := ih _ (List.mem_cons_self _ _) fn
          simp only [edge.n_mk] at h1
          have h2 := ihl (fun e1 he1 => ih e1 (List.mem_cons_of_mem _ he1))
          simp only [walkEdges, walkEdgesSt, h1, h2]
          cases hc : (recursiveWalkSt n (fun (_ : Unit) k v => (fn k v, ())) ()).2.1 <;> simp [hc]
    cases leaf with
    | none => simp only [recursiveWalk, recursiveWalkSt, hes]
    | some l =>
      simp only [recursiveWalk, recursiveWalkSt, hes]
      cases hc : fn l.key l.value <;> simp

/-- Claim C15 (Walk is a pre-order visit with early stop): for every reachable tree and every
callback that leaves the tree alone (it may have a state of its own), `Walk` calls it on the
pre-order listing of the tree (the leaf of a node before its edges, the edges in stored order)
until it returns true; that listing holds exactly the stored pairs, no key twice. If `Walk`
returns false, which it does if the callback never returns true, the calls are the whole
listing; if it returns true, the last call returned true and those before it returned false. -/
theorem C15_walk_preorder (tr : Tree) (h : Reachable tr) (σ : Type) (fn : walkFnSt σ) (s : σ) :
    tr.WalkSt fn s = callsUntil fn s (preorder tr.root) ∧
    ((preorder tr.root).map Prod.fst).Nodup ∧
    (∀ k v, (k, v) ∈ preorder tr.root ↔ tr.Get k = (v, true)) ∧
    ((tr.WalkSt fn s).2.1 = false → (tr.WalkSt fn s).1 = preorder tr.root) ∧
    ((∀ s0 k v, (fn s0 k v).1 = false) → (tr.WalkSt fn s).2.1 = false) ∧
    ((tr.WalkSt fn s).2.1 = true →
      ∃ init k v s0 rest, preorder tr.root = init ++ (k, v) :: rest ∧
        (tr.WalkSt fn s).1 = init ++ [(k, v)] ∧
        callsUntil fn s init = (init, false, s0) ∧ (fn s0 k v).1 = true) := by
  have hw : tr.WalkSt fn s = callsUntil fn s (preorder tr.root) :=
    recursiveWalkSt_eq tr.root fn s
  refine ⟨hw, preorder_nodup tr h.Inv, mem_preorder tr h.Inv, ?_, ?_, ?_⟩
  · rw [hw]; exact callsUntil_of_false fn _ s
  · intro hfn; rw [hw]; exact callsUntil_never fn hfn _ s
  · rw [hw]; exact callsUntil_of_true fn _ s

/-- Witness of C15: on the tree of the four keys, the callback that counts its calls and
returns true on the key romanus is called on romane and romanus, and `Walk` returns true. -/
theorem C15_walk_preorder_witness :
    Reachable romanTree ∧
    preorder romanTree.root =
      [(romane, some 1), (romanus, some 2), (romulus, some 3), (rubens, some 4)] ∧
    romanTree.WalkSt (fun (c : Nat) k _ => (decide (k = romanus), c + 1)) 0 =
      ([(romane, some 1), (romanus, some 2)], true, 2) ∧
    (romanTree.WalkSt (fun (c : Nat) k _ => (decide (k = romanus), c + 1)) 0 =
      callsUntil (fun (c : Nat) k _ => (decide (k = romanus), c + 1)) 0
        (preorder romanTree.root)) :=
  ⟨romanTree_reachable, rfl, rfl,
    (C15_walk_preorder romanTree romanTree_reachable Nat
      (fun (c : Nat) k _ => (decide (k = romanus), c + 1)) 0).1⟩

/-! ## Walk with the callback that calls Delete -/

theorem twoKeyTree_reachable : Reachable twoKeyTree :=
  ⟨[], twoKeyOps, rfl⟩

/-- On the tree of the keys "a" and "ab", `Delete` on the tree object does what `Delete` does:
the node "a" loses its leaf and is merged with its child. -/
theorem hDelete_twoKeyTree :
    (twoKeyTree.toHeap.Delete 4 keyA).map (fun r => (r.1.read 4, r.2)) =
      (twoKeyTree.Delete keyA).map (fun r => (some (r.1.root, r.1.size), r.2)) :=
  rfl

/-- On the tree of the keys "a" and "ab", `Walk` on the tree object with a callback that
leaves the tree alone makes the calls of `Walk`. -/
theorem hWalk_twoKeyTree :
    (twoKeyTree.toHeap.Walk (fun t _ _ => some (t, false)) 6).map (fun r => r.2) =
      some (twoKeyTree.Walk (fun _ _ => false)) :=
  rfl

/-- Claim C16, at the failing input: the tree holding the keys "a" and "ab" is reachable, has
`Len` 2, and `Walk` with the callback that calls `Delete(k)` and returns false calls it on "a"
only and returns false; in the tree afterwards the key "ab" is still stored, at the node below
the root, and `Len` is 1. -/
theorem C16_walk_delete_skips_key :
    Reachable twoKeyTree ∧ twoKeyTree.Len = 2 ∧
      preorder twoKeyTree.root = [(keyA, some 1), (keyAb, some 2)] ∧
      twoKeyTree.toHeap.read 4 = some (twoKeyTree.root, twoKeyTree.size) ∧
      (twoKeyTree.toHeap.Walk (deletingFn 4) 6).map (fun r => (r.2, r.1.read 4)) =
        some (([(keyA, some 1)], false),
          some (.mk none 0 [] [.mk keyA (.mk (some ⟨keyAb, some 2⟩) 0 keyAb [])], 1)) :=
  ⟨twoKeyTree_reachable, rfl, rfl, rfl, rfl⟩

/-! ## No panic in the other operations -/

theorem sliceFrom_of_hasPrefix {s p : Str} (h : hasPrefix s p = true) :
    sliceFrom s p.length = some (s.drop p.length) := by
  unfold sliceFrom
  rw [if_pos (hasPrefix_length h)]

theorem sliceFrom_length (s : Str) : sliceFrom s s.length = some (s.drop s.length) := by
  unfold sliceFrom
  rw [if_pos (Nat.le_refl _)]

theorem sliceFrom_of_lt {s : Str} {i : Nat} (h : i < s.length) :
    sliceFrom s i = some (s.drop i) := by
  unfold sliceFrom
  rw [if_pos (Nat.le_of_lt h)]

/-! ### Get -/

theorem getEdgesChk_eq (es : List edge) (label pattern : Str)
    (ih : ∀ e ∈ es, ∀ (p : Str), getNodeChk e.n p = some (getNode e.n p)) :
    getEdgesChk es label pattern = some (getEdges es label pattern) := by
  induction es with
  | nil => rfl
  | cons e rest ihl =>
    cases e with
    | mk l n =>
      have hn := ih _ (List.mem_cons_self _ _)
      simp only [edge.n_mk] at hn
      simp only [getEdgesChk, getEdges]
      by_cases hl : l = label
      · simp only [hl, if_true]
        by_cases hp : hasPrefix pattern n.pfx = true
        · simp only [hp, if_true, sliceFrom_of_hasPrefix hp, hn]
        · simp [hp]
      · simp only [hl, if_false]
        exact ihl (fun e he => ih e (List.mem_cons_of_mem _ he))

/-- The checked `Get` never panics and does what `Get` does. -/
theorem getNodeChk_eq (n : node) : ∀ (p : Str), getNodeChk n p = some (getNode n p) := by
  induction n using node.induct with
  | mk leaf d pf es ih =>
    intro p
    cases p with
    | nil => cases leaf <;> simp [getNodeChk, getNode]
    | cons b t => simp [getNodeChk, getNode, getEdgesChk_eq es _ _ ih]

/-! ### Delete -/

theorem deleteEdgesChk_eq (es : List edge) (label pattern : Str)
    (ih : ∀ e ∈ es, ∀ (isRoot : Bool) (p : Str), deleteNodeChk e.n isRoot p = deleteNode e.n isRoot p) :
    deleteEdgesChk es label pattern = deleteEdges es label pattern := by
  induction es with
  | nil => rfl
  | cons e rest ihl =>
    cases e with
    | mk l n =>
      have hn := ih _ (List.mem_cons_self _ _)
      simp only [edge.n_mk] at hn
      simp only [deleteEdgesChk, deleteEdges]
      by_cases hl : l = label
      · simp only [hl, if_true]
        by_cases hp : hasPrefix pattern n.pfx = true
        · simp only [hp, if_true, sliceFrom_of_hasPrefix hp, hn]
        · simp [hp]
      · simp only [hl, if_false]
        rw [ihl (fun e he => ih e (List.mem_cons_of_mem _ he))]

/-- The checked descent of `Delete` does what the descent of `Delete` does. -/
theorem deleteNodeChk_eq (n : node) : ∀ (isRoot : Bool) (p : Str),
    deleteNodeChk n isRoot p = deleteNode n isRoot p := by
  induction n using node.induct with
  | mk leaf d pf es ih =>
    intro isRoot p
    cases p with
    | nil => simp [deleteNodeChk, deleteNode]
    | cons b t =>
      simp only [deleteNodeChk, deleteNode, List.length_cons, Nat.add_one_ne_zero, if_false,
        List.getElem?_cons_zero, deleteEdgesChk_eq es _ _ ih]

theorem Tree.DeleteChk_eq (tr : Tree) (k : Str) : tr.DeleteChk k = tr.Delete k := by
  unfold Tree.DeleteChk Tree.Delete
  rw [deleteNodeChk_eq]

/-! ### LongestPrefix -/

theorem longestPrefixEdgesChk_eq (es : List edge) (label pattern : Str) (last : Option leafNode)
    (ih : ∀ e ∈ es, ∀ (p : Str) (last : Option leafNode),
      longestPrefixNodeChk e.n p last = some (longestPrefixNode e.n p last)) :
    longestPrefixEdgesChk es label pattern last =
      some (longestPrefixEdges es label pattern last) := by
  induction es with
  | nil => rfl
  | cons e rest ihl =>
    cases e with
    | mk l n =>
      have hn := ih _ (List.mem_cons_self _ _)
      simp only [edge.n_mk] at hn
      simp only [longestPrefixEdgesChk, longestPrefixEdges]
      by_cases hl : l = label
      · simp only [hl, if_true]
        by_cases hp : hasPrefix pattern n.pfx = true
        · simp only [hp, if_true, sliceFrom_of_hasPrefix hp, hn]
        · simp [hp]
      · simp only [hl, if_false]
        exact ihl (fun e he => ih e (List.mem_cons_of_mem _ he))

/-- The checked `LongestPrefix` never panics and does what `LongestPrefix` does. -/
theorem longestPrefixNodeChk_eq (n : node) : ∀ (p : Str) (last : Option leafNode),
    longestPrefixNodeChk n p last = some (longestPrefixNode n p last) := by
  induction n using node.induct with
  | mk leaf d pf es ih =>
    intro p last
    cases p with
    | nil => simp [longestPrefixNodeChk, longestPrefixNode]
    | cons b t =>
      simp [longestPrefixNodeChk, longestPrefixNode, longestPrefixEdgesChk_eq es _ _ _ ih]

theorem Tree.LongestPrefixChk_eq (tr : Tree) (k : Str) :
    tr.LongestPrefixChk k = some (tr.LongestPrefix k) := by
  unfold Tree.LongestPrefixChk Tree.LongestPrefix
  rw [longestPrefixNodeChk_eq]
  cases longestPrefixNode tr.root k none <;> rfl

/-! ### Walk -/

theorem walkFuel_mk (leaf d p es) : walkFuel (.mk leaf d p es) = walkFuelL es + 1 := by
  simp [walkFuel]

theorem walkFuelL_cons (l : Str) (n : node) (rest : List edge) :
    walkFuelL (.mk l n :: rest) = walkFuel n + walkFuelL rest + 1 := by
  simp [walkFuelL]

theorem walkFuel_le_of_mem {es : List edge} {e : edge} (h : e ∈ es) :
    walkFuel e.n ≤ walkFuelL es := by
  induction es with
  | nil => simp at h
  | cons e1 rest ih =>
    cases e1 with
    | mk l n =>
      rw [walkFuelL_cons]
      rcases List.mem_cons.mp h with h | h
      · subst h; simp only [edge.n_mk]; omega
      · have := ih h; omega

/-- The loop of the checked walk from the index `i` on, with enough fuel, does what the walk
over the edges from `i` on does. -/
theorem walkLoopChk_eq {σ : Type} (fn : walkFnSt σ) (leaf : Option leafNode) (d : Int) (p : Str)
    (es : List edge)
    (ih : ∀ e ∈ es, ∀ (fuel : Nat) (s : σ), walkFuel e.n ≤ fuel →
      recursiveWalkChk fn fuel e.n s = some (recursiveWalkSt e.n fn s)) :
    ∀ (rest : List edge) (i fuel : Nat) (s : σ), es.drop i = rest → walkFuelL rest ≤ fuel →
      walkLoopChk fn fuel (.mk leaf d p es) i es.length s = some (walkEdgesSt rest fn s) := by
  intro rest
  induction rest with
  | nil =>
    intro i fuel s hd hf
    have hi : es.length ≤ i := List.drop_eq_nil_iff.mp hd
    cases fuel with
    | zero => simp [walkFuelL] at hf
    | succ f => simp [walkLoopChk, Nat.not_lt.mpr hi, walkEdgesSt]
  | cons e rest ihr =>
    intro i fuel s hd hf
    cases e with
    | mk l c =>
      rw [walkFuelL_cons] at hf
      have hi : i < es.length := by
        by_contra hge
        rw [List.drop_eq_nil_of_le (Nat.le_of_not_lt hge)] at hd
        cases hd
      rw [List.drop_eq_getElem_cons hi] at hd
      have he : es[i] = edge.mk l c := (List.cons.inj hd).1
      have hrest : es.drop (i + 1) = rest := (List.cons.inj hd).2
      have hmem : edge.mk l c ∈ es := he ▸ List.getElem_mem _
      cases fuel with
      | zero => omega
      | succ f =>
        have hc := ih _ hmem f s (by simp only [edge.n_mk]; omega)
        simp only [edge.n_mk] at hc
        have hne : es.length ≠ 0 := by omega
        have hloop := ihr (i + 1) f (recursiveWalkSt c fn s).2.2 hrest (by omega)
        simp only [walkLoopChk, node.edges_mk, hi, if_true, List.getElem?_eq_getElem hi, he,
          edge.n_mk, hc, hne, if_false, Nat.le_refl, hloop, Option.map_some', walkEdgesSt]
        cases hb : (recursiveWalkSt c fn s).2.1 <;> simp

/-- The checked walk with enough fuel never panics and does what the walk does. -/
theorem recursiveWalkChk_eq {σ : Type} (fn : walkFnSt σ) (n : node) :
    ∀ (fuel : Nat) (s : σ), walkFuel n ≤ fuel →
      recursiveWalkChk fn fuel n s = some (recursiveWalkSt n fn s) := by
  induction n using node.induct with
  | mk leaf d p es ih =>
    intro fuel s hf
    rw [walkFuel_mk] at hf
    cases fuel with
    | zero => omega
    | succ f =>
      have hloop := fun s1 => walkLoopChk_eq fn leaf d p es ih es 0 f s1 rfl (by omega)
      cases leaf with
      | none => simp [recursiveWalkChk, recursiveWalkSt, hloop]
      | some lf =>
        simp only [recursiveWalkChk, recursiveWalkSt, node.leaf_mk, node.edges_mk, hloop,
          Option.map_some']
        cases hb : (fn s lf.key lf.value).1 <;> simp

/-- Calling a callback that never returns true on a list: all calls are made and the state is
folded over the list. -/
theorem callsUntil_fold {σ : Type} (f : σ → Str → Value → σ) (l : List (Str × Value)) :
    ∀ (s : σ), callsUntil (fun s k v => (false, f s k v)) s l =
      (l, false, l.foldl (fun s kv => f s kv.1 kv.2) s) := by
  induction l with
  | nil => intro s; rfl
  | cons x rest ih =>
    intro s
    obtain ⟨k, v⟩ := x
    simp [callsUntil, ih]

theorem foldl_count (l : List (Str × Value)) : ∀ (c : Int),
    l.foldl (fun s (_ : Str × Value) => s + 1) c = c + l.length := by
  induction l with
  | nil => intro c; simp
  | cons x rest ih =>
    intro c
    simp only [List.foldl_cons, ih, List.length_cons, Nat.cast_add, Nat.cast_one]
    omega

theorem recursiveWalk_false_preorder (n : node) :
    recursiveWalk n (fun _ _ => false) = (preorder n, false) := by
  rw [recursiveWalk_false, preorder_eq]

/-! ### ToMap -/

theorem Tree.ToMapChk_eq (tr : Tree) (fuel : Nat) (hf : walkFuel tr.root ≤ fuel) :
    tr.ToMapChk fuel = some tr.ToMap := by
  unfold Tree.ToMapChk Tree.WalkChk Tree.ToMap Tree.Walk
  rw [recursiveWalkChk_eq _ _ fuel [] hf, recursiveWalkSt_eq, recursiveWalk_false_preorder,
    callsUntil_fold (fun (out : GoMap) k v => GoMap.set out k v)]
  rfl

/-! ### DeletePrefix -/

theorem deletePrefixEdgesChk_eq (fuel : Nat) (es : List edge) (label pattern : Str)
    (ih : ∀ e ∈ es, ∀ (p : Str),
      deletePrefixNodeChk fuel true e.n p = some (deletePrefixNode e.n p)) :
    deletePrefixEdgesChk fuel true es label pattern = some (deletePrefixEdges es label pattern) := by
  induction es with
  | nil => rfl
  | cons e rest ihl =>
    cases e with
    | mk l n =>
      have hn := ih _ (List.mem_cons_self _ _)
      simp only [edge.n_mk] at hn
      simp only [deletePrefixEdgesChk, deletePrefixEdges]
      by_cases hl : l = label
      · simp only [hl, if_true]
        split
        · rfl
        · by_cases hlen : pattern.length > n.pfx.length
          · simp only [hlen, if_true, sliceFrom_of_lt hlen, hn]
          · simp only [hlen, if_false, sliceFrom_length, hn]
      · simp only [hl, if_false]
        rw [ihl (fun e he => ih e (List.mem_cons_of_mem _ he))]
        cases deletePrefixEdges rest label pattern <;> rfl

/-- The checked `deletePrefix` with enough fuel never panics and does what `deletePrefix`
does. -/
theorem deletePrefixNodeChk_eq (n : node) : ∀ (fuel : Nat) (p : Str), walkFuel n ≤ fuel →
    deletePrefixNodeChk fuel true n p = some (deletePrefixNode n p) := by
  induction n using node.induct with
  | mk leaf d pf es ih =>
    intro fuel p hf
    cases p with
    | nil =>
      simp only [deletePrefixNodeChk, deletePrefixNode, List.length_nil, if_true]
      rw [recursiveWalkChk_eq _ _ fuel 0 hf, recursiveWalkSt_eq, recursiveWalk_false_preorder,
        callsUntil_fold (fun (c : Int) _ _ => c + 1), foldl_count]
      simp
    | cons b t =>
      have hes : ∀ e ∈ es, ∀ (p : Str),
          deletePrefixNodeChk fuel true e.n p = some (deletePrefixNode e.n p) := by
        intro e he p
        refine ih e he fuel p ?_
        have := walkFuel_le_of_mem he
        rw [walkFuel_mk] at hf
        omega
      simp only [deletePrefixNodeChk, deletePrefixNode, List.length_cons, Nat.add_one_ne_zero,
        if_false, List.getElem?_cons_zero, deletePrefixEdgesChk_eq fuel es _ _ hes]
      cases deletePrefixEdges es (byteString b) (b :: t) <;> rfl

theorem Tree.DeletePrefixChk_eq (tr : Tree) (fuel : Nat) (hf : walkFuel tr.root ≤ fuel)
    (p : Str) : tr.DeletePrefixChk fuel p = some (tr.DeletePrefix p) := by
  unfold Tree.DeletePrefixChk Tree.DeletePrefix
  rw [deletePrefixNodeChk_eq _ fuel p hf]
  rfl

/-! ### WalkPath -/

theorem walkPathEdgesChk_some {σ : Type} (fn : walkFnSt σ) (es : List edge)
    (ih : ∀ e ∈ es, ∀ (p : Str) (s : σ), ∃ r, walkPathNodeChk fn e.n p s = some r)
    (label pattern : Str) (s : σ) : ∃ r, walkPathEdgesChk fn es label pattern s = some r := by
  induction es with
  | nil => exact ⟨_, rfl⟩
  | cons e rest ihl =>
    cases e with
    | mk l n =>
      have hn := ih _ (List.mem_cons_self _ _)
      simp only [edge.n_mk] at hn
      simp only [walkPathEdgesChk]
      by_cases hl : l = label
      · simp only [hl, if_true]
        by_cases hp : hasPrefix pattern n.pfx = true
        · simp only [hp, if_true, sliceFrom_of_hasPrefix hp]
          exact hn _ _
        · simp [hp]
      · simp only [hl, if_false]
        exact ihl (fun e he => ih e (List.mem_cons_of_mem _ he))

/-- The checked `WalkPath` with a callback that leaves the tree alone never panics. -/
theorem walkPathNodeChk_some {σ : Type} (fn : walkFnSt σ) (n : node) :
    ∀ (p : Str) (s : σ), ∃ r, walkPathNodeChk fn n p s = some r := by
  induction n using node.induct with
  | mk leaf d pf es ih =>
    intro p s
    have hes := walkPathEdgesChk_some fn es ih
    cases leaf with
    | none =>
      cases p with
      | nil => simp [walkPathNodeChk]
      | cons b t =>
        obtain ⟨r, hr⟩ := hes (byteString b) (b :: t) s
        exact ⟨r, by simp [walkPathNodeChk, hr]⟩
    | some lf =>
      cases hb : (fn s lf.key lf.value).1 with
      | true => simp [walkPathNodeChk, hb]
      | false =>
        cases p with
        | nil => simp [walkPathNodeChk, hb]
        | cons b t =>
          obtain ⟨r, hr⟩ := hes (byteString b) (b :: t) (fn s lf.key lf.value).2
          simp [walkPathNodeChk, hb, hr]

theorem walkPathEdgesChk_pure (fn : walkFn) (es : List edge)
    (ih : ∀ e ∈ es, ∀ (p : Str),
      (walkPathNodeChk fn.st e.n p ()).map Prod.fst = some (walkPathNode e.n p fn))
    (label pattern : Str) :
    (walkPathEdgesChk fn.st es label pattern ()).map Prod.fst =
      some (walkPathEdges es label pattern fn) := by
  induction es with
  | nil => rfl
  | cons e rest ihl =>
    cases e with
    | mk l n =>
      have hn := ih _ (List.mem_cons_self _ _)
      simp only [edge.n_mk] at hn
      simp only [walkPathEdgesChk, walkPathEdges]
      by_cases hl : l = label
      · simp only [hl, if_true]
        by_cases hp : hasPrefix pattern n.pfx = true
        · simp only [hp, if_true, sliceFrom_of_hasPrefix hp]
          exact hn _
        · simp [hp]
      · simp only [hl, if_false]
        exact ihl (fun e he => ih e (List.mem_cons_of_mem _ he))

/-- For a callback without a state of its own the checked `WalkPath` makes the calls of
`WalkPath`. -/
theorem walkPathNodeChk_pure (fn : walkFn) (n : node) : ∀ (p : Str),
    (walkPathNodeChk fn.st n p ()).map Prod.fst = some (walkPathNode n p fn) := by
  induction n using node.induct with
  | mk leaf d pf es ih =>
    intro p
    have hes := walkPathEdgesChk_pure fn es ih
    cases leaf with
    | none =>
      cases p with
      | nil => simp [walkPathNodeChk, walkPathNode]
      | cons b t =>
        have := hes (byteString b) (b :: t)
        simpa [walkPathNodeChk, walkPathNode] using this
    | some lf =>
      cases hb : fn lf.key lf.value with
      | true => simp [walkPathNodeChk, walkPathNode, walkFn.st, hb]
      | false =>
        cases p with
        | nil => simp [walkPathNodeChk, walkPathNode, walkFn.st, hb]
        | cons b t =>
          have := hes (byteString b) (b :: t)
          rw [Option.map_eq_some'] at this
          obtain ⟨r, hr, hr1⟩ := this
          have hr2 : walkPathEdgesChk fn.st es (byteString b) (b :: t)
              (fn.st () lf.key lf.value).2 = some r := hr
          have hb1 : (fn.st () lf.key lf.value).1 = false := hb
          simp only [walkPathNodeChk, walkPathNode, hb, hb1, Bool.false_eq_true, if_false,
            List.length_cons, Nat.add_one_ne_zero, List.getElem?_cons_zero, hr2,
            Option.map_some', ← hr1]

/-! ### WalkPrefix -/

theorem walkPrefixEdgesChk_some {σ : Type} (fn : walkFnSt σ) (fuel : Nat) (es : List edge)
    (ih : ∀ e ∈ es, ∀ (p : Str) (s : σ), ∃ r, walkPrefixNodeChk fn fuel e.n p s = some r)
    (hfuel : ∀ e ∈ es, walkFuel e.n ≤ fuel)
    (label pattern : Str) (s : σ) :
    ∃ r, walkPrefixEdgesChk fn fuel es label pattern s = some r := by
  induction es with
  | nil => exact ⟨_, rfl⟩
  | cons e rest ihl =>
    cases e with
    | mk l n =>
      have hn := ih _ (List.mem_cons_self _ _)
      have hfn := hfuel _ (List.mem_cons_self _ _)
      simp only [edge.n_mk] at hn hfn
      simp only [walkPrefixEdgesChk]
      by_cases hl : l = label
      · simp only [hl, if_true]
        by_cases hp : hasPrefix pattern n.pfx = true
        · simp only [hp, if_true, sliceFrom_of_hasPrefix hp]
          exact hn _ _
        · by_cases hq : hasPrefix n.pfx pattern = true
          · simp [hp, hq, recursiveWalkChk_eq fn n fuel s hfn]
          · simp [hp, hq]
      · simp only [hl, if_false]
        exact ihl (fun e he => ih e (List.mem_cons_of_mem _ he))
          (fun e he => hfuel e (List.mem_cons_of_mem _ he))

/-- The checked `WalkPrefix` with a callback that leaves the tree alone and enough fuel never
panics. -/
theorem walkPrefixNodeChk_some {σ : Type} (fn : walkFnSt σ) (n : node) :
    ∀ (fuel : Nat) (p : Str) (s : σ), walkFuel n ≤ fuel →
      ∃ r, walkPrefixNodeChk fn fuel n p s = some r := by
  induction n using node.induct with
  | mk leaf d pf es ih =>
    intro fuel p s hf
    cases p with
    | nil => simp [walkPrefixNodeChk, recursiveWalkChk_eq fn _ fuel s hf]
    | cons b t =>
      have hfuel : ∀ e ∈ es, walkFuel e.n ≤ fuel := by
        intro e he
        have := walkFuel_le_of_mem he
        rw [walkFuel_mk] at hf
        omega
      obtain ⟨r, hr⟩ := walkPrefixEdgesChk_some fn fuel es
        (fun e he p s => ih e he fuel p s (hfuel e he)) hfuel (byteString b) (b :: t) s
      exact ⟨r, by simp [walkPrefixNodeChk, hr]⟩

theorem recursiveWalkChk_pure (fn : walkFn) (n : node) (fuel : Nat) (hf : walkFuel n ≤ fuel) :
    (recursiveWalkChk fn.st fuel n ()).map (fun r => (r.1, r.2.2)) =
      some ((recursiveWalk n fn).1, ()) := by
  rw [recursiveWalkChk_eq fn.st n fuel () hf, recursiveWalk_eq_St]
  rfl

theorem walkPrefixEdgesChk_pure (fn : walkFn) (fuel : Nat) (es : List edge)
    (ih : ∀ e ∈ es, ∀ (p : Str),
      (walkPrefixNodeChk fn.st fuel e.n p ()).map Prod.fst = some (walkPrefixNode e.n p fn))
    (hfuel : ∀ e ∈ es, walkFuel e.n ≤ fuel) (label pattern : Str) :
    (walkPrefixEdgesChk fn.st fuel es label pattern ()).map Prod.fst =
      some (walkPrefixEdges es label pattern fn) := by
  induction es with
  | nil => rfl
  | cons e rest ihl =>
    cases e with
    | mk l n =>
      have hn := ih _ (List.mem_cons_self _ _)
      have hfn := hfuel _ (List.mem_cons_self _ _)
      simp only [edge.n_mk] at hn hfn
      simp only [walkPrefixEdgesChk, walkPrefixEdges]
      by_cases hl : l = label
      · simp only [hl, if_true]
        by_cases hp : hasPrefix pattern n.pfx = true
        · simp only [hp, if_true, sliceFrom_of_hasPrefix hp]
          exact hn _
        · by_cases hq : hasPrefix n.pfx pattern = true
          · simp [hp, hq, recursiveWalkChk_pure fn n fuel hfn]
          · simp [hp, hq]
      · simp only [hl, if_false]
        exact ihl (fun e he => ih e (List.mem_cons_of_mem _ he))
          (fun e he => hfuel e (List.mem_cons_of_mem _ he))

/-- For a callback without a state of its own the checked `WalkPrefix` with enough fuel makes
the calls of `WalkPrefix`. -/
theorem walkPrefixNodeChk_pure (fn : walkFn) (n : node) : ∀ (fuel : Nat) (p : Str),
    walkFuel n ≤ fuel →
      (walkPrefixNodeChk fn.st fuel n p ()).map Prod.fst = some (walkPrefixNode n p fn) := by
  induction n using node.induct with
  | mk leaf d pf es ih =>
    intro fuel p hf
    cases p with
    | nil => simp [walkPrefixNodeChk, walkPrefixNode, recursiveWalkChk_pure fn _ fuel hf]
    | cons b t =>
      have hfuel : ∀ e ∈ es, walkFuel e.n ≤ fuel := by
        intro e he
        have := walkFuel_le_of_mem he
        rw [walkFuel_mk] at hf
        omega
      have := walkPrefixEdgesChk_pure fn fuel es
        (fun e he p => ih e he fuel p (hfuel e he)) hfuel (byteString b) (b :: t)
      simpa [walkPrefixNodeChk, walkPrefixNode] using this

/-! ### All operations -/

/-- Claim C13 (no public operation aborts): on every reachable tree and for every argument,
each operation with its panics made explicit returns. `Insert`, `Get`, `Delete` and
`LongestPrefix`, with every index and slice expression checked and the panics of `updateEdge`,
`delEdge` and `mergeChild` in place, return what the unchecked operations return. With enough
fuel for the loop of `recursiveWalk`, which reads `n.edges[i]` by its index, the same holds
of `DeletePrefix` and `ToMap`, and of `Walk` with any callback that leaves the tree alone
(it may have a state of its own); `WalkPrefix` and `WalkPath` return for any such callback,
and make the calls of the unchecked operations for a callback without a state. The index
expressions of `longestPrefix` are in range, and a string that has a prefix is at least as
long. -/
theorem C13_no_abort (tr : Tree) (h : Reachable tr) :
    (∀ k v, tr.InsertChk k v = some (tr.Insert k v)) ∧
    (∀ k, ∃ t1 r, tr.Delete k = some (t1, r) ∧ Reachable t1) ∧
    (∀ k1 k2, longestPrefixChk k1 k2 = some (longestPrefix k1 k2)) ∧
    (∀ s p, hasPrefix s p = true → p.length ≤ s.length) ∧
    (∀ k, tr.GetChk k = some (tr.Get k)) ∧
    (∀ k, ∃ t1 r, tr.DeleteChk k = some (t1, r) ∧ tr.DeleteChk k = tr.Delete k) ∧
    (∀ k, tr.LongestPrefixChk k = some (tr.LongestPrefix k)) ∧
    (∀ p fuel, walkFuel tr.root ≤ fuel →
      tr.DeletePrefixChk fuel p = some (tr.DeletePrefix p)) ∧
    (∀ fuel, walkFuel tr.root ≤ fuel → tr.ToMapChk fuel = some tr.ToMap) ∧
    (∀ (σ : Type) (fn : walkFnSt σ) (s : σ) (fuel : Nat), walkFuel tr.root ≤ fuel →
      tr.WalkChk fn fuel s = some (tr.WalkSt fn s)) ∧
    (∀ (σ : Type) (fn : walkFnSt σ) (s : σ) (p : Str) (fuel : Nat), walkFuel tr.root ≤ fuel →
      ∃ r, tr.WalkPrefixChk fn fuel p s = some r) ∧
    (∀ (σ : Type) (fn : walkFnSt σ) (s : σ) (p : Str), ∃ r, tr.WalkPathChk fn p s = some r) ∧
    (∀ (fn : walkFn) (p : Str) (fuel : Nat), walkFuel tr.root ≤ fuel →
      (tr.WalkPrefixChk fn.st fuel p ()).map Prod.fst = some (tr.WalkPrefix p fn)) ∧
    (∀ (fn : walkFn) (p : Str),
      (tr.WalkPathChk fn.st p ()).map Prod.fst = some (tr.WalkPath p fn)) := by
  have hdel : ∀ k, ∃ t1 r, tr.Delete k = some (t1, r) := by
    intro k
    cases hf : findLeaf tr.root k with
    | none => exact ⟨tr, _, Tree.Delete_of_none tr h.Inv k hf⟩
    | some lf =>
      obtain ⟨t1, hd, -⟩ := Tree.Delete_of_some tr h.Inv k lf hf
      exact ⟨t1, _, hd⟩
  refine ⟨Tree.InsertChk_eq tr, fun k => ?_, longestPrefixChk_eq, fun s p => hasPrefix_length,
    fun k => getNodeChk_eq tr.root k, fun k => ?_, Tree.LongestPrefixChk_eq tr,
    fun p fuel hf => Tree.DeletePrefixChk_eq tr fuel hf p,
    fun fuel hf => Tree.ToMapChk_eq tr fuel hf,
    fun σ fn s fuel hf => recursiveWalkChk_eq fn tr.root fuel s hf,
    fun σ fn s p fuel hf => walkPrefixNodeChk_some fn tr.root fuel p s hf,
    fun σ fn s p => walkPathNodeChk_some fn tr.root p s,
    fun fn p fuel hf => walkPrefixNodeChk_pure fn tr.root fuel p hf,
    fun fn p => walkPathNodeChk_pure fn tr.root p⟩
  · obtain ⟨t1, r, hd⟩ := hdel k
    refine ⟨t1, r, hd, ?_⟩
    obtain ⟨rc, ops, hr⟩ := h
    refine ⟨rc, ops ++ [.delete k], ?_⟩
    rw [Tree.run_append, hr]
    simp [Tree.run, Tree.apply, hd]
  · obtain ⟨t1, r, hd⟩ := hdel k
    exact ⟨t1, r, by rw [Tree.DeleteChk_eq, hd], Tree.DeleteChk_eq tr k⟩

/-- Witness of C13: the tree of the four keys, for which fuel 23 is enough. -/
theorem C13_no_abort_witness :
    Reachable romanTree ∧ walkFuel romanTree.root = 23 ∧
    (∀ k v, romanTree.InsertChk k v = some (romanTree.Insert k v)) ∧
    (∀ k, ∃ t1 r, romanTree.Delete k = some (t1, r) ∧ Reachable t1) ∧
    (∀ k, romanTree.GetChk k = some (romanTree.Get k)) ∧
    romanTree.ToMapChk 23 = some romanTree.ToMap ∧
    romanTree.DeletePrefixChk 23 rom = some (romanTree.DeletePrefix rom) :=
  ⟨romanTree_reachable, rfl, (C13_no_abort romanTree romanTree_reachable).1,
    (C13_no_abort romanTree romanTree_reachable).2.1,
    (C13_no_abort romanTree romanTree_reachable).2.2.2.2.1,
    (C13_no_abort romanTree romanTree_reachable).2.2.2.2.2.2.2.2.1 23 (by decide),
    (C13_no_abort romanTree romanTree_reachable).2.2.2.2.2.2.2.1 rom 23 (by decide)⟩

end cloudtree
